import Mathlib

/-!
# Verification of the `journal` segment file format and lifecycle

Shallow embedding of the append-only segmented journal implemented by the Go
package `journal` (files `fileformat.go`, `segmentwriter.go`, `segmentreader.go`,
`journalwriter.go`, `journal.go`, `reader.go`, `segments.go`, `journalstate.go`,
and the seal/trim engine).  Byte sequences are modelled as `List Nat` with every
byte below 256 by construction; 64-bit machine arithmetic is modelled on `Nat`
with explicit `% 2^64` at the points where Go's `uint64` operations can wrap.

The rolling checksum `xxhash64` comes from the external library
`github.com/cespare/xxhash/v2`; its streaming digest depends only on the byte
sequence fed to it, so the digest state is modelled as the list of bytes written
so far and the library's `Sum64` as an arbitrary function `hash : List Nat → Nat`
(reduced mod `2^64`).  All round-trip and corruption-detection theorems are
proved for every such function, hence in particular for the real xxhash64.
-/

namespace Journal

/-- `2^64`, the modulus of Go's `uint64` arithmetic. -/
def w64 : Nat := 18446744073709551616

/-- `Sum64` of the modelled streaming digest: an arbitrary 64-bit hash of the
byte sequence written so far (the real implementation is xxhash64). -/
def sum64 (hash : List Nat → Nat) (bytes : List Nat) : Nat := hash bytes % w64

/-- Little-endian encoding of a 64-bit value into 8 bytes
(Go `binary.LittleEndian.PutUint64`). -/
def le64 (v : Nat) : List Nat :=
  [v % 256, v / 256 % 256, v / 256 ^ 2 % 256, v / 256 ^ 3 % 256,
   v / 256 ^ 4 % 256, v / 256 ^ 5 % 256, v / 256 ^ 6 % 256, v / 256 ^ 7 % 256]

/-- Little-endian decoding of the first 8 bytes
(Go `binary.LittleEndian.Uint64`); assumes the list holds at least 8 bytes. -/
def leDec (l : List Nat) : Nat :=
  match l with
  | b0 :: b1 :: b2 :: b3 :: b4 :: b5 :: b6 :: b7 :: _ =>
    b0 + b1 * 256 + b2 * 256 ^ 2 + b3 * 256 ^ 3 + b4 * 256 ^ 4 + b5 * 256 ^ 5 +
      b6 * 256 ^ 6 + b7 * 256 ^ 7
  | _ => 0

/-- Go `binary.AppendUvarint`: little-endian base-128 with continuation bit.
Faithful to the Go loop `for x >= 0x80 { append(byte(x)|0x80); x >>= 7 }`. -/
def appendUvarint (x : Nat) : List Nat :=
  if h : x < 128 then [x] else (x % 128 + 128) :: appendUvarint (x / 128)
decreasing_by exact Nat.div_lt_self (by omega) (by omega)

/-- The loop of Go `binary.Uvarint` (`encoding/binary`); accumulator `x`,
shift expressed as the weight `2^s`, byte index `i`.  `none` covers both of
Go's failure returns (`n == 0` for truncated input, `n < 0` for overflow past
`MaxVarintLen64 = 10` bytes); both are treated identically by the callers.
On bytes `< 256` the accumulation `x + (b-128)*2^s` equals Go's
`x | uint64(b&0x7f)<<s` because the merged bit ranges are disjoint. -/
def uvarintLoop : List Nat → Nat → Nat → Nat → Option (Nat × Nat)
  | [], _, _, _ => none
  | b :: rest, x, s, i =>
    if i = 10 then none
    else if b < 128 then
      if i = 9 ∧ b > 1 then none
      else some (x + b * 2 ^ s, i + 1)
    else uvarintLoop rest (x + (b - 128) * 2 ^ s) (s + 7) (i + 1)

/-- Go `binary.Uvarint`: returns the decoded value and the number of bytes
consumed, or `none` on truncated/overflowing input. -/
def uvarint (buf : List Nat) : Option (Nat × Nat) := uvarintLoop buf 0 0 0

/-! ## Basic lemmas about the primitives -/

theorem w64_pos : 0 < w64 := by decide

theorem sum64_lt (hash : List Nat → Nat) (bytes : List Nat) :
    sum64 hash bytes < w64 := Nat.mod_lt _ w64_pos

theorem le64_length (v : Nat) : (le64 v).length = 8 := rfl

theorem le64_bytes_lt (v : Nat) : ∀ b ∈ le64 v, b < 256 := by
  intro b hb
  simp only [le64, List.mem_cons, List.mem_singleton, List.not_mem_nil, or_false] at hb
  rcases hb with h | h | h | h | h | h | h | h <;> subst h <;>
    exact Nat.mod_lt _ (by norm_num)

theorem leDec_le64 (v : Nat) (hv : v < w64) (rest : List Nat) :
    leDec (le64 v ++ rest) = v := by
  show v % 256 + v / 256 % 256 * 256 + v / 256 ^ 2 % 256 * 256 ^ 2 +
      v / 256 ^ 3 % 256 * 256 ^ 3 + v / 256 ^ 4 % 256 * 256 ^ 4 +
      v / 256 ^ 5 % 256 * 256 ^ 5 + v / 256 ^ 6 % 256 * 256 ^ 6 +
      v / 256 ^ 7 % 256 * 256 ^ 7 = v
  have h8 : v / 256 ^ 7 % 256 = v / 256 ^ 7 := by
    apply Nat.mod_eq_of_lt
    have : v < 256 ^ 8 := by
      have : (256 : Nat) ^ 8 = w64 := by norm_num [w64]
      omega
    omega
  rw [h8]
  omega

/-- The first byte of an 8-byte little-endian encoding of an odd value is odd. -/
theorem le64_head_odd (v : Nat) (hv : v % 2 = 1) :
    ∃ b rest, le64 v = b :: rest ∧ b % 2 = 1 := by
  refine ⟨v % 256, _, rfl, ?_⟩
  omega

theorem appendUvarint_head_even (v : Nat) (hv : v % 2 = 0) :
    ∃ b rest, appendUvarint v = b :: rest ∧ b % 2 = 0 := by
  rw [appendUvarint]
  by_cases h : v < 128
  · exact ⟨v, [], by simp [h], hv⟩
  · exact ⟨v % 128 + 128, appendUvarint (v / 128), by simp [h], by omega⟩

theorem uvarintLoop_encode (v : Nat) : ∀ x s i rest, v < 2 ^ (64 - 7 * i) → i ≤ 9 →
    uvarintLoop (appendUvarint v ++ rest) x s i =
      some (x + v * 2 ^ s, i + (appendUvarint v).length) := by
  induction v using Nat.strong_induction_on with
  | _ v ih =>
    intro x s i rest hv hi
    rw [appendUvarint]
    by_cases h : v < 128
    · simp only [h, dite_true, List.cons_append, List.nil_append, uvarintLoop, List.length_cons,
        List.length_nil]
      have hi10 : ¬(i = 10) := by omega
      by_cases h9 : i = 9
      · subst h9
        have : v < 2 := by
          have : (2 : Nat) ^ (64 - 7 * 9) = 2 := by norm_num
          omega
        simp only [hi10, if_false, h, if_true]
        have hnb : ¬(v > 1) := by omega
        simp [hnb]
      · simp only [hi10, if_false, h, if_true]
        have hnb : ¬(i = 9 ∧ v > 1) := by omega
        simp [hnb]
    · have h128 : 128 ≤ v := by omega
      have hi8 : i ≤ 8 := by
        by_contra hc
        have : i = 9 := by omega
        subst this
        have : (2 : Nat) ^ (64 - 7 * 9) = 2 := by norm_num
        omega
    -- recursive byte: continuation bit set
      simp only [h, dite_false, List.cons_append, uvarintLoop, List.length_cons]
      have hb : ¬(v % 128 + 128 < 128) := by omega
      have hi10 : ¬(i = 10) := by omega
      simp only [hi10, if_false, hb, if_false]
      have hdiv : v / 128 < 2 ^ (64 - 7 * (i + 1)) := by
        have hexp : (2 : Nat) ^ (64 - 7 * i) = 128 * 2 ^ (64 - 7 * (i + 1)) := by
          have h1 : 64 - 7 * i = 7 + (64 - 7 * (i + 1)) := by omega
          rw [h1, pow_add]
          norm_num
        apply Nat.div_lt_of_lt_mul
        omega
      have := ih (v / 128) (Nat.div_lt_self (by omega) (by omega))
        (x + (v % 128 + 128 - 128) * 2 ^ s) (s + 7) (i + 1) rest hdiv (by omega)
      rw [this]
      congr 2
      · have hpow : (2 : Nat) ^ (s + 7) = 2 ^ s * 128 := by
          rw [pow_add]; norm_num
        have hv128 : v % 128 + 128 * (v / 128) = v := Nat.mod_add_div v 128
        have hsub : v % 128 + 128 - 128 = v % 128 := by omega
        rw [hsub, hpow]
        conv_rhs => rw [← hv128]
        ring
      · omega

theorem uvarint_encode (v : Nat) (hv : v < w64) (rest : List Nat) :
    uvarint (appendUvarint v ++ rest) = some (v, (appendUvarint v).length) := by
  have : v < 2 ^ (64 - 7 * 0) := by
    have : (2 : Nat) ^ (64 - 7 * 0) = w64 := by norm_num [w64]
    omega
  have h := uvarintLoop_encode v 0 0 0 rest this (by omega)
  simpa [uvarint] using h

theorem appendUvarint_length_le_aux (k : Nat) : ∀ v, v < 2 ^ (7 * k) → 1 ≤ k →
    (appendUvarint v).length ≤ k := by
  induction k with
  | zero => omega
  | succ k ih =>
    intro v hv _
    rw [appendUvarint]
    by_cases h : v < 128
    · simp [h]
    · simp only [h, dite_false, List.length_cons]
      have hk : 1 ≤ k := by
        by_contra hc
        have : k = 0 := by omega
        subst this
        simp at hv
        omega
      have : v / 128 < 2 ^ (7 * k) := by
        have hexp : (2 : Nat) ^ (7 * (k + 1)) = 128 * 2 ^ (7 * k) := by
          have h1 : 7 * (k + 1) = 7 + 7 * k := by omega
          rw [h1, pow_add]; norm_num
        apply Nat.div_lt_of_lt_mul
        omega
      have := ih (v / 128) this hk
      omega

theorem appendUvarint_length_le (v : Nat) (hv : v < w64) :
    (appendUvarint v).length ≤ 10 := by
  apply appendUvarint_length_le_aux 10 v _ (by omega)
  have : w64 ≤ 2 ^ (7 * 10) := by norm_num [w64]
  omega

theorem appendUvarint_length_pos (v : Nat) : 1 ≤ (appendUvarint v).length := by
  rw [appendUvarint]
  by_cases h : v < 128 <;> simp [h]

theorem appendUvarint_bytes_lt (v : Nat) : ∀ b ∈ appendUvarint v, b < 256 := by
  induction v using Nat.strong_induction_on with
  | _ v ih =>
    intro b hb
    rw [appendUvarint] at hb
    by_cases h : v < 128
    · simp [h] at hb; omega
    · simp only [h, dite_false, List.mem_cons] at hb
      rcases hb with h1 | h1
      · omega
      · exact ih (v / 128) (Nat.div_lt_self (by omega) (by omega)) b h1

theorem uvarintLoop_some_bounds : ∀ (l : List Nat) x s i v n,
    uvarintLoop l x s i = some (v, n) → i < n ∧ n ≤ i + l.length := by
  intro l
  induction l with
  | nil => intro x s i v n h; simp [uvarintLoop] at h
  | cons b rest ih =>
    intro x s i v n h
    simp only [uvarintLoop] at h
    by_cases h10 : i = 10
    · simp [h10] at h
    · simp only [h10, if_false] at h
      by_cases hb : b < 128
      · simp only [hb, if_true] at h
        by_cases h9 : i = 9 ∧ b > 1
        · simp [h9] at h
        · simp only [h9, if_false, Option.some.injEq, Prod.mk.injEq] at h
          simp only [List.length_cons]
          omega
      · simp only [hb, if_false] at h
        have := ih _ _ _ _ _ h
        simp only [List.length_cons]
        omega

theorem uvarint_some_bounds (l : List Nat) (v n : Nat) (h : uvarint l = some (v, n)) :
    1 ≤ n ∧ n ≤ l.length := by
  have := uvarintLoop_some_bounds l 0 0 0 v n h
  omega

theorem uvarintLoop_prefix_agree : ∀ (l l' : List Nat) x s i v n,
    uvarintLoop l x s i = some (v, n) → l.take (n - i) = l'.take (n - i) →
    uvarintLoop l' x s i = some (v, n) := by
  intro l
  induction l with
  | nil => intro l' x s i v n h; simp [uvarintLoop] at h
  | cons b rest ih =>
    intro l' x s i v n h hpre
    have hb1 := uvarintLoop_some_bounds _ _ _ _ _ _ h
    have hni : 1 ≤ n - i := by omega
    match l' with
    | [] =>
      exfalso
      have : (b :: rest).take (n - i) ≠ [] := by
        simp [List.take_eq_nil_iff]
        omega
      rw [hpre] at this
      simp at this
    | b' :: rest' =>
      have hbb : b = b' ∧ rest.take (n - i - 1) = rest'.take (n - i - 1) := by
        obtain ⟨m, hm⟩ : ∃ m, n - i = m + 1 := ⟨n - i - 1, by omega⟩
        rw [hm] at hpre
        simp only [List.take_succ_cons, List.cons.injEq] at hpre
        refine ⟨hpre.1, ?_⟩
        have : m = n - i - 1 := by omega
        rw [← this]
        exact hpre.2
      obtain ⟨rfl, hrest⟩ := hbb
      simp only [uvarintLoop] at h ⊢
      by_cases h10 : i = 10
      · simp [h10] at h
      · simp only [h10, if_false] at h ⊢
        by_cases hlt : b < 128
        · simp only [hlt, if_true] at h ⊢
          exact h
        · simp only [hlt, if_false] at h ⊢
          apply ih rest' _ _ _ _ _ h
          have hb2 := uvarintLoop_some_bounds _ _ _ _ _ _ h
          have : n - i - 1 = n - (i + 1) := by omega
          rw [this] at hrest
          exact hrest

theorem uvarint_prefix_agree (l l' : List Nat) (v n : Nat)
    (h : uvarint l = some (v, n)) (hpre : l.take n = l'.take n) :
    uvarint l' = some (v, n) := by
  apply uvarintLoop_prefix_agree l l' 0 0 0 v n h
  simpa using hpre

/-! ## Data model: statuses, segments, configuration -/

/-- Segment status (`status.go`). -/
inductive Status where
  | invalid
  | draft
  | finalized
  | sealed
  | sealingTemp
deriving DecidableEq, Repr

/-- `Status.IsSealed` (`status.go`). -/
def Status.isSealed : Status → Bool
  | .sealed => true
  | _ => false

/-- `Status.IsDraft` (`status.go`). -/
def Status.isDraft : Status → Bool
  | .draft => true
  | _ => false

/-- `Status.CanSeal` (`status.go`). -/
def Status.canSeal : Status → Bool
  | .finalized => true
  | _ => false

/-- A segment as carried in the in-memory catalog and encoded in file names
(`segments.go`): first timestamp, first record number, ordinal, status. -/
structure Segment where
  ts : Nat
  recnum : Nat
  segnum : Nat
  status : Status
deriving DecidableEq, Repr

/-- `Segment.IsZero` (`segments.go`): the zero segment has `segnum == 0`. -/
def Segment.isZero (s : Segment) : Bool := s.segnum == 0

/-- The zero `Segment{}` value (Go zero value; `Status` zero value is `Invalid`). -/
def segZero : Segment := ⟨0, 0, 0, .invalid⟩

/-- `compareSegments` (`segments.go`): by `segnum`, then by status. -/
def Status.rank : Status → Nat
  | .invalid => 0
  | .draft => 1
  | .finalized => 2
  | .sealed => 3
  | .sealingTemp => 4

/-- `compareSegments` as a ≤-style comparison result: negative, zero or positive. -/
def compareSegments (a b : Segment) : Int :=
  if a.segnum ≠ b.segnum then (a.segnum : Int) - (b.segnum : Int)
  else (a.status.rank : Int) - (b.status.rank : Int)

/-- Journal configuration relevant to the byte-level model (`journal.go`
`Journal` fields: `maxFileSize`, 32-byte invariants). -/
structure JConfig where
  maxFileSize : Nat
  journalInvariant : List Nat
  segmentInvariant : List Nat

/-- The magic values (`fileformat.go`): 8 ASCII bytes `JOURNLA` + `D`/`F`/`S`
packed little-endian into a `uint64`. -/
def magicV1Draft : Nat :=
  74 + 79 * 256 + 85 * 256 ^ 2 + 82 * 256 ^ 3 + 78 * 256 ^ 4 + 76 * 256 ^ 5 +
    65 * 256 ^ 6 + 68 * 256 ^ 7

/-- Finalized magic (`JOURNLAF`). -/
def magicV1Finalized : Nat :=
  74 + 79 * 256 + 85 * 256 ^ 2 + 82 * 256 ^ 3 + 78 * 256 ^ 4 + 76 * 256 ^ 5 +
    65 * 256 ^ 6 + 70 * 256 ^ 7

/-- Sealed magic (`JOURNLAS`). -/
def magicV1Sealed : Nat :=
  74 + 79 * 256 + 85 * 256 ^ 2 + 82 * 256 ^ 3 + 78 * 256 ^ 4 + 76 * 256 ^ 5 +
    65 * 256 ^ 6 + 83 * 256 ^ 7

/-- `segmentHeaderSize` (`fileformat.go`). -/
def segmentHeaderSize : Nat := 128

/-- `maxRecHeaderLen` (`fileformat.go`): two maximal uvarints. -/
def maxRecHeaderLen : Nat := 20

/-- `recordFlagCommit` (`fileformat.go`). -/
def recordFlagCommit : Nat := 1

/-- `appendRecordHeader` (`fileformat.go`): `uvarint(size << 1)` then
`uvarint(tsDelta)`; the shift is Go `uint64` arithmetic hence mod `2^64`. -/
def appendRecordHeader (size tsDelta : Nat) : List Nat :=
  appendUvarint (size * 2 % w64) ++ appendUvarint (tsDelta % w64)

/-! ## Segment writer (`segmentwriter.go`)

The writer's `*os.File` is modelled by `out`, the bytes appended to the file
after the 128-byte header; the streaming `xxhash.Digest` field `dataHash` by
`hashed`, the list of bytes fed to it so far. -/

/-- State of `segmentWriter`. -/
structure SegWriter where
  seg : Segment
  ts : Nat
  nextRec : Nat
  size : Nat
  hashed : List Nat
  out : List Nat
  uncommitted : Bool
deriving DecidableEq, Repr

/-- `startSegment` (`segmentwriter.go`): a fresh Draft writer; the Draft header
with placeholder `last_{ts,recnum} = 0` has been written (`size = 128`,
`out = []` holds the post-header bytes). -/
def swStart (segnum ts rec : Nat) : SegWriter where
  seg := ⟨ts, rec, segnum, .draft⟩
  ts := ts
  nextRec := rec
  size := segmentHeaderSize
  hashed := []
  out := []
  uncommitted := false

/-- `segmentWriter.writeRecord` (`segmentwriter.go` lines 130-166): clamp the
timestamp delta at 0, append framing + payload to both the file and the
rolling hash, bump counters. -/
def swWriteRecord (ts : Nat) (data : List Nat) (sw : SegWriter) : SegWriter :=
  let tsDelta := if ts > sw.ts then ts - sw.ts else 0
  let ts' := if ts > sw.ts then ts else sw.ts
  let h := appendRecordHeader data.length tsDelta
  { sw with
    ts := ts'
    hashed := sw.hashed ++ h ++ data
    out := sw.out ++ h ++ data
    uncommitted := true
    nextRec := sw.nextRec + 1
    size := sw.size + (h.length + data.length) }

/-- `segmentWriter.commit` (`segmentwriter.go` lines 168-186): no-op unless
uncommitted; otherwise append the 8-byte little-endian value
`dataHash.Sum64() | recordFlagCommit` and only afterwards feed those bytes
into the rolling hash. -/
def swCommit (hash : List Nat → Nat) (sw : SegWriter) : SegWriter :=
  if !sw.uncommitted then sw
  else
    let v := sum64 hash sw.hashed ||| recordFlagCommit
    let buf := le64 v
    { sw with
      uncommitted := false
      size := sw.size + 8
      hashed := sw.hashed ++ buf
      out := sw.out ++ buf }

/-- `segmentWriter.shouldRotate` (`segmentwriter.go` lines 254-256). -/
def swShouldRotate (maxFileSize : Nat) (sw : SegWriter) (size : Nat) : Bool :=
  sw.size + size > maxFileSize

/-! ## Segment header bytes (`fileformat.go`) -/

/-- The decoded `segmentHeader` struct (`fileformat.go`). -/
structure SegmentHeader where
  magic : Nat
  segmentNumber : Nat
  firstTimestamp : Nat
  firstRecordNumber : Nat
  lastTimestamp : Nat
  lastRecordNumber : Nat
  journalInvariant : List Nat
  segmentInvariant : List Nat
  unsealedDataSize : Nat
  headerChecksum : Nat
deriving DecidableEq, Repr

/-- The first 120 bytes (everything before the checksum) of an encoded header. -/
def encodeHeaderBody (j : JConfig) (magic segnum firstTS firstRecNum lastTS lastRecNum : Nat) :
    List Nat :=
  le64 magic ++ le64 segnum ++ le64 firstTS ++ le64 firstRecNum ++ le64 lastTS ++
    le64 lastRecNum ++ j.journalInvariant ++ j.segmentInvariant ++ le64 0

/-- `fillSegmentHeader` (`fileformat.go`): encode the fields little-endian and
append the xxhash64 of the first 120 bytes as the trailing checksum. -/
def fillSegmentHeader (hash : List Nat → Nat) (j : JConfig)
    (magic segnum firstTS firstRecNum lastTS lastRecNum : Nat) : List Nat :=
  let body := encodeHeaderBody j magic segnum firstTS firstRecNum lastTS lastRecNum
  body ++ le64 (sum64 hash body)

/-- Field extraction performed by `binary.Decode` in `readSegmentHeader`
(assumes 128 bytes are present). -/
def decodeHeader (buf : List Nat) : SegmentHeader where
  magic := leDec buf
  segmentNumber := leDec (buf.drop 8)
  firstTimestamp := leDec (buf.drop 16)
  firstRecordNumber := leDec (buf.drop 24)
  lastTimestamp := leDec (buf.drop 32)
  lastRecordNumber := leDec (buf.drop 40)
  journalInvariant := (buf.drop 48).take 32
  segmentInvariant := (buf.drop 80).take 32
  unsealedDataSize := leDec (buf.drop 112)
  headerChecksum := leDec (buf.drop 120)

/-- Errors surfaced by header validation (`journal.go` error values). -/
inductive HeaderErr where
  | corrupted
  | unsupportedVersion
  | incompatible
deriving DecidableEq, Repr

/-- `readSegmentHeader` (`segmentreader.go` lines 254-336): read 128 bytes
(short read ⇒ `errCorruptedFile`), decode, recompute the checksum of the first
120 bytes, then validate magic, status-category leniency, checksum, the
filename-derived segment fields, and the journal invariant, in that order. -/
def readSegmentHeader (hash : List Nat → Nat) (j : JConfig) (buf : List Nat)
    (seg : Segment) : Except HeaderErr SegmentHeader :=
  if buf.length < segmentHeaderSize then .error .corrupted
  else if (decodeHeader buf).magic ≠ magicV1Draft ∧ (decodeHeader buf).magic ≠ magicV1Sealed ∧
      (decodeHeader buf).magic ≠ magicV1Finalized then
    .error .unsupportedVersion
  else if seg.status.isSealed ∧ (decodeHeader buf).magic ≠ magicV1Sealed then .error .corrupted
  else if ¬seg.status.isSealed ∧ seg.status.isDraft ∧
      ((decodeHeader buf).magic ≠ magicV1Draft ∧ (decodeHeader buf).magic ≠ magicV1Finalized) then
    -- Draft file: finalized magic allowed because a crash may happen mid-rename
    .error .corrupted
  else if ¬seg.status.isSealed ∧ ¬seg.status.isDraft ∧ seg.status = .finalized ∧
      (decodeHeader buf).magic ≠ magicV1Finalized then .error .corrupted
  else if sum64 hash (buf.take (segmentHeaderSize - 8)) ≠ (decodeHeader buf).headerChecksum then
    .error .corrupted
  else if seg.segnum ≠ (decodeHeader buf).segmentNumber then .error .corrupted
  else if seg.ts ≠ (decodeHeader buf).firstTimestamp then .error .corrupted
  else if seg.recnum ≠ (decodeHeader buf).firstRecordNumber then .error .corrupted
  else if (decodeHeader buf).journalInvariant ≠ j.journalInvariant then .error .incompatible
  else .ok (decodeHeader buf)

/-! ## Segment reader (`segmentreader.go`) -/

/-- State of `segmentReader`; `input` is the unread suffix of the file,
`hashed` the bytes fed to `dataHash` so far.  The Go field `rec` is named
`recn` here because `rec` is reserved for the structure's recursor. -/
structure SegReader where
  seg : Segment
  input : List Nat
  hashed : List Nat
  recn : Nat
  ts : Nat
  size : Nat
  recordsInSeg : Nat
  committedRec : Nat
  committedTS : Nat
  committedSize : Nat
  data : List Nat
deriving DecidableEq, Repr

/-- Result of `segmentReader.next`: `io.EOF`, `errCorruptedFile`, or a record. -/
inductive ReadRes where
  | ok
  | eof
  | corrupt
deriving DecidableEq, Repr

/-- The record-framing decode inside `segmentReader.next` (`segmentreader.go`
lines 183-210): first uvarint is the shifted size (halved when unsealed,
taken as-is when sealed), second uvarint is the timestamp delta; either
decode failure is `errCorruptedFile`.  Returns `(dataSize, tsdelta, n)` with
`n = n1 + n2` the number of framing bytes consumed. -/
def parseRecHeader (isUnsealed : Bool) (b20 : List Nat) : Option (Nat × Nat × Nat) :=
  match uvarint b20 with
  | none => none
  | some (rawSize, n1) =>
    let dataSize := if isUnsealed then rawSize / 2 else rawSize
    match uvarint (b20.drop n1) with
    | none => none
    | some (tsdelta, n2) => some (dataSize, tsdelta, n1 + n2)

/-- One iteration of the `for` loop in `segmentReader.next` (`segmentreader.go`
lines 128-252).  `again` means a commit item was consumed and the loop
continues; `yield` means the call returns. -/
inductive StepOut where
  | again (sr : SegReader)
  | yield (r : ReadRes) (sr : SegReader)

/-- One loop iteration of `segmentReader.next`.  The `bufio` peek window is
`input.take maxRecHeaderLen`; an empty `input` is the clean-EOF check; the Go
locals (`isUnsealed`, `cb`, `actual`, `expected`, the intermediate `sr`
structs) are inlined. -/
def srStep (hash : List Nat → Nat) (sr : SegReader) : StepOut :=
  if sr.input.isEmpty then
    -- end of file; was there a commit?
    if !(!sr.seg.status.isSealed) || sr.size == sr.committedSize then .yield .eof sr
    else .yield .corrupt sr
  else if (!sr.seg.status.isSealed) ∧ sr.input.headD 0 % 2 = 1 then
    -- commit item: read 8 bytes, compare against the rolling hash
    if sr.input.length < 8 then .yield .corrupt sr
    else if leDec (sr.input.take 8) ≠ (sum64 hash sr.hashed ||| recordFlagCommit) then
      .yield .corrupt { sr with
        input := sr.input.drop 8
        hashed := sr.hashed ++ sr.input.take 8 }
    else if sr.recordsInSeg > 0 then
      .again { sr with
        input := sr.input.drop 8
        hashed := sr.hashed ++ sr.input.take 8
        size := sr.size + 8
        committedRec := sr.recn
        committedTS := sr.ts
        committedSize := sr.size + 8 }
    else
      -- commit without a prior record
      .yield .corrupt { sr with
        input := sr.input.drop 8
        hashed := sr.hashed ++ sr.input.take 8
        size := sr.size + 8 }
  else
    -- record item
    match parseRecHeader (!sr.seg.status.isSealed) (sr.input.take maxRecHeaderLen) with
    | none => .yield .corrupt sr
    | some (dataSize, tsdelta, n) =>
      if (sr.input.drop n).length < dataSize then
        -- EOF while reading record data
        .yield .corrupt { sr with
          hashed := if !sr.seg.status.isSealed then
              sr.hashed ++ (sr.input.take maxRecHeaderLen).take n
            else sr.hashed
          input := [] }
      else if !sr.seg.status.isSealed then
        .yield .ok { sr with
          input := (sr.input.drop n).drop dataSize
          hashed := sr.hashed ++ (sr.input.take maxRecHeaderLen).take n ++
            (sr.input.drop n).take dataSize
          recordsInSeg := sr.recordsInSeg + 1
          recn := sr.recn + 1
          ts := sr.ts + tsdelta
          size := sr.size + (n + dataSize)
          data := (sr.input.drop n).take dataSize }
      else
        .yield .ok { sr with
          input := (sr.input.drop n).drop dataSize
          recordsInSeg := sr.recordsInSeg + 1
          recn := sr.recn + 1
          ts := sr.ts + tsdelta
          size := sr.size + (n + dataSize)
          data := (sr.input.drop n).take dataSize
          committedRec := sr.recn + 1
          committedTS := sr.ts + tsdelta
          committedSize := sr.size + (n + dataSize) }

theorem parseRecHeader_some_bounds (u : Bool) (b20 : List Nat) (ds td n : Nat)
    (h : parseRecHeader u b20 = some (ds, td, n)) : 1 ≤ n ∧ n ≤ b20.length := by
  unfold parseRecHeader at h
  rcases h1 : uvarint b20 with _ | ⟨v1, n1⟩
  · rw [h1] at h
    simp at h
  · simp only [h1] at h
    rcases h2 : uvarint (b20.drop n1) with _ | ⟨v2, n2⟩
    · rw [h2] at h
      simp at h
    · simp only [h2, Option.some.injEq, Prod.mk.injEq] at h
      obtain ⟨_, _, rfl⟩ := h
      have hb1 := uvarint_some_bounds _ _ _ h1
      have hb2 := uvarint_some_bounds _ _ _ h2
      simp only [List.length_drop] at hb2
      omega

/-! ### Branch evaluation lemmas for `srStep` -/

theorem srStep_nil (hash : List Nat → Nat) (sr : SegReader) (hin : sr.input = []) :
    srStep hash sr =
      .yield (if (!(!sr.seg.status.isSealed) || sr.size == sr.committedSize) = true
              then .eof else .corrupt) sr := by
  unfold srStep
  rw [if_pos (by simp [hin])]
  split <;> simp_all

theorem srStep_commit_short (hash : List Nat → Nat) (sr : SegReader)
    (hne : sr.input ≠ []) (hu : sr.seg.status.isSealed = false)
    (hodd : sr.input.headD 0 % 2 = 1) (hlen : sr.input.length < 8) :
    srStep hash sr = .yield .corrupt sr := by
  unfold srStep
  rw [if_neg (by simp [hne]), if_pos (⟨by simp [hu], hodd⟩ :
    (!sr.seg.status.isSealed) = true ∧ sr.input.headD 0 % 2 = 1), if_pos hlen]

theorem srStep_commit_mismatch (hash : List Nat → Nat) (sr : SegReader)
    (hne : sr.input ≠ []) (hu : sr.seg.status.isSealed = false)
    (hodd : sr.input.headD 0 % 2 = 1) (hlen : ¬sr.input.length < 8)
    (hmm : leDec (sr.input.take 8) ≠ (sum64 hash sr.hashed ||| recordFlagCommit)) :
    srStep hash sr = .yield .corrupt { sr with
      input := sr.input.drop 8
      hashed := sr.hashed ++ sr.input.take 8 } := by
  unfold srStep
  rw [if_neg (by simp [hne]), if_pos (⟨by simp [hu], hodd⟩ :
    (!sr.seg.status.isSealed) = true ∧ sr.input.headD 0 % 2 = 1), if_neg hlen, if_pos hmm]

theorem srStep_commit_match (hash : List Nat → Nat) (sr : SegReader)
    (hne : sr.input ≠ []) (hu : sr.seg.status.isSealed = false)
    (hodd : sr.input.headD 0 % 2 = 1) (hlen : ¬sr.input.length < 8)
    (heq : leDec (sr.input.take 8) = (sum64 hash sr.hashed ||| recordFlagCommit)) :
    srStep hash sr =
      if sr.recordsInSeg > 0 then
        .again { sr with
          input := sr.input.drop 8
          hashed := sr.hashed ++ sr.input.take 8
          size := sr.size + 8
          committedRec := sr.recn
          committedTS := sr.ts
          committedSize := sr.size + 8 }
      else
        .yield .corrupt { sr with
          input := sr.input.drop 8
          hashed := sr.hashed ++ sr.input.take 8
          size := sr.size + 8 } := by
  unfold srStep
  rw [if_neg (by simp [hne]), if_pos (⟨by simp [hu], hodd⟩ :
    (!sr.seg.status.isSealed) = true ∧ sr.input.headD 0 % 2 = 1), if_neg hlen,
    if_neg (by simpa using heq)]

theorem srStep_rec_parsefail (hash : List Nat → Nat) (sr : SegReader)
    (hne : sr.input ≠ [])
    (hnc : ¬((!sr.seg.status.isSealed) = true ∧ sr.input.headD 0 % 2 = 1))
    (hp : parseRecHeader (!sr.seg.status.isSealed) (sr.input.take maxRecHeaderLen) = none) :
    srStep hash sr = .yield .corrupt sr := by
  unfold srStep
  rw [if_neg (by simp [hne]), if_neg hnc, hp]

theorem srStep_rec_short (hash : List Nat → Nat) (sr : SegReader) (ds td n : Nat)
    (hne : sr.input ≠ [])
    (hnc : ¬((!sr.seg.status.isSealed) = true ∧ sr.input.headD 0 % 2 = 1))
    (hp : parseRecHeader (!sr.seg.status.isSealed) (sr.input.take maxRecHeaderLen) =
      some (ds, td, n))
    (hshort : (sr.input.drop n).length < ds) :
    srStep hash sr = .yield .corrupt { sr with
      hashed := if !sr.seg.status.isSealed then
          sr.hashed ++ (sr.input.take maxRecHeaderLen).take n
        else sr.hashed
      input := [] } := by
  unfold srStep
  rw [if_neg (by simp [hne]), if_neg hnc, hp]
  show (if (sr.input.drop n).length < ds then _ else _) = _
  rw [if_pos hshort]

theorem srStep_rec_ok_unsealed (hash : List Nat → Nat) (sr : SegReader) (ds td n : Nat)
    (hne : sr.input ≠ []) (hu : sr.seg.status.isSealed = false)
    (hnc : ¬((!sr.seg.status.isSealed) = true ∧ sr.input.headD 0 % 2 = 1))
    (hp : parseRecHeader (!sr.seg.status.isSealed) (sr.input.take maxRecHeaderLen) =
      some (ds, td, n))
    (hlong : ¬(sr.input.drop n).length < ds) :
    srStep hash sr = .yield .ok { sr with
      input := (sr.input.drop n).drop ds
      hashed := sr.hashed ++ (sr.input.take maxRecHeaderLen).take n ++
        (sr.input.drop n).take ds
      recordsInSeg := sr.recordsInSeg + 1
      recn := sr.recn + 1
      ts := sr.ts + td
      size := sr.size + (n + ds)
      data := (sr.input.drop n).take ds } := by
  unfold srStep
  rw [if_neg (by simp [hne]), if_neg hnc, hp]
  show (if (sr.input.drop n).length < ds then _ else _) = _
  rw [if_neg hlong, if_pos (show (!sr.seg.status.isSealed) = true by simp [hu])]

theorem srStep_rec_ok_sealed (hash : List Nat → Nat) (sr : SegReader) (ds td n : Nat)
    (hne : sr.input ≠ []) (hu : sr.seg.status.isSealed = true)
    (hp : parseRecHeader (!sr.seg.status.isSealed) (sr.input.take maxRecHeaderLen) =
      some (ds, td, n))
    (hlong : ¬(sr.input.drop n).length < ds) :
    srStep hash sr = .yield .ok { sr with
      input := (sr.input.drop n).drop ds
      recordsInSeg := sr.recordsInSeg + 1
      recn := sr.recn + 1
      ts := sr.ts + td
      size := sr.size + (n + ds)
      data := (sr.input.drop n).take ds
      committedRec := sr.recn + 1
      committedTS := sr.ts + td
      committedSize := sr.size + (n + ds) } := by
  unfold srStep
  rw [if_neg (by simp [hne]), if_neg (by simp [hu]), hp]
  show (if (sr.input.drop n).length < ds then _ else _) = _
  rw [if_neg hlong, if_neg (show ¬(!sr.seg.status.isSealed) = true by simp [hu])]

theorem srStep_again_spec (hash : List Nat → Nat) (sr sr' : SegReader)
    (h : srStep hash sr = .again sr') :
    8 ≤ sr.input.length ∧ sr'.input = sr.input.drop 8 := by
  by_cases hin : sr.input = []
  · rw [srStep_nil hash sr hin] at h
    split at h <;> simp at h
  · by_cases hseal : sr.seg.status.isSealed
    · have hnc : ¬((!sr.seg.status.isSealed) = true ∧ sr.input.headD 0 % 2 = 1) := by
        simp [hseal]
      rcases hp : parseRecHeader (!sr.seg.status.isSealed) (sr.input.take maxRecHeaderLen)
        with _ | ⟨ds, td, n⟩
      · rw [srStep_rec_parsefail hash sr hin hnc hp] at h
        simp at h
      · by_cases hshort : (sr.input.drop n).length < ds
        · rw [srStep_rec_short hash sr ds td n hin hnc hp hshort] at h
          simp at h
        · rw [srStep_rec_ok_sealed hash sr ds td n hin hseal hp hshort] at h
          simp at h
    · have hu : sr.seg.status.isSealed = false := by simpa using hseal
      by_cases hodd : sr.input.headD 0 % 2 = 1
      · by_cases hlen : sr.input.length < 8
        · rw [srStep_commit_short hash sr hin hu hodd hlen] at h
          simp at h
        · by_cases hmm : leDec (sr.input.take 8) ≠ (sum64 hash sr.hashed ||| recordFlagCommit)
          · rw [srStep_commit_mismatch hash sr hin hu hodd hlen hmm] at h
            simp at h
          · rw [srStep_commit_match hash sr hin hu hodd hlen (not_not.mp hmm)] at h
            split at h
            · cases h
              exact ⟨by omega, rfl⟩
            · simp at h
      · have hnc : ¬((!sr.seg.status.isSealed) = true ∧ sr.input.headD 0 % 2 = 1) :=
          fun hc => hodd hc.2
        rcases hp : parseRecHeader (!sr.seg.status.isSealed) (sr.input.take maxRecHeaderLen)
          with _ | ⟨ds, td, n⟩
        · rw [srStep_rec_parsefail hash sr hin hnc hp] at h
          simp at h
        · by_cases hshort : (sr.input.drop n).length < ds
          · rw [srStep_rec_short hash sr ds td n hin hnc hp hshort] at h
            simp at h
          · rw [srStep_rec_ok_unsealed hash sr ds td n hin hu hnc hp hshort] at h
            simp at h

theorem srStep_ok_spec (hash : List Nat → Nat) (sr sr' : SegReader)
    (h : srStep hash sr = .yield .ok sr') :
    sr'.input.length < sr.input.length ∧ sr'.input = sr.input.drop (sr.input.length - sr'.input.length) := by
  by_cases hin : sr.input = []
  · rw [srStep_nil hash sr hin] at h
    split at h <;> simp at h
  · have hpos : 1 ≤ sr.input.length := List.length_pos.mpr hin
    by_cases hseal : sr.seg.status.isSealed
    · have hnc : ¬((!sr.seg.status.isSealed) = true ∧ sr.input.headD 0 % 2 = 1) := by
        simp [hseal]
      rcases hp : parseRecHeader (!sr.seg.status.isSealed) (sr.input.take maxRecHeaderLen)
        with _ | ⟨ds, td, n⟩
      · rw [srStep_rec_parsefail hash sr hin hnc hp] at h
        simp at h
      · by_cases hshort : (sr.input.drop n).length < ds
        · rw [srStep_rec_short hash sr ds td n hin hnc hp hshort] at h
          simp at h
        · rw [srStep_rec_ok_sealed hash sr ds td n hin hseal hp hshort] at h
          cases h
          have hb := parseRecHeader_some_bounds _ _ _ _ _ hp
          simp only [List.length_take] at hb
          simp only [List.length_drop] at hshort
          constructor
          · simp only [List.length_drop]
            omega
          · simp only [List.length_drop, List.drop_drop]
            congr 1
            omega
    · have hu : sr.seg.status.isSealed = false := by simpa using hseal
      by_cases hodd : sr.input.headD 0 % 2 = 1
      · by_cases hlen : sr.input.length < 8
        · rw [srStep_commit_short hash sr hin hu hodd hlen] at h
          simp at h
        · by_cases hmm : leDec (sr.input.take 8) ≠ (sum64 hash sr.hashed ||| recordFlagCommit)
          · rw [srStep_commit_mismatch hash sr hin hu hodd hlen hmm] at h
            simp at h
          · rw [srStep_commit_match hash sr hin hu hodd hlen (not_not.mp hmm)] at h
            split at h <;> simp at h
      · have hnc : ¬((!sr.seg.status.isSealed) = true ∧ sr.input.headD 0 % 2 = 1) :=
          fun hc => hodd hc.2
        rcases hp : parseRecHeader (!sr.seg.status.isSealed) (sr.input.take maxRecHeaderLen)
          with _ | ⟨ds, td, n⟩
        · rw [srStep_rec_parsefail hash sr hin hnc hp] at h
          simp at h
        · by_cases hshort : (sr.input.drop n).length < ds
          · rw [srStep_rec_short hash sr ds td n hin hnc hp hshort] at h
            simp at h
          · rw [srStep_rec_ok_unsealed hash sr ds td n hin hu hnc hp hshort] at h
            cases h
            have hb := parseRecHeader_some_bounds _ _ _ _ _ hp
            simp only [List.length_take] at hb
            simp only [List.length_drop] at hshort
            constructor
            · simp only [List.length_drop]
              omega
            · simp only [List.length_drop, List.drop_drop]
              congr 1
              omega

/-- `segmentReader.next` (`segmentreader.go` lines 128-252): loop over items,
consuming commit markers transparently, until a record is decoded, EOF is
reached, or corruption is detected. -/
def srNext (hash : List Nat → Nat) (sr : SegReader) : ReadRes × SegReader :=
  match h : srStep hash sr with
  | .again sr' => srNext hash sr'
  | .yield r sr' => (r, sr')
termination_by sr.input.length
decreasing_by
  obtain ⟨h8, hdrop⟩ := srStep_again_spec hash sr sr' h
  have : sr'.input.length = sr.input.length - 8 := by rw [hdrop]; simp
  omega

theorem srNext_ok_lt (hash : List Nat → Nat) :
    ∀ n (sr sr' : SegReader), sr.input.length ≤ n →
    srNext hash sr = (.ok, sr') → sr'.input.length < sr.input.length := by
  intro n
  induction n with
  | zero =>
    intro sr sr' hlen h
    rw [srNext] at h
    split at h
    · rename_i srx hstep
      obtain ⟨h8, _⟩ := srStep_again_spec hash sr srx hstep
      omega
    · rename_i r srx hstep
      cases h
      exact (srStep_ok_spec hash sr sr' hstep).1
  | succ n ih =>
    intro sr sr' hlen h
    rw [srNext] at h
    split at h
    · rename_i srx hstep
      obtain ⟨h8, hdrop⟩ := srStep_again_spec hash sr srx hstep
      have hx : srx.input.length = sr.input.length - 8 := by rw [hdrop]; simp
      have := ih srx sr' (by omega) h
      omega
    · rename_i r srx hstep
      cases h
      exact (srStep_ok_spec hash sr sr' hstep).1

theorem srNext_ok_consumes (hash : List Nat → Nat) (sr sr' : SegReader)
    (h : srNext hash sr = (.ok, sr')) : sr'.input.length < sr.input.length :=
  srNext_ok_lt hash sr.input.length sr sr' le_rfl h

/-- A record as surfaced by the cursor (`reader.go` `Record`):
`ID = reader.rec`, `Timestamp = reader.ts`, `Data = reader.data`. -/
structure Record where
  id : Nat
  timestamp : Nat
  data : List Nat
deriving DecidableEq, Repr

/-- The per-segment record stream: call `next` repeatedly, collecting the
record surfaced after each `Ok`, until `EOF` or corruption.  This is the loop
shared by `Cursor.next` (`reader.go`) and `verifySegment` (which discards the
records). -/
def readRecords (hash : List Nat → Nat) (sr : SegReader) :
    List Record × ReadRes × SegReader :=
  match h : srNext hash sr with
  | (.ok, sr') =>
    let rest := readRecords hash sr'
    (⟨sr'.recn, sr'.ts, sr'.data⟩ :: rest.1, rest.2)
  | (.eof, sr') => ([], .eof, sr')
  | (.corrupt, sr') => ([], .corrupt, sr')
termination_by sr.input.length
decreasing_by exact srNext_ok_consumes hash sr sr' h

/-- `verifySegment`'s loop (`segmentreader.go` lines 40-48): run `next` to
EOF or failure and return the final reader state. -/
def runVerify (hash : List Nat → Nat) (sr : SegReader) : ReadRes × SegReader :=
  match h : srNext hash sr with
  | (.ok, sr') => runVerify hash sr'
  | (.eof, sr') => (.eof, sr')
  | (.corrupt, sr') => (.corrupt, sr')
termination_by sr.input.length
decreasing_by exact srNext_ok_consumes hash sr sr' h

/-- `newSegmentReader` (`segmentreader.go` lines 104-126): validate the header
then position the stream after the 128 header bytes. -/
def newSegmentReader (hash : List Nat → Nat) (j : JConfig) (seg : Segment)
    (file : List Nat) : Except HeaderErr SegReader :=
  match readSegmentHeader hash j file seg with
  | .error e => .error e
  | .ok _ =>
    .ok { seg := seg
          input := file.drop segmentHeaderSize
          hashed := []
          recn := seg.recnum - 1
          ts := seg.ts
          size := segmentHeaderSize
          recordsInSeg := 0
          committedRec := 0
          committedTS := 0
          committedSize := segmentHeaderSize
          data := [] }

/-- `verifySegment` (`segmentreader.go` lines 34-48). -/
def verifySegment (hash : List Nat → Nat) (j : JConfig) (seg : Segment)
    (file : List Nat) : Except HeaderErr (ReadRes × SegReader) :=
  match newSegmentReader hash j seg file with
  | .error e => .error e
  | .ok sr => .ok (runVerify hash sr)

/-! ### Header round-trip lemmas -/

theorem drop_after_le64 (a : Nat) (X : List Nat) : (le64 a ++ X).drop 8 = X := by
  have h : (le64 a).length = 8 := rfl
  rw [← h, List.drop_left]

theorem leDec_lt (l : List Nat) (h : ∀ b ∈ l, b < 256) : leDec l < w64 := by
  unfold leDec
  split
  · rename_i b0 b1 b2 b3 b4 b5 b6 b7 tail
    have h0 : b0 < 256 := h b0 (by simp)
    have h1 : b1 < 256 := h b1 (by simp)
    have h2 : b2 < 256 := h b2 (by simp)
    have h3 : b3 < 256 := h b3 (by simp)
    have h4 : b4 < 256 := h b4 (by simp)
    have h5 : b5 < 256 := h b5 (by simp)
    have h6 : b6 < 256 := h b6 (by simp)
    have h7 : b7 < 256 := h b7 (by simp)
    simp only [w64]
    nlinarith
  · simp [w64]

set_option maxHeartbeats 1000000 in
/-- Decoding an encoded header recovers all fields. -/
theorem decodeHeader_fill (j : JConfig) (m sg ts rn lt lr ck : Nat) (rest : List Nat)
    (hJ : j.journalInvariant.length = 32) (hS : j.segmentInvariant.length = 32)
    (hm : m < w64) (hsg : sg < w64) (hts : ts < w64) (hrn : rn < w64)
    (hlt : lt < w64) (hlr : lr < w64) (hck : ck < w64) :
    decodeHeader (encodeHeaderBody j m sg ts rn lt lr ++ (le64 ck ++ rest)) =
      ⟨m, sg, ts, rn, lt, lr, j.journalInvariant, j.segmentInvariant, 0, ck⟩ := by
  unfold encodeHeaderBody
  simp only [List.append_assoc]
  set X8 := le64 sg ++ (le64 ts ++ (le64 rn ++ (le64 lt ++ (le64 lr ++
    (j.journalInvariant ++ (j.segmentInvariant ++ (le64 0 ++ (le64 ck ++ rest))))))))
    with hX8
  set buf := le64 m ++ X8 with hbuf
  have d8 : buf.drop 8 = X8 := drop_after_le64 m X8
  have d16 : buf.drop 16 = X8.drop 8 := by
    have : buf.drop 16 = (buf.drop 8).drop 8 := by
      rw [List.drop_drop]
    rw [this, d8]
  have d24 : buf.drop 24 = (X8.drop 8).drop 8 := by
    have : buf.drop 24 = (buf.drop 16).drop 8 := by
      rw [List.drop_drop]
    rw [this, d16]
  have d32 : buf.drop 32 = ((X8.drop 8).drop 8).drop 8 := by
    have : buf.drop 32 = (buf.drop 24).drop 8 := by
      rw [List.drop_drop]
    rw [this, d24]
  have d40 : buf.drop 40 = (((X8.drop 8).drop 8).drop 8).drop 8 := by
    have : buf.drop 40 = (buf.drop 32).drop 8 := by
      rw [List.drop_drop]
    rw [this, d32]
  have d48 : buf.drop 48 = ((((X8.drop 8).drop 8).drop 8).drop 8).drop 8 := by
    have : buf.drop 48 = (buf.drop 40).drop 8 := by
      rw [List.drop_drop]
    rw [this, d40]
  rw [hX8] at d8 d16 d24 d32 d40 d48
  simp only [drop_after_le64] at d16 d24 d32 d40 d48
  have hd48 : buf.drop 48 = j.journalInvariant ++ (j.segmentInvariant ++
      (le64 0 ++ (le64 ck ++ rest))) := d48
  have hd80 : buf.drop 80 = j.segmentInvariant ++ (le64 0 ++ (le64 ck ++ rest)) := by
    have h1 : buf.drop 80 = (buf.drop 48).drop 32 := by
      rw [List.drop_drop]
    rw [h1, hd48, ← hJ, List.drop_left]
  have hd112 : buf.drop 112 = le64 0 ++ (le64 ck ++ rest) := by
    have h1 : buf.drop 112 = (buf.drop 80).drop 32 := by
      rw [List.drop_drop]
    rw [h1, hd80, ← hS, List.drop_left]
  have hd120 : buf.drop 120 = le64 ck ++ rest := by
    have h1 : buf.drop 120 = (buf.drop 112).drop 8 := by
      rw [List.drop_drop]
    rw [h1, hd112, drop_after_le64]
  unfold decodeHeader
  simp only [SegmentHeader.mk.injEq]
  refine ⟨?_, ?_, ?_, ?_, ?_, ?_, ?_, ?_, ?_, ?_⟩
  · exact leDec_le64 m hm _
  · rw [d8]
    exact leDec_le64 sg hsg _
  · rw [d16]
    exact leDec_le64 ts hts _
  · rw [d24]
    exact leDec_le64 rn hrn _
  · rw [d32]
    exact leDec_le64 lt hlt _
  · rw [d40]
    exact leDec_le64 lr hlr _
  · rw [hd48, ← hJ, List.take_left]
  · rw [hd80, ← hS, List.take_left]
  · rw [hd112]
    exact leDec_le64 0 (by decide) _
  · rw [hd120]
    exact leDec_le64 ck hck _

theorem encodeHeaderBody_length (j : JConfig) (m sg ts rn lt lr : Nat)
    (hJ : j.journalInvariant.length = 32) (hS : j.segmentInvariant.length = 32) :
    (encodeHeaderBody j m sg ts rn lt lr).length = 120 := by
  simp [encodeHeaderBody, le64_length, hJ, hS]

set_option maxHeartbeats 1000000 in
/-- A header produced by `fillSegmentHeader` passes `readSegmentHeader`
whenever the magic belongs to the category accepted for the segment's status
and the filename-derived fields match. -/
theorem readSegmentHeader_fill (hash : List Nat → Nat) (j : JConfig) (seg : Segment)
    (magic segnum ts rn lt lr : Nat) (rest : List Nat)
    (hJ : j.journalInvariant.length = 32) (hS : j.segmentInvariant.length = 32)
    (hm : magic = magicV1Draft ∨ magic = magicV1Finalized ∨ magic = magicV1Sealed)
    (hsg : segnum < w64) (hts : ts < w64) (hrn : rn < w64) (hlt : lt < w64) (hlr : lr < w64)
    (hseg1 : seg.segnum = segnum) (hseg2 : seg.ts = ts) (hseg3 : seg.recnum = rn)
    (hcat1 : seg.status.isSealed = true → magic = magicV1Sealed)
    (hcat2 : seg.status.isDraft = true → magic = magicV1Draft ∨ magic = magicV1Finalized)
    (hcat3 : seg.status = .finalized → magic = magicV1Finalized) :
    readSegmentHeader hash j (fillSegmentHeader hash j magic segnum ts rn lt lr ++ rest) seg =
      .ok ⟨magic, segnum, ts, rn, lt, lr, j.journalInvariant, j.segmentInvariant, 0,
        sum64 hash (encodeHeaderBody j magic segnum ts rn lt lr)⟩ := by
  have hblen := encodeHeaderBody_length j magic segnum ts rn lt lr hJ hS
  have hmlt : magic < w64 := by
    rcases hm with h | h | h <;> subst h <;> decide
  have hbuf : fillSegmentHeader hash j magic segnum ts rn lt lr ++ rest =
      encodeHeaderBody j magic segnum ts rn lt lr ++
        (le64 (sum64 hash (encodeHeaderBody j magic segnum ts rn lt lr)) ++ rest) := by
    simp [fillSegmentHeader, List.append_assoc]
  have hdec : decodeHeader (fillSegmentHeader hash j magic segnum ts rn lt lr ++ rest) =
      ⟨magic, segnum, ts, rn, lt, lr, j.journalInvariant, j.segmentInvariant, 0,
        sum64 hash (encodeHeaderBody j magic segnum ts rn lt lr)⟩ := by
    rw [hbuf]
    exact decodeHeader_fill j magic segnum ts rn lt lr _ rest hJ hS hmlt hsg hts hrn hlt hlr
      (sum64_lt hash _)
  have htake : (fillSegmentHeader hash j magic segnum ts rn lt lr ++ rest).take
      (segmentHeaderSize - 8) = encodeHeaderBody j magic segnum ts rn lt lr := by
    rw [hbuf]
    show _ = _
    rw [show segmentHeaderSize - 8 = 120 from rfl, ← hblen, List.take_left]
  unfold readSegmentHeader
  rw [hdec, htake]
  rw [if_neg (by
    rw [hbuf]
    simp only [List.length_append, hblen, le64_length, segmentHeaderSize]
    omega)]
  rw [if_neg (by
    rcases hm with h | h | h <;> subst h <;> simp)]
  rw [if_neg (by
    rintro ⟨ha, hb⟩
    exact hb (hcat1 ha))]
  rw [if_neg (by
    rintro ⟨_, hb, hc, hd⟩
    rcases hcat2 hb with h | h
    · exact hc h
    · exact hd h)]
  rw [if_neg (by
    rintro ⟨_, _, hc, hd⟩
    exact hd (hcat3 hc))]
  rw [if_neg (by simp)]
  rw [if_neg (by simp [hseg1])]
  rw [if_neg (by simp [hseg2])]
  rw [if_neg (by simp [hseg3])]
  rw [if_neg (by simp)]

/-! ## Writer-side operation sequences and replay

A segment's effective content is determined by the sequence of
`writeRecord`/`commit` calls applied to its writer.  `swApply` folds them;
`opsBytes` is the byte stream they append to the file; `recsOf` is the list of
records a reader recovers (ids consecutive, timestamps clamped to the
running maximum within the segment). -/

/-- One writer-level operation on an open segment. -/
inductive SegOp where
  | write (ts : Nat) (data : List Nat)
  | commitOp
deriving DecidableEq, Repr

/-- Bounds under which Go's `uint64` arithmetic never wraps in the framing. -/
def SegOp.wf : SegOp → Prop
  | .write ts data => 2 * data.length < w64 ∧ ts < w64
  | .commitOp => True

/-- Fold segment operations over the writer state. -/
def swApply (hash : List Nat → Nat) : List SegOp → SegWriter → SegWriter
  | [], sw => sw
  | .write ts data :: rest, sw => swApply hash rest (swWriteRecord ts data sw)
  | .commitOp :: rest, sw => swApply hash rest (swCommit hash sw)

/-- The bytes the operations append to the segment file. -/
def opsBytes (hash : List Nat → Nat) : List SegOp → SegWriter → List Nat
  | [], _ => []
  | .write ts data :: rest, sw =>
    appendRecordHeader data.length (if ts > sw.ts then ts - sw.ts else 0) ++ data ++
      opsBytes hash rest (swWriteRecord ts data sw)
  | .commitOp :: rest, sw =>
    (if sw.uncommitted then le64 (sum64 hash sw.hashed ||| recordFlagCommit) else []) ++
      opsBytes hash rest (swCommit hash sw)

theorem swApply_out (hash : List Nat → Nat) :
    ∀ (ops : List SegOp) (sw : SegWriter),
    (swApply hash ops sw).out = sw.out ++ opsBytes hash ops sw := by
  intro ops
  induction ops with
  | nil => intro sw; simp [swApply, opsBytes]
  | cons op rest ih =>
    intro sw
    cases op with
    | write ts data =>
      simp only [swApply, opsBytes]
      rw [ih]
      simp [swWriteRecord, List.append_assoc]
    | commitOp =>
      simp only [swApply, opsBytes]
      rw [ih]
      by_cases hc : sw.uncommitted
      · simp [swCommit, hc, List.append_assoc]
      · simp [swCommit, hc]

/-- The records the operations append, starting from running timestamp `cur`
and next record id `rec`. -/
def recsOf : List SegOp → Nat → Nat → List Record
  | [], _, _ => []
  | .write ts data :: rest, cur, rec =>
    ⟨rec, if ts > cur then ts else cur, data⟩ ::
      recsOf rest (if ts > cur then ts else cur) (rec + 1)
  | .commitOp :: rest, cur, rec => recsOf rest cur rec

/-- Alignment between a writer and a reader that has replayed the same bytes. -/
structure Aligned (sw : SegWriter) (sr : SegReader) : Prop where
  unsealed : sr.seg.status.isSealed = false
  hashed : sr.hashed = sw.hashed
  ts : sr.ts = sw.ts
  recn : sr.recn + 1 = sw.nextRec
  size : sr.size = sw.size
  committed_of_clean : sw.uncommitted = false → sr.committedSize = sr.size
  committed_of_dirty : sw.uncommitted = true → sr.recordsInSeg > 0 ∧ sr.committedSize < sr.size

theorem uvarint_take_window (e rest : List Nat) (v : Nat) (k : Nat)
    (he : uvarint (e ++ rest) = some (v, e.length)) (hk : e.length ≤ k) :
    uvarint ((e ++ rest).take k) = some (v, e.length) := by
  apply uvarint_prefix_agree _ _ _ _ he
  rw [List.take_take]
  congr 1
  omega

theorem parseRecHeader_encode (data rest : List Nat) (δ : Nat)
    (hdl : 2 * data.length < w64) (hδ : δ < w64) :
    parseRecHeader true
      ((appendRecordHeader data.length δ ++ (data ++ rest)).take maxRecHeaderLen) =
      some (data.length, δ, (appendRecordHeader data.length δ).length) := by
  have hm1 : data.length * 2 % w64 = data.length * 2 := Nat.mod_eq_of_lt (by omega)
  have hm2 : δ % w64 = δ := Nat.mod_eq_of_lt hδ
  have hl1 : (appendUvarint (data.length * 2 % w64)).length ≤ 10 :=
    appendUvarint_length_le _ (Nat.mod_lt _ w64_pos)
  have hl2 : (appendUvarint (δ % w64)).length ≤ 10 :=
    appendUvarint_length_le _ (Nat.mod_lt _ w64_pos)
  have hassoc : appendRecordHeader data.length δ ++ (data ++ rest) =
      appendUvarint (data.length * 2 % w64) ++
        (appendUvarint (δ % w64) ++ (data ++ rest)) := by
    simp [appendRecordHeader, List.append_assoc]
  have hu1 : uvarint (appendUvarint (data.length * 2 % w64) ++
      (appendUvarint (δ % w64) ++ (data ++ rest))) =
      some (data.length * 2 % w64, (appendUvarint (data.length * 2 % w64)).length) :=
    uvarint_encode _ (Nat.mod_lt _ w64_pos) _
  have hu2 : uvarint (appendUvarint (δ % w64) ++ (data ++ rest)) =
      some (δ % w64, (appendUvarint (δ % w64)).length) :=
    uvarint_encode _ (Nat.mod_lt _ w64_pos) _
  have hw1 : uvarint ((appendUvarint (data.length * 2 % w64) ++
      (appendUvarint (δ % w64) ++ (data ++ rest))).take maxRecHeaderLen) =
      some (data.length * 2 % w64, (appendUvarint (data.length * 2 % w64)).length) :=
    uvarint_take_window _ _ _ _ hu1 (by simp only [maxRecHeaderLen]; omega)
  have hdropwin : ((appendUvarint (data.length * 2 % w64) ++
      (appendUvarint (δ % w64) ++ (data ++ rest))).take maxRecHeaderLen).drop
        (appendUvarint (data.length * 2 % w64)).length =
      (appendUvarint (δ % w64) ++ (data ++ rest)).take
        (maxRecHeaderLen - (appendUvarint (data.length * 2 % w64)).length) := by
    rw [List.drop_take, List.drop_left]
  have hw2 : uvarint ((appendUvarint (δ % w64) ++ (data ++ rest)).take
      (maxRecHeaderLen - (appendUvarint (data.length * 2 % w64)).length)) =
      some (δ % w64, (appendUvarint (δ % w64)).length) :=
    uvarint_take_window _ _ _ _ hu2 (by simp only [maxRecHeaderLen]; omega)
  rw [hassoc]
  unfold parseRecHeader
  rw [hw1]
  show (match uvarint ((appendUvarint (data.length * 2 % w64) ++
      (appendUvarint (δ % w64) ++ (data ++ rest))).take maxRecHeaderLen |>.drop
        (appendUvarint (data.length * 2 % w64)).length) with
    | none => (none : Option (Nat × Nat × Nat))
    | some (tsdelta, n2) => some (if true = true then data.length * 2 % w64 / 2
        else data.length * 2 % w64, tsdelta,
        (appendUvarint (data.length * 2 % w64)).length + n2)) = _
  rw [hdropwin, hw2]
  have hdiv : data.length * 2 % w64 / 2 = data.length := by
    rw [hm1]
    omega
  simp only [if_true, hdiv, hm2, Option.some.injEq, Prod.mk.injEq, true_and]
  simp [appendRecordHeader, hm2]

theorem lor_one_mod_two (x : Nat) : (x ||| 1) % 2 = 1 := by
  have h := Nat.testBit_lor x 1 0
  simp only [Nat.testBit_zero] at h
  rcases Nat.mod_two_eq_zero_or_one ((x ||| 1)) with h2 | h2
  · simp [h2] at h
  · exact h2

theorem lor_one_lt_w64 (x : Nat) (hx : x < w64) : (x ||| 1) < w64 := by
  have hw : w64 = 2 ^ 64 := by norm_num [w64]
  rw [hw] at hx ⊢
  apply Nat.lt_pow_two_of_testBit
  intro i hi
  have h1 : Nat.testBit x i = false :=
    Nat.testBit_lt_two_pow (lt_of_lt_of_le hx (Nat.pow_le_pow_right (by omega) hi))
  have h2 : Nat.testBit 1 i = false :=
    Nat.testBit_lt_two_pow (Nat.one_lt_two_pow_iff.mpr (by omega))
  simp [Nat.testBit_lor, h1, h2]

set_option maxHeartbeats 1000000 in
/-- Replaying a writer-emitted record framing: the reader consumes exactly the
framing and payload, recovers the payload verbatim, and advances its running
state the same way the writer did. -/
theorem srNext_record (hash : List Nat → Nat) (sr : SegReader) (δ : Nat)
    (data rest : List Nat)
    (hu : sr.seg.status.isSealed = false)
    (hdl : 2 * data.length < w64) (hδ : δ < w64)
    (hin : sr.input = appendRecordHeader data.length δ ++ (data ++ rest)) :
    srNext hash sr = (.ok, { sr with
      input := rest
      hashed := sr.hashed ++ appendRecordHeader data.length δ ++ data
      recn := sr.recn + 1
      ts := sr.ts + δ
      size := sr.size + ((appendRecordHeader data.length δ).length + data.length)
      recordsInSeg := sr.recordsInSeg + 1
      data := data }) := by
  have hb1pos := appendUvarint_length_pos (data.length * 2 % w64)
  have hne : sr.input ≠ [] := by
    rw [hin]
    intro hc
    have := congrArg List.length hc
    simp only [appendRecordHeader, List.length_append, List.length_nil] at this
    omega
  have heven : (data.length * 2 % w64) % 2 = 0 := by
    simp only [w64]
    omega
  obtain ⟨b0, tl, hb0, hb0e⟩ := appendUvarint_head_even _ heven
  have hhead : sr.input.headD 0 = b0 := by
    rw [hin]
    simp only [appendRecordHeader, hb0]
    rfl
  have hnc : ¬((!sr.seg.status.isSealed) = true ∧ sr.input.headD 0 % 2 = 1) := by
    rintro ⟨_, hodd⟩
    rw [hhead] at hodd
    omega
  have hbool : (!sr.seg.status.isSealed) = true := by simp [hu]
  have hp : parseRecHeader (!sr.seg.status.isSealed) (sr.input.take maxRecHeaderLen) =
      some (data.length, δ, (appendRecordHeader data.length δ).length) := by
    rw [hbool, hin]
    exact parseRecHeader_encode data rest δ hdl hδ
  have hdropn : sr.input.drop (appendRecordHeader data.length δ).length = data ++ rest := by
    rw [hin, List.drop_left]
  have hlong : ¬(sr.input.drop (appendRecordHeader data.length δ).length).length <
      data.length := by
    rw [hdropn]
    simp
  have hstep := srStep_rec_ok_unsealed hash sr data.length δ
    (appendRecordHeader data.length δ).length hne hu hnc hp hlong
  have hhdrlen : (appendRecordHeader data.length δ).length ≤ maxRecHeaderLen := by
    have h1 : (appendUvarint (data.length * 2 % w64)).length ≤ 10 :=
      appendUvarint_length_le _ (Nat.mod_lt _ w64_pos)
    have h2 : (appendUvarint (δ % w64)).length ≤ 10 :=
      appendUvarint_length_le _ (Nat.mod_lt _ w64_pos)
    simp only [appendRecordHeader, List.length_append, maxRecHeaderLen]
    omega
  have htake : (sr.input.take maxRecHeaderLen).take (appendRecordHeader data.length δ).length =
      appendRecordHeader data.length δ := by
    rw [List.take_take]
    rw [min_eq_left hhdrlen]
    rw [hin, List.take_left]
  have hdata : (sr.input.drop (appendRecordHeader data.length δ).length).take data.length =
      data := by
    rw [hdropn, List.take_left]
  have hrest : (sr.input.drop (appendRecordHeader data.length δ).length).drop data.length =
      rest := by
    rw [hdropn, List.drop_left]
  rw [htake, hdata, hrest] at hstep
  rw [srNext, hstep]

set_option maxHeartbeats 1000000 in
/-- Replaying a writer-emitted commit marker: the reader verifies it against
the same rolling hash, records the commit point, and continues with the rest
of the stream inside the same `next` call. -/
theorem srNext_commit (hash : List Nat → Nat) (sr : SegReader) (rest : List Nat)
    (hu : sr.seg.status.isSealed = false)
    (hrec : sr.recordsInSeg > 0)
    (hin : sr.input = le64 (sum64 hash sr.hashed ||| recordFlagCommit) ++ rest) :
    srNext hash sr = srNext hash { sr with
      input := rest
      hashed := sr.hashed ++ le64 (sum64 hash sr.hashed ||| recordFlagCommit)
      size := sr.size + 8
      committedRec := sr.recn
      committedTS := sr.ts
      committedSize := sr.size + 8 } := by
  have hvlt : (sum64 hash sr.hashed ||| recordFlagCommit) < w64 :=
    lor_one_lt_w64 _ (sum64_lt hash sr.hashed)
  have hvodd : (sum64 hash sr.hashed ||| recordFlagCommit) % 2 = 1 :=
    lor_one_mod_two _
  have hne : sr.input ≠ [] := by
    rw [hin]
    intro hc
    have := congrArg List.length hc
    simp [le64_length] at this
  have hlen : ¬sr.input.length < 8 := by
    rw [hin]
    simp [le64_length]
  have hhead : sr.input.headD 0 % 2 = 1 := by
    rw [hin]
    show (sum64 hash sr.hashed ||| recordFlagCommit) % 256 % 2 = 1
    omega
  have htake : sr.input.take 8 = le64 (sum64 hash sr.hashed ||| recordFlagCommit) := by
    rw [hin, ← le64_length (sum64 hash sr.hashed ||| recordFlagCommit), List.take_left]
  have hdrop : sr.input.drop 8 = rest := by
    rw [hin]
    exact drop_after_le64 _ _
  have heq : leDec (sr.input.take 8) = (sum64 hash sr.hashed ||| recordFlagCommit) := by
    rw [htake, ← List.append_nil (le64 (sum64 hash sr.hashed ||| recordFlagCommit))]
    exact leDec_le64 _ hvlt _
  have hstep := srStep_commit_match hash sr hne hu hhead hlen heq
  rw [if_pos hrec] at hstep
  rw [htake, hdrop] at hstep
  rw [srNext, hstep]

/-- Clean EOF: at end of input with everything committed, `next` returns EOF. -/
theorem srNext_nil_eof (hash : List Nat → Nat) (sr : SegReader) (hin : sr.input = [])
    (hcs : sr.size = sr.committedSize) : srNext hash sr = (.eof, sr) := by
  rw [srNext, srStep_nil hash sr hin]
  simp [hcs]

/-- Uncommitted tail: at end of input with `size ≠ committedSize` on an
unsealed segment, `next` reports corruption. -/
theorem srNext_nil_corrupt (hash : List Nat → Nat) (sr : SegReader) (hin : sr.input = [])
    (hu : sr.seg.status.isSealed = false) (hcs : sr.size ≠ sr.committedSize) :
    srNext hash sr = (.corrupt, sr) := by
  rw [srNext, srStep_nil hash sr hin]
  simp [hu, hcs]

theorem swCommit_of_clean (hash : List Nat → Nat) (sw : SegWriter)
    (h : sw.uncommitted = false) : swCommit hash sw = sw := by
  simp [swCommit, h]

theorem readRecords_congr (hash : List Nat → Nat) (sr₁ sr₂ : SegReader)
    (h : srNext hash sr₁ = srNext hash sr₂) :
    readRecords hash sr₁ = readRecords hash sr₂ := by
  rw [readRecords]
  conv_rhs => rw [readRecords]
  rw [h]

theorem readRecords_ok (hash : List Nat → Nat) (sr sr' : SegReader)
    (h : srNext hash sr = (.ok, sr')) :
    readRecords hash sr = (⟨sr'.recn, sr'.ts, sr'.data⟩ :: (readRecords hash sr').1,
      (readRecords hash sr').2.1, (readRecords hash sr').2.2) := by
  rw [readRecords, h]

set_option maxHeartbeats 1000000 in
/-- Replay: a reader aligned with a writer recovers, from the bytes the
writer's operations emitted, exactly the records of those operations (ids
consecutive from the writer's `nextRec`, timestamps clamped to the running
maximum), ending in clean EOF iff the operations left nothing uncommitted. -/
theorem readRecords_replay (hash : List Nat → Nat) :
    ∀ (ops : List SegOp) (sw : SegWriter) (sr : SegReader),
    (∀ op ∈ ops, op.wf) →
    Aligned sw sr →
    sr.input = opsBytes hash ops sw →
    ∃ srf, readRecords hash sr =
      (recsOf ops sw.ts sw.nextRec,
       (if (swApply hash ops sw).uncommitted then ReadRes.corrupt else ReadRes.eof),
       srf) ∧ Aligned (swApply hash ops sw) srf ∧ srf.input = [] := by
  intro ops
  induction ops with
  | nil =>
    intro sw sr hwf hal hin
    simp only [opsBytes] at hin
    simp only [swApply, recsOf]
    by_cases hc : sw.uncommitted
    · obtain ⟨hrec, hlt⟩ := hal.committed_of_dirty hc
      have := srNext_nil_corrupt hash sr hin hal.unsealed (by omega)
      refine ⟨sr, ?_, by simpa [hc] using hal, hin⟩
      rw [readRecords, this]
      simp [hc]
    · have hb : sw.uncommitted = false := by simpa using hc
      have hcs : sr.size = sr.committedSize := (hal.committed_of_clean hb).symm
      have := srNext_nil_eof hash sr hin hcs
      refine ⟨sr, ?_, by simpa [hb] using hal, hin⟩
      rw [readRecords, this]
      simp [hb]
  | cons op rest ih =>
    intro sw sr hwf hal hin
    cases op with
    | write ts data =>
      have hwfh := hwf (SegOp.write ts data) (List.mem_cons_self _ _)
      obtain ⟨hdl, hts⟩ := hwfh
      simp only [opsBytes] at hin
      rw [List.append_assoc] at hin
      have hδ : (if ts > sw.ts then ts - sw.ts else 0) < w64 := by
        split <;> omega
      rw [← hal.ts] at hin
      have hrec := srNext_record hash sr (if ts > sr.ts then ts - sr.ts else 0) data
        (opsBytes hash rest (swWriteRecord ts data sw))
        hal.unsealed hdl (by rw [hal.ts]; exact hδ) hin
      set sr₁ : SegReader := { sr with
        input := opsBytes hash rest (swWriteRecord ts data sw)
        hashed := sr.hashed ++
          appendRecordHeader data.length (if ts > sr.ts then ts - sr.ts else 0) ++ data
        recn := sr.recn + 1
        ts := sr.ts + (if ts > sr.ts then ts - sr.ts else 0)
        size := sr.size +
          ((appendRecordHeader data.length (if ts > sr.ts then ts - sr.ts else 0)).length +
            data.length)
        recordsInSeg := sr.recordsInSeg + 1
        data := data } with hsr₁
      have hal₁ : Aligned (swWriteRecord ts data sw) sr₁ := by
        refine ⟨hal.unsealed, ?_, ?_, ?_, ?_, ?_, ?_⟩
        · show sr₁.hashed = sw.hashed ++ _ ++ data
          rw [hsr₁]
          simp only [hal.hashed, hal.ts]
        · show sr₁.ts = (if ts > sw.ts then ts else sw.ts)
          rw [hsr₁]
          simp only [hal.ts]
          split <;> omega
        · show sr.recn + 1 + 1 = sw.nextRec + 1
          have := hal.recn
          omega
        · show sr₁.size = sw.size + _
          rw [hsr₁]
          simp only [hal.size, hal.ts]
        · intro hfalse
          simp [swWriteRecord] at hfalse
        · intro _
          constructor
          · show sr.recordsInSeg + 1 > 0
            omega
          · show sr.committedSize < sr.size + _
            have hcle : sr.committedSize ≤ sr.size := by
              by_cases hc : sw.uncommitted
              · exact le_of_lt (hal.committed_of_dirty hc).2
              · exact le_of_eq (hal.committed_of_clean (by simpa using hc))
            have hp := appendUvarint_length_pos (data.length * 2 % w64)
            simp only [appendRecordHeader, List.length_append]
            omega
      obtain ⟨srf, hread, half, hinf⟩ := ih (swWriteRecord ts data sw) sr₁
        (fun op hop => hwf op (by simp [hop])) hal₁ rfl
      refine ⟨srf, ?_, ?_, hinf⟩
      · rw [readRecords_ok hash sr sr₁ hrec, hread]
        have hhead : (⟨sr₁.recn, sr₁.ts, sr₁.data⟩ : Record) =
            ⟨sw.nextRec, if ts > sw.ts then ts else sw.ts, data⟩ := by
          have hr := hal.recn
          have ht := hal.ts
          simp only [hsr₁, Record.mk.injEq, and_true]
          refine ⟨by omega, ?_⟩
          rw [ht]
          split <;> omega
        rw [hhead]
        have h1 : (swWriteRecord ts data sw).ts = if ts > sw.ts then ts else sw.ts := rfl
        have h2 : (swWriteRecord ts data sw).nextRec = sw.nextRec + 1 := rfl
        rw [h1, h2]
        simp only [recsOf, swApply]
      · simpa [swApply] using half
    | commitOp =>
      simp only [opsBytes] at hin
      by_cases hc : sw.uncommitted
      · rw [if_pos hc] at hin
        rw [← hal.hashed] at hin
        have hcom := srNext_commit hash sr (opsBytes hash rest (swCommit hash sw))
          hal.unsealed (hal.committed_of_dirty hc).1 hin
        set sr₂ : SegReader := { sr with
          input := opsBytes hash rest (swCommit hash sw)
          hashed := sr.hashed ++ le64 (sum64 hash sr.hashed ||| recordFlagCommit)
          size := sr.size + 8
          committedRec := sr.recn
          committedTS := sr.ts
          committedSize := sr.size + 8 } with hsr₂
      -- the commit is digested inside the same `next` call; align states
        have hal₂ : Aligned (swCommit hash sw) sr₂ := by
          have hsw : swCommit hash sw = { sw with
            uncommitted := false
            size := sw.size + 8
            hashed := sw.hashed ++ le64 (sum64 hash sw.hashed ||| recordFlagCommit)
            out := sw.out ++ le64 (sum64 hash sw.hashed ||| recordFlagCommit) } := by
            simp [swCommit, hc]
          rw [hsw]
          refine ⟨hal.unsealed, ?_, ?_, ?_, ?_, ?_, ?_⟩
          · show sr₂.hashed = sw.hashed ++ _
            rw [hsr₂]
            simp only [hal.hashed]
          · exact hal.ts
          · exact hal.recn
          · show sr₂.size = sw.size + 8
            rw [hsr₂]
            simp only [hal.size]
          · intro _
            rfl
          · intro hfalse
            simp at hfalse
        obtain ⟨srf, hread, half, hinf⟩ := ih (swCommit hash sw) sr₂
          (fun op hop => hwf op (by simp [hop])) hal₂ rfl
        have hcongr := readRecords_congr hash sr sr₂ hcom
        refine ⟨srf, ?_, ?_, hinf⟩
        · rw [hcongr, hread]
          have h1 : (swCommit hash sw).ts = sw.ts := by
            simp [swCommit, hc]
          have h2 : (swCommit hash sw).nextRec = sw.nextRec := by
            simp [swCommit, hc]
          rw [h1, h2]
          simp only [recsOf, swApply]
        · simpa [swApply] using half
      · have hb : sw.uncommitted = false := by simpa using hc
        rw [if_neg hc] at hin
        simp only [List.nil_append] at hin
        rw [swCommit_of_clean hash sw hb] at hin
        obtain ⟨srf, hread, half, hinf⟩ := ih sw sr
          (fun op hop => hwf op (by simp [hop])) hal hin
        refine ⟨srf, ?_, ?_, hinf⟩
        · rw [hread]
          simp only [recsOf, swApply, swCommit_of_clean hash sw hb]
        · simpa [swApply, swCommit_of_clean hash sw hb] using half

theorem runVerify_eq_readRecords (hash : List Nat → Nat) :
    ∀ n (sr : SegReader), sr.input.length ≤ n →
    runVerify hash sr = (readRecords hash sr).2 := by
  intro n
  induction n with
  | zero =>
    intro sr hlen
    rw [runVerify, readRecords]
    rcases h : srNext hash sr with ⟨r, sr'⟩
    cases r
    · have := srNext_ok_consumes hash sr sr' h
      omega
    · rfl
    · rfl
  | succ n ih =>
    intro sr hlen
    rw [runVerify, readRecords]
    rcases h : srNext hash sr with ⟨r, sr'⟩
    cases r
    · have hc := srNext_ok_consumes hash sr sr' h
      exact ih sr' (by omega)
    · rfl
    · rfl

theorem fillSegmentHeader_length (hash : List Nat → Nat) (j : JConfig)
    (m sg ts rn lt lr : Nat)
    (hJ : j.journalInvariant.length = 32) (hS : j.segmentInvariant.length = 32) :
    (fillSegmentHeader hash j m sg ts rn lt lr).length = 128 := by
  simp [fillSegmentHeader, encodeHeaderBody_length j m sg ts rn lt lr hJ hS, le64_length]

set_option maxHeartbeats 1000000 in
/-- Reading a segment file laid down by the writer: Draft or Finalized header
(with the magic leniency of `readSegmentHeader`) followed by the bytes of a
sequence of writer operations starting from a fresh segment.  The reader
recovers exactly the operation records, and reaches clean EOF iff the
operations left nothing uncommitted. -/
theorem segmentFile_read (hash : List Nat → Nat) (j : JConfig) (status : Status)
    (magic : Nat) (segnum ts0 rec0 lt lr : Nat) (ops : List SegOp)
    (hJ : j.journalInvariant.length = 32) (hS : j.segmentInvariant.length = 32)
    (hrec0 : 1 ≤ rec0)
    (hsg : segnum < w64) (hts : ts0 < w64) (hrn : rec0 < w64)
    (hlt : lt < w64) (hlr : lr < w64)
    (hwf : ∀ op ∈ ops, op.wf)
    (hstat : (status = .draft ∧ (magic = magicV1Draft ∨ magic = magicV1Finalized)) ∨
      (status = .finalized ∧ magic = magicV1Finalized)) :
    ∃ sr₀ srf,
      newSegmentReader hash j ⟨ts0, rec0, segnum, status⟩
        (fillSegmentHeader hash j magic segnum ts0 rec0 lt lr ++
          opsBytes hash ops (swStart segnum ts0 rec0)) = .ok sr₀ ∧
      readRecords hash sr₀ = (recsOf ops ts0 rec0,
        (if (swApply hash ops (swStart segnum ts0 rec0)).uncommitted then ReadRes.corrupt
         else ReadRes.eof), srf) := by
  have hmagic : magic = magicV1Draft ∨ magic = magicV1Finalized ∨ magic = magicV1Sealed := by
    rcases hstat with ⟨_, h⟩ | ⟨_, h⟩
    · tauto
    · tauto
  have hunsealed : (Status.isSealed status) = false := by
    rcases hstat with ⟨h, _⟩ | ⟨h, _⟩ <;> subst h <;> rfl
  have hcat1 : (⟨ts0, rec0, segnum, status⟩ : Segment).status.isSealed = true →
      magic = magicV1Sealed := by
    intro h
    simp only at h
    rw [hunsealed] at h
    cases h
  have hcat2 : (⟨ts0, rec0, segnum, status⟩ : Segment).status.isDraft = true →
      magic = magicV1Draft ∨ magic = magicV1Finalized := by
    intro h
    simp only at h
    rcases hstat with ⟨_, hm⟩ | ⟨hs, hm⟩
    · exact hm
    · subst hs
      cases h
  have hcat3 : (⟨ts0, rec0, segnum, status⟩ : Segment).status = .finalized →
      magic = magicV1Finalized := by
    intro h
    simp only at h
    rcases hstat with ⟨hs, hm⟩ | ⟨_, hm⟩
    · subst hs
      cases h
    · exact hm
  have hhdr := readSegmentHeader_fill hash j ⟨ts0, rec0, segnum, status⟩ magic segnum ts0 rec0
    lt lr (opsBytes hash ops (swStart segnum ts0 rec0)) hJ hS hmagic hsg hts hrn hlt hlr
    rfl rfl rfl hcat1 hcat2 hcat3
  have hdlen := fillSegmentHeader_length hash j magic segnum ts0 rec0 lt lr hJ hS
  have hdrop : (fillSegmentHeader hash j magic segnum ts0 rec0 lt lr ++
      opsBytes hash ops (swStart segnum ts0 rec0)).drop segmentHeaderSize =
      opsBytes hash ops (swStart segnum ts0 rec0) := by
    rw [show segmentHeaderSize = (fillSegmentHeader hash j magic segnum ts0 rec0 lt lr).length
      from hdlen.symm, List.drop_left]
  have hal : Aligned (swStart segnum ts0 rec0)
      { seg := ⟨ts0, rec0, segnum, status⟩,
        input := (fillSegmentHeader hash j magic segnum ts0 rec0 lt lr ++
          opsBytes hash ops (swStart segnum ts0 rec0)).drop segmentHeaderSize,
        hashed := [],
        recn := rec0 - 1,
        ts := ts0,
        size := segmentHeaderSize,
        recordsInSeg := 0,
        committedRec := 0,
        committedTS := 0,
        committedSize := segmentHeaderSize,
        data := [] } := by
    refine ⟨?_, rfl, rfl, ?_, rfl, ?_, ?_⟩
    · exact hunsealed
    · show rec0 - 1 + 1 = rec0
      omega
    · intro _
      rfl
    · intro hfalse
      simp [swStart] at hfalse
  obtain ⟨srf, hread, _, _⟩ := readRecords_replay hash ops (swStart segnum ts0 rec0) _
    hwf hal hdrop
  refine ⟨_, srf, ?_, hread⟩
  unfold newSegmentReader
  rw [hhdr]

/-! ## Journal writer (`journalwriter.go` / `journal.go`)

`JWriter` models the mutable writer state: the open Draft segment writer and
the finalized segment files already on disk (name × content). -/

structure JWriter where
  cur : Option SegWriter
  closed : List (Segment × List Nat)
deriving Repr

/-- A fresh journal directory: no segments. -/
def jwEmpty : JWriter := ⟨none, []⟩

/-- `segmentWriter.close(closeAndFinalize)` (`segmentwriter.go` lines 188-248):
commit, overwrite the header with the Finalized magic and the final
`last_ts`/`last_recnum`, rename `W…` → `F…`. Returns the resulting directory
entry. -/
def closeFinalize (hash : List Nat → Nat) (j : JConfig) (sw : SegWriter) :
    Segment × List Nat :=
  let swc := swCommit hash sw
  (⟨sw.seg.ts, sw.seg.recnum, sw.seg.segnum, .finalized⟩,
   fillSegmentHeader hash j magicV1Finalized sw.seg.segnum sw.seg.ts sw.seg.recnum
     swc.ts (swc.nextRec - 1) ++ swc.out)

/-- `journalWriter.WriteRecord` (`journalwriter.go` lines 150-196), success
path of a prepared writer: empty data is a no-op; otherwise rotate first when
`shouldRotate(len(data))`, start a segment if none is open (a fresh journal
starts at `segnum = 1, recnum = 1`), then append the record. -/
def jwWriteRecord (hash : List Nat → Nat) (j : JConfig) (ts : Nat) (data : List Nat)
    (jw : JWriter) : JWriter :=
  if data.isEmpty then jw
  else
    match jw.cur with
    | none => { jw with cur := some (swWriteRecord ts data (swStart 1 ts 1)) }
    | some sw =>
      if swShouldRotate j.maxFileSize sw data.length then
        { cur := some (swWriteRecord ts data
            (swStart (sw.seg.segnum + 1) ts sw.nextRec)),
          closed := jw.closed ++ [closeFinalize hash j sw] }
      else
        { jw with cur := some (swWriteRecord ts data sw) }

/-- `journalWriter.Commit` (`journalwriter.go` lines 198-203): no-op without an
open segment writer, otherwise `segmentWriter.commit`. -/
def jwCommit (hash : List Nat → Nat) (jw : JWriter) : JWriter :=
  match jw.cur with
  | none => jw
  | some sw => { jw with cur := some (swCommit hash sw) }

/-- The directory contents after a run: finalized files plus the Draft file
(whose on-disk header is still the one `startSegment` wrote, with
`last_{ts,recnum} = 0`). -/
def jwDir (hash : List Nat → Nat) (j : JConfig) (jw : JWriter) :
    List (Segment × List Nat) :=
  jw.closed ++ (match jw.cur with
    | none => []
    | some sw => [(sw.seg,
        fillSegmentHeader hash j magicV1Draft sw.seg.segnum sw.seg.ts sw.seg.recnum 0 0 ++
          sw.out)])

/-- Running a full write sequence: `WriteRecord` for each input then `Commit`. -/
def jrun (hash : List Nat → Nat) (j : JConfig) (ws : List (Nat × List Nat)) : JWriter :=
  jwCommit hash (List.foldl (fun jw p => jwWriteRecord hash j p.1 p.2 jw) jwEmpty ws)

/-! ### Reference decomposition of a run into segments -/

/-- The writes one segment received, with its identity. -/
structure SegRun where
  segnum : Nat
  ts0 : Nat
  rec0 : Nat
  ws : List (Nat × List Nat)
deriving Repr

/-- A write as a segment-level operation. -/
def writesToOps (sl : List (Nat × List Nat)) : List SegOp :=
  sl.map (fun p => SegOp.write p.1 p.2)

/-- The segment writer state after the run's writes (no final commit yet). -/
def runWriter (hash : List Nat → Nat) (r : SegRun) : SegWriter :=
  swApply hash (writesToOps r.ws) (swStart r.segnum r.ts0 r.rec0)

/-- Splitting the remaining inputs into segments exactly as
`journalWriter.WriteRecord` does: rotate before a record when
`shouldRotate(len(data))`.  Returns the closed runs and the final open run. -/
def runSlices (hash : List Nat → Nat) (mfs : Nat) :
    List (Nat × List Nat) → SegRun → List SegRun × SegRun
  | [], run => ([], run)
  | (ts, d) :: rest, run =>
    if swShouldRotate mfs (runWriter hash run) d.length then
      let next := runSlices hash mfs rest
        ⟨run.segnum + 1, ts, (runWriter hash run).nextRec, [(ts, d)]⟩
      (run :: next.1, next.2)
    else
      runSlices hash mfs rest { run with ws := run.ws ++ [(ts, d)] }

theorem swApply_append (hash : List Nat → Nat) :
    ∀ (l₁ l₂ : List SegOp) (sw : SegWriter),
    swApply hash (l₁ ++ l₂) sw = swApply hash l₂ (swApply hash l₁ sw) := by
  intro l₁
  induction l₁ with
  | nil => intro l₂ sw; rfl
  | cons op rest ih =>
    intro l₂ sw
    cases op <;> simp only [List.cons_append, swApply] <;> exact ih _ _

theorem swApply_seg (hash : List Nat → Nat) :
    ∀ (l : List SegOp) (sw : SegWriter), (swApply hash l sw).seg = sw.seg := by
  intro l
  induction l with
  | nil => intro sw; rfl
  | cons op rest ih =>
    intro sw
    cases op with
    | write ts data =>
      simp only [swApply]
      rw [ih]
      rfl
    | commitOp =>
      simp only [swApply]
      rw [ih]
      by_cases hc : sw.uncommitted <;> simp [swCommit, hc]

theorem writesToOps_append (l₁ l₂ : List (Nat × List Nat)) :
    writesToOps (l₁ ++ l₂) = writesToOps l₁ ++ writesToOps l₂ := by
  simp [writesToOps]

theorem runWriter_snoc (hash : List Nat → Nat) (r : SegRun) (p : Nat × List Nat) :
    runWriter hash { r with ws := r.ws ++ [p] } =
      swWriteRecord p.1 p.2 (runWriter hash r) := by
  unfold runWriter
  simp only [writesToOps_append, swApply_append]
  rfl

theorem runWriter_seg (hash : List Nat → Nat) (r : SegRun) :
    (runWriter hash r).seg = ⟨r.ts0, r.rec0, r.segnum, .draft⟩ :=
  swApply_seg hash _ _

set_option maxHeartbeats 1000000 in
/-- The `WriteRecord` fold follows the `runSlices` decomposition: closed runs
are finalized in order, the last run stays open. -/
theorem jwFold_eq (hash : List Nat → Nat) (j : JConfig) :
    ∀ (ws : List (Nat × List Nat)) (closed : List (Segment × List Nat)) (run : SegRun),
    (∀ p ∈ ws, p.2 ≠ []) →
    List.foldl (fun jw p => jwWriteRecord hash j p.1 p.2 jw)
      ⟨some (runWriter hash run), closed⟩ ws =
    ⟨some (runWriter hash (runSlices hash j.maxFileSize ws run).2),
     closed ++ (runSlices hash j.maxFileSize ws run).1.map
       (fun r => closeFinalize hash j (runWriter hash r))⟩ := by
  intro ws
  induction ws with
  | nil =>
    intro closed run _
    simp [runSlices]
  | cons p rest ih =>
    intro closed run hne
    obtain ⟨ts, d⟩ := p
    have hd : d ≠ [] := hne (ts, d) (by simp)
    simp only [List.foldl_cons]
    rw [show jwWriteRecord hash j ts d ⟨some (runWriter hash run), closed⟩ =
      (if swShouldRotate j.maxFileSize (runWriter hash run) d.length then
        ⟨some (swWriteRecord ts d
           (swStart ((runWriter hash run).seg.segnum + 1) ts (runWriter hash run).nextRec)),
         closed ++ [closeFinalize hash j (runWriter hash run)]⟩
      else ⟨some (swWriteRecord ts d (runWriter hash run)), closed⟩) from by
        simp [jwWriteRecord, hd]]
    by_cases hrot : swShouldRotate j.maxFileSize (runWriter hash run) d.length
    · rw [if_pos hrot]
      simp only [runSlices, hrot, if_pos]
      have hseg : (runWriter hash run).seg.segnum = run.segnum := by
        rw [runWriter_seg]
      rw [hseg]
      have hnew : swWriteRecord ts d (swStart (run.segnum + 1) ts (runWriter hash run).nextRec) =
          runWriter hash ⟨run.segnum + 1, ts, (runWriter hash run).nextRec, [(ts, d)]⟩ := rfl
      rw [hnew, ih _ _ (fun q hq => hne q (by simp [hq]))]
      simp [List.append_assoc]
    · rw [if_neg hrot]
      simp only [runSlices, hrot, if_neg, if_false]
      rw [show swWriteRecord ts d (runWriter hash run) =
        runWriter hash { run with ws := run.ws ++ [(ts, d)] } from
        (runWriter_snoc hash run (ts, d)).symm]
      exact ih _ _ (fun q hq => hne q (by simp [hq]))

theorem swApply_nextRec_writes (hash : List Nat → Nat) :
    ∀ (l : List (Nat × List Nat)) (sw : SegWriter),
    (swApply hash (writesToOps l) sw).nextRec = sw.nextRec + l.length := by
  intro l
  induction l with
  | nil => intro sw; simp [writesToOps, swApply]
  | cons p rest ih =>
    intro sw
    simp only [writesToOps, List.map_cons, swApply]
    rw [show writesToOps rest = List.map (fun p => SegOp.write p.1 p.2) rest from rfl] at ih
    rw [ih]
    simp [swWriteRecord]
    omega

theorem runWriter_nextRec (hash : List Nat → Nat) (r : SegRun) :
    (runWriter hash r).nextRec = r.rec0 + r.ws.length := by
  unfold runWriter
  rw [swApply_nextRec_writes]
  rfl

theorem swApply_writes_snoc (hash : List Nat → Nat) (l : List (Nat × List Nat))
    (p : Nat × List Nat) (sw : SegWriter) :
    swApply hash (writesToOps (l ++ [p])) sw =
      swWriteRecord p.1 p.2 (swApply hash (writesToOps l) sw) := by
  rw [writesToOps_append, swApply_append]
  rfl

theorem runWriter_uncommitted (hash : List Nat → Nat) (r : SegRun) (h : r.ws ≠ []) :
    (runWriter hash r).uncommitted = true := by
  obtain ⟨l, p, hl⟩ : ∃ l p, r.ws = l ++ [p] :=
    ⟨r.ws.dropLast, r.ws.getLast h, (List.dropLast_append_getLast h).symm⟩
  unfold runWriter
  rw [hl, swApply_writes_snoc]
  rfl

/-- Segment identities produced by rotation: segment numbers go up by one and
first record numbers are contiguous. -/
def chainFrom : Nat → Nat → List SegRun → Prop
  | _, _, [] => True
  | s, r, x :: rest => x.segnum = s ∧ x.rec0 = r ∧ chainFrom (s + 1) (r + x.ws.length) rest

/-- A run's nominal first timestamp is its first record's timestamp. -/
def tsOK (r : SegRun) : Prop := r.ts0 = (r.ws.headD (0, [])).1

theorem runSlices_struct (hash : List Nat → Nat) (mfs : Nat) :
    ∀ (ws : List (Nat × List Nat)) (run : SegRun),
    run.ws ≠ [] → tsOK run →
    (((runSlices hash mfs ws run).1.map SegRun.ws).flatten ++
        (runSlices hash mfs ws run).2.ws = run.ws ++ ws) ∧
    (∀ r ∈ (runSlices hash mfs ws run).1, r.ws ≠ [] ∧ tsOK r) ∧
    ((runSlices hash mfs ws run).2.ws ≠ [] ∧ tsOK (runSlices hash mfs ws run).2) ∧
    chainFrom run.segnum run.rec0
      ((runSlices hash mfs ws run).1 ++ [(runSlices hash mfs ws run).2]) := by
  intro ws
  induction ws with
  | nil =>
    intro run hne hts
    refine ⟨by simp [runSlices], by simp [runSlices], ⟨hne, hts⟩, ?_⟩
    simp only [runSlices, List.nil_append]
    exact ⟨rfl, rfl, trivial⟩
  | cons p rest ih =>
    intro run hne hts
    obtain ⟨ts, d⟩ := p
    by_cases hrot : swShouldRotate mfs (runWriter hash run) d.length
    · have hrw : runSlices hash mfs ((ts, d) :: rest) run =
          ((run :: (runSlices hash mfs rest
            ⟨run.segnum + 1, ts, (runWriter hash run).nextRec, [(ts, d)]⟩).1),
           (runSlices hash mfs rest
            ⟨run.segnum + 1, ts, (runWriter hash run).nextRec, [(ts, d)]⟩).2) := by
        simp [runSlices, hrot]
      obtain ⟨ihf, ihc, ihcur, ihchain⟩ := ih
        ⟨run.segnum + 1, ts, (runWriter hash run).nextRec, [(ts, d)]⟩
        (by simp) (by simp [tsOK])
      rw [hrw]
      refine ⟨?_, ?_, ihcur, ?_⟩
      · simp only [List.map_cons, List.flatten_cons, List.append_assoc]
        rw [ihf]
        rfl
      · intro r hr
        rcases List.mem_cons.mp hr with h | h
        · exact h ▸ ⟨hne, hts⟩
        · exact ihc r h
      · simp only [List.cons_append]
        refine ⟨rfl, rfl, ?_⟩
        rw [runWriter_nextRec] at ihchain ⊢
        exact ihchain
    · have hrw : runSlices hash mfs ((ts, d) :: rest) run =
          runSlices hash mfs rest { run with ws := run.ws ++ [(ts, d)] } := by
        simp [runSlices, hrot]
      obtain ⟨ihf, ihc, ihcur, ihchain⟩ := ih { run with ws := run.ws ++ [(ts, d)] }
        (by simp) (by
          unfold tsOK at hts ⊢
          rcases hws : run.ws with _ | ⟨q, l⟩
          · exact absurd hws hne
          · simpa [hws] using hts)
      rw [hrw]
      refine ⟨?_, ihc, ihcur, ?_⟩
      · rw [ihf]
        simp
      · have : chainFrom run.segnum run.rec0
            ((runSlices hash mfs rest { run with ws := run.ws ++ [(ts, d)] }).1 ++
              [(runSlices hash mfs rest { run with ws := run.ws ++ [(ts, d)] }).2]) :=
          ihchain
        exact this

theorem swCommit_uncommitted (hash : List Nat → Nat) (sw : SegWriter) :
    (swCommit hash sw).uncommitted = false := by
  by_cases h : sw.uncommitted <;> simp [swCommit, h]

theorem swCommit_seg (hash : List Nat → Nat) (sw : SegWriter) :
    (swCommit hash sw).seg = sw.seg := by
  by_cases h : sw.uncommitted <;> simp [swCommit, h]

theorem swCommit_ts (hash : List Nat → Nat) (sw : SegWriter) :
    (swCommit hash sw).ts = sw.ts := by
  by_cases h : sw.uncommitted <;> simp [swCommit, h]

theorem swCommit_nextRec (hash : List Nat → Nat) (sw : SegWriter) :
    (swCommit hash sw).nextRec = sw.nextRec := by
  by_cases h : sw.uncommitted <;> simp [swCommit, h]

theorem swApply_ts_lt (hash : List Nat → Nat) :
    ∀ (ops : List SegOp) (sw : SegWriter), sw.ts < w64 → (∀ op ∈ ops, op.wf) →
    (swApply hash ops sw).ts < w64 := by
  intro ops
  induction ops with
  | nil => intro sw h _; exact h
  | cons op rest ih =>
    intro sw h hwf
    cases op with
    | write ts data =>
      refine ih _ ?_ (fun o ho => hwf o (by simp [ho]))
      have hts : ts < w64 := (hwf (SegOp.write ts data) (by simp)).2
      simp only [swWriteRecord]
      by_cases hgt : ts > sw.ts <;> simp [hgt] <;> omega
    | commitOp =>
      refine ih _ ?_ (fun o ho => hwf o (by simp [ho]))
      rw [swCommit_ts]
      exact h

theorem recsOf_snoc_commit :
    ∀ (l : List SegOp) (c r : Nat), recsOf (l ++ [.commitOp]) c r = recsOf l c r := by
  intro l
  induction l with
  | nil => intro c r; simp [recsOf]
  | cons op rest ih =>
    intro c r
    cases op <;> simp only [List.cons_append, recsOf, List.append_eq] <;> rw [ih]

theorem chainFrom_bounds :
    ∀ (l : List SegRun) (s r : Nat), chainFrom s r l →
    ∀ x ∈ l, s ≤ x.segnum ∧ x.segnum < s + l.length ∧ r ≤ x.rec0 ∧
      x.rec0 + x.ws.length ≤ r + ((l.map SegRun.ws).flatten).length := by
  intro l
  induction l with
  | nil => intro s r _ x hx; cases hx
  | cons y rest ih =>
    intro s r hc x hx
    obtain ⟨hseg, hrec, hrest⟩ := hc
    rcases List.mem_cons.mp hx with h | h
    · subst h
      simp only [List.map_cons, List.flatten_cons, List.length_append, List.length_cons]
      omega
    · have := ih (s + 1) (r + y.ws.length) hrest x h
      simp only [List.map_cons, List.flatten_cons, List.length_append, List.length_cons]
      omega

theorem length_le_flatten_of_ne :
    ∀ (l : List SegRun), (∀ x ∈ l, x.ws ≠ []) →
    l.length ≤ ((l.map SegRun.ws).flatten).length := by
  intro l
  induction l with
  | nil => intro _; simp
  | cons y rest ih =>
    intro h
    have hy : y.ws ≠ [] := h y (by simp)
    have : 1 ≤ y.ws.length := by
      cases hws : y.ws with
      | nil => exact absurd hws hy
      | cons a b => simp
    have := ih (fun x hx => h x (by simp [hx]))
    simp only [List.map_cons, List.flatten_cons, List.length_cons, List.length_append]
    omega

theorem runWriterC_eq (hash : List Nat → Nat) (r : SegRun) :
    swCommit hash (runWriter hash r) =
      swApply hash (writesToOps r.ws ++ [.commitOp]) (swStart r.segnum r.ts0 r.rec0) := by
  rw [swApply_append]
  rfl

theorem runWriterC_out (hash : List Nat → Nat) (r : SegRun) :
    (swCommit hash (runWriter hash r)).out =
      opsBytes hash (writesToOps r.ws ++ [.commitOp]) (swStart r.segnum r.ts0 r.rec0) := by
  rw [runWriterC_eq, swApply_out]
  rfl

theorem segRun_ts0_lt (r : SegRun) (hne : r.ws ≠ []) (hts : tsOK r)
    (hwb : ∀ p ∈ r.ws, 2 * p.2.length < w64 ∧ p.1 < w64) : r.ts0 < w64 := by
  cases hws : r.ws with
  | nil => exact absurd hws hne
  | cons a l =>
    have : r.ts0 = a.1 := by rw [tsOK, hws] at hts; exact hts
    rw [this]
    exact (hwb a (by rw [hws]; simp)).2

theorem segRun_ops_wf (r : SegRun)
    (hwb : ∀ p ∈ r.ws, 2 * p.2.length < w64 ∧ p.1 < w64) :
    ∀ op ∈ writesToOps r.ws ++ [.commitOp], op.wf := by
  intro op hop
  rcases List.mem_append.mp hop with h | h
  · obtain ⟨p, hp, rfl⟩ := List.mem_map.mp h
    exact hwb p hp
  · rcases List.mem_singleton.mp h with rfl
    trivial

/-- The segment identity and read result of one finalized segment file produced
by `closeFinalize` from a full run of writes. -/
theorem run_read_fin (hash : List Nat → Nat) (j : JConfig) (r : SegRun)
    (hJ : j.journalInvariant.length = 32) (hS : j.segmentInvariant.length = 32)
    (hne : r.ws ≠ []) (hts : tsOK r) (hrec0 : 1 ≤ r.rec0)
    (hsg : r.segnum < w64) (hrecN : r.rec0 + r.ws.length < w64)
    (hwb : ∀ p ∈ r.ws, 2 * p.2.length < w64 ∧ p.1 < w64) :
    (closeFinalize hash j (runWriter hash r)).1 = ⟨r.ts0, r.rec0, r.segnum, .finalized⟩ ∧
    ∃ sr0 srf,
      newSegmentReader hash j ⟨r.ts0, r.rec0, r.segnum, .finalized⟩
        (closeFinalize hash j (runWriter hash r)).2 = .ok sr0 ∧
      readRecords hash sr0 = (recsOf (writesToOps r.ws) r.ts0 r.rec0, .eof, srf) := by
  have hseg := runWriter_seg hash r
  have hts0 : r.ts0 < w64 := segRun_ts0_lt r hne hts hwb
  have hwfops := segRun_ops_wf r hwb
  have hltw : (swCommit hash (runWriter hash r)).ts < w64 := by
    rw [runWriterC_eq]
    exact swApply_ts_lt hash _ _ hts0 hwfops
  have hnr : (swCommit hash (runWriter hash r)).nextRec = r.rec0 + r.ws.length := by
    rw [swCommit_nextRec, runWriter_nextRec]
  obtain ⟨sr0, srf, hnew, hread⟩ := segmentFile_read hash j .finalized magicV1Finalized
    r.segnum r.ts0 r.rec0 (swCommit hash (runWriter hash r)).ts
    ((swCommit hash (runWriter hash r)).nextRec - 1) (writesToOps r.ws ++ [.commitOp])
    hJ hS hrec0 hsg hts0 (by omega) hltw (by omega) hwfops (Or.inr ⟨rfl, rfl⟩)
  have h1 : (closeFinalize hash j (runWriter hash r)).1 =
      ⟨(runWriter hash r).seg.ts, (runWriter hash r).seg.recnum,
        (runWriter hash r).seg.segnum, .finalized⟩ := rfl
  have h2 : (closeFinalize hash j (runWriter hash r)).2 =
      fillSegmentHeader hash j magicV1Finalized (runWriter hash r).seg.segnum
        (runWriter hash r).seg.ts (runWriter hash r).seg.recnum
        (swCommit hash (runWriter hash r)).ts
        ((swCommit hash (runWriter hash r)).nextRec - 1) ++
        (swCommit hash (runWriter hash r)).out := rfl
  refine ⟨by rw [h1, hseg], sr0, srf, ?_, ?_⟩
  · rw [h2, hseg, runWriterC_out]
    exact hnew
  · rw [recsOf_snoc_commit] at hread
    rw [show swApply hash (writesToOps r.ws ++ [.commitOp])
        (swStart r.segnum r.ts0 r.rec0) = swCommit hash (runWriter hash r) from
      (runWriterC_eq hash r).symm, swCommit_uncommitted] at hread
    simpa using hread

/-- The segment identity and read result of the final Draft segment file after
the closing `Commit`. -/
theorem run_read_draft (hash : List Nat → Nat) (j : JConfig) (r : SegRun)
    (hJ : j.journalInvariant.length = 32) (hS : j.segmentInvariant.length = 32)
    (hne : r.ws ≠ []) (hts : tsOK r) (hrec0 : 1 ≤ r.rec0)
    (hsg : r.segnum < w64) (hrecN : r.rec0 + r.ws.length < w64)
    (hwb : ∀ p ∈ r.ws, 2 * p.2.length < w64 ∧ p.1 < w64) :
    (swCommit hash (runWriter hash r)).seg = ⟨r.ts0, r.rec0, r.segnum, .draft⟩ ∧
    ∃ sr0 srf,
      newSegmentReader hash j ⟨r.ts0, r.rec0, r.segnum, .draft⟩
        (fillSegmentHeader hash j magicV1Draft r.segnum r.ts0 r.rec0 0 0 ++
          (swCommit hash (runWriter hash r)).out) = .ok sr0 ∧
      readRecords hash sr0 = (recsOf (writesToOps r.ws) r.ts0 r.rec0, .eof, srf) := by
  have hseg : (swCommit hash (runWriter hash r)).seg = ⟨r.ts0, r.rec0, r.segnum, .draft⟩ := by
    rw [swCommit_seg, runWriter_seg]
  have hts0 : r.ts0 < w64 := segRun_ts0_lt r hne hts hwb
  have hwfops := segRun_ops_wf r hwb
  obtain ⟨sr0, srf, hnew, hread⟩ := segmentFile_read hash j .draft magicV1Draft
    r.segnum r.ts0 r.rec0 0 0 (writesToOps r.ws ++ [.commitOp])
    hJ hS hrec0 hsg hts0 (by
      have := segRun_ts0_lt r hne hts hwb
      omega) (by simp [w64]) (by simp [w64]) hwfops (Or.inl ⟨rfl, Or.inl rfl⟩)
  refine ⟨hseg, sr0, srf, ?_, ?_⟩
  · rw [runWriterC_out]
    exact hnew
  · rw [recsOf_snoc_commit] at hread
    rw [show swApply hash (writesToOps r.ws ++ [.commitOp])
        (swStart r.segnum r.ts0 r.rec0) = swCommit hash (runWriter hash r) from
      (runWriterC_eq hash r).symm, swCommit_uncommitted] at hread
    simpa using hread

/-- What it means for a directory entry to hold one run's records: the
filename-derived segment identity matches, and opening + reading the file
recovers exactly the run's records with a clean EOF. -/
def readsAs (hash : List Nat → Nat) (j : JConfig) (r : SegRun) (e : Segment × List Nat) :
    Prop :=
  e.1.ts = r.ts0 ∧ e.1.recnum = r.rec0 ∧ e.1.segnum = r.segnum ∧
  ∃ sr0 srf, newSegmentReader hash j e.1 e.2 = .ok sr0 ∧
    readRecords hash sr0 = (recsOf (writesToOps r.ws) r.ts0 r.rec0, ReadRes.eof, srf)

theorem forall2_map_self {α β : Type} {P : α → β → Prop} :
    ∀ (l : List α) (f : α → β), (∀ x ∈ l, P x (f x)) → List.Forall₂ P l (l.map f) := by
  intro l f
  induction l with
  | nil => intro _; simp
  | cons x rest ih =>
    intro h
    exact List.Forall₂.cons (h x (by simp)) (ih (fun y hy => h y (by simp [hy])))

set_option maxHeartbeats 1000000 in
/-- A full run of the journal writer — `WriteRecord` for every input, then
`Commit` — leaves a directory of finalized segments plus one Draft segment,
whose runs partition the inputs, with contiguous record numbering and segment
numbering from 1, and every file reads back as exactly its run's records. -/
theorem jrun_dir (hash : List Nat → Nat) (j : JConfig)
    (hJ : j.journalInvariant.length = 32) (hS : j.segmentInvariant.length = 32)
    (p : Nat × List Nat) (rest : List (Nat × List Nat))
    (hb : ∀ q ∈ p :: rest, q.2 ≠ [] ∧ 2 * q.2.length < w64 ∧ q.1 < w64)
    (hN : (p :: rest).length + 2 < w64) :
    (((runSlices hash j.maxFileSize rest ⟨1, p.1, 1, [p]⟩).1 ++
        [(runSlices hash j.maxFileSize rest ⟨1, p.1, 1, [p]⟩).2]).map
          SegRun.ws).flatten = p :: rest ∧
    (∀ r ∈ (runSlices hash j.maxFileSize rest ⟨1, p.1, 1, [p]⟩).1 ++
        [(runSlices hash j.maxFileSize rest ⟨1, p.1, 1, [p]⟩).2],
      r.ws ≠ [] ∧ tsOK r) ∧
    chainFrom 1 1 ((runSlices hash j.maxFileSize rest ⟨1, p.1, 1, [p]⟩).1 ++
      [(runSlices hash j.maxFileSize rest ⟨1, p.1, 1, [p]⟩).2]) ∧
    jwDir hash j (jrun hash j (p :: rest)) =
      (runSlices hash j.maxFileSize rest ⟨1, p.1, 1, [p]⟩).1.map
          (fun r => closeFinalize hash j (runWriter hash r)) ++
        [(⟨(runSlices hash j.maxFileSize rest ⟨1, p.1, 1, [p]⟩).2.ts0,
           (runSlices hash j.maxFileSize rest ⟨1, p.1, 1, [p]⟩).2.rec0,
           (runSlices hash j.maxFileSize rest ⟨1, p.1, 1, [p]⟩).2.segnum, .draft⟩,
          fillSegmentHeader hash j magicV1Draft
              (runSlices hash j.maxFileSize rest ⟨1, p.1, 1, [p]⟩).2.segnum
              (runSlices hash j.maxFileSize rest ⟨1, p.1, 1, [p]⟩).2.ts0
              (runSlices hash j.maxFileSize rest ⟨1, p.1, 1, [p]⟩).2.rec0 0 0 ++
            (swCommit hash (runWriter hash
              (runSlices hash j.maxFileSize rest ⟨1, p.1, 1, [p]⟩).2)).out)] ∧
    List.Forall₂ (readsAs hash j)
      ((runSlices hash j.maxFileSize rest ⟨1, p.1, 1, [p]⟩).1 ++
        [(runSlices hash j.maxFileSize rest ⟨1, p.1, 1, [p]⟩).2])
      (jwDir hash j (jrun hash j (p :: rest))) := by
  have hd : p.2 ≠ [] := (hb p (by simp)).1
  have h0 : jwWriteRecord hash j p.1 p.2 jwEmpty =
      ⟨some (runWriter hash ⟨1, p.1, 1, [p]⟩), []⟩ := by
    simp only [jwWriteRecord, jwEmpty]
    rw [if_neg (by simpa using hd)]
    rfl
  have hfold : jrun hash j (p :: rest) = jwCommit hash
      ⟨some (runWriter hash (runSlices hash j.maxFileSize rest ⟨1, p.1, 1, [p]⟩).2),
       [] ++ (runSlices hash j.maxFileSize rest ⟨1, p.1, 1, [p]⟩).1.map
         (fun r => closeFinalize hash j (runWriter hash r))⟩ := by
    show jwCommit hash (List.foldl _ jwEmpty (p :: rest)) = _
    rw [List.foldl_cons, h0]
    rw [jwFold_eq hash j rest [] ⟨1, p.1, 1, [p]⟩ (fun q hq => (hb q (by simp [hq])).1)]
  obtain ⟨hflat, hcs, ⟨hcurne, hcurts⟩, hchain⟩ :=
    runSlices_struct hash j.maxFileSize rest ⟨1, p.1, 1, [p]⟩ (by simp) (by simp [tsOK])
  refine ⟨?_, ?_, ?_, ?_, ?_⟩
  case _ =>
    simp only [List.map_append, List.flatten_append, List.map_cons, List.map_nil,
      List.flatten_cons, List.flatten_nil, List.append_nil]
    simpa using hflat
  case _ =>
    intro r hr
    rcases List.mem_append.mp hr with h | h
    · exact hcs r h
    · rcases List.mem_singleton.mp h with rfl
      exact ⟨hcurne, hcurts⟩
  case _ => exact hchain
  case _ =>
    rw [hfold]
    simp only [jwCommit, jwDir, List.nil_append]
    rw [show (swCommit hash (runWriter hash
        (runSlices hash j.maxFileSize rest ⟨1, p.1, 1, [p]⟩).2)).seg =
      ⟨(runSlices hash j.maxFileSize rest ⟨1, p.1, 1, [p]⟩).2.ts0,
       (runSlices hash j.maxFileSize rest ⟨1, p.1, 1, [p]⟩).2.rec0,
       (runSlices hash j.maxFileSize rest ⟨1, p.1, 1, [p]⟩).2.segnum, .draft⟩ from by
        rw [swCommit_seg, runWriter_seg]]
  case _ =>
    rw [hfold]
    simp only [jwCommit, jwDir, List.nil_append]
    have hflat2 : (((runSlices hash j.maxFileSize rest ⟨1, p.1, 1, [p]⟩).1 ++
        [(runSlices hash j.maxFileSize rest ⟨1, p.1, 1, [p]⟩).2]).map SegRun.ws).flatten =
        p :: rest := by
      simp only [List.map_append, List.flatten_append, List.map_cons, List.map_nil,
        List.flatten_cons, List.flatten_nil, List.append_nil]
      simpa using hflat
    have hmem : ∀ r ∈ (runSlices hash j.maxFileSize rest ⟨1, p.1, 1, [p]⟩).1 ++
        [(runSlices hash j.maxFileSize rest ⟨1, p.1, 1, [p]⟩).2],
        r.ws ≠ [] ∧ tsOK r := by
      intro r hr
      rcases List.mem_append.mp hr with h | h
      · exact hcs r h
      · rcases List.mem_singleton.mp h with rfl
        exact ⟨hcurne, hcurts⟩
    have hbounds : ∀ r ∈ (runSlices hash j.maxFileSize rest ⟨1, p.1, 1, [p]⟩).1 ++
        [(runSlices hash j.maxFileSize rest ⟨1, p.1, 1, [p]⟩).2],
        1 ≤ r.rec0 ∧ r.segnum < w64 ∧ r.rec0 + r.ws.length < w64 := by
      intro r hr
      have hcb := chainFrom_bounds _ 1 1 hchain r hr
      have hlen := length_le_flatten_of_ne _ (fun x hx => (hmem x hx).1)
      rw [hflat2] at hcb hlen
      have hN' : (p :: rest).length + 2 < w64 := hN
      simp only [List.length_cons] at hN' hcb hlen
      exact ⟨by omega, by omega, by omega⟩
    have hwbr : ∀ r ∈ (runSlices hash j.maxFileSize rest ⟨1, p.1, 1, [p]⟩).1 ++
        [(runSlices hash j.maxFileSize rest ⟨1, p.1, 1, [p]⟩).2],
        ∀ q ∈ r.ws, 2 * q.2.length < w64 ∧ q.1 < w64 := by
      intro r hr q hq
      have hqin : q ∈ p :: rest := by
        rw [← hflat2]
        exact List.mem_flatten.mpr ⟨r.ws, List.mem_map.mpr ⟨r, hr, rfl⟩, hq⟩
      exact ⟨(hb q hqin).2.1, (hb q hqin).2.2⟩
    apply List.rel_append
    · apply forall2_map_self
      intro r hr
      have hr' : r ∈ _ ++ [(runSlices hash j.maxFileSize rest ⟨1, p.1, 1, [p]⟩).2] :=
        List.mem_append.mpr (Or.inl hr)
      obtain ⟨hrec0, hsg, hrecN⟩ := hbounds r hr'
      obtain ⟨hrne, hrts⟩ := hmem r hr'
      obtain ⟨hseg1, sr0, srf, hnew, hread⟩ :=
        run_read_fin hash j r hJ hS hrne hrts hrec0 hsg hrecN (hwbr r hr')
      refine ⟨?_, ?_, ?_, sr0, srf, ?_, hread⟩
      · rw [hseg1]
      · rw [hseg1]
      · rw [hseg1]
      · rw [hseg1]
        exact hnew
    · have hr' : (runSlices hash j.maxFileSize rest ⟨1, p.1, 1, [p]⟩).2 ∈
          (runSlices hash j.maxFileSize rest ⟨1, p.1, 1, [p]⟩).1 ++
            [(runSlices hash j.maxFileSize rest ⟨1, p.1, 1, [p]⟩).2] :=
        List.mem_append.mpr (Or.inr (by simp))
      obtain ⟨hrec0, hsg, hrecN⟩ := hbounds _ hr'
      obtain ⟨hrne, hrts⟩ := hmem _ hr'
      obtain ⟨hseg1, sr0, srf, hnew, hread⟩ :=
        run_read_draft hash j _ hJ hS hrne hrts hrec0 hsg hrecN (hwbr _ hr')
      refine List.Forall₂.cons ?_ List.Forall₂.nil
      rw [show (swCommit hash (runWriter hash
          (runSlices hash j.maxFileSize rest ⟨1, p.1, 1, [p]⟩).2)).seg =
        ⟨(runSlices hash j.maxFileSize rest ⟨1, p.1, 1, [p]⟩).2.ts0,
         (runSlices hash j.maxFileSize rest ⟨1, p.1, 1, [p]⟩).2.rec0,
         (runSlices hash j.maxFileSize rest ⟨1, p.1, 1, [p]⟩).2.segnum, .draft⟩ from by
          rw [swCommit_seg, runWriter_seg]]
      exact ⟨rfl, rfl, rfl, sr0, srf, hnew, hread⟩

/-! ## Cursor (`reader.go`, `segments.go`) -/

/-- `Filter` (package `journal`): a zero value disables each bound. -/
structure Filter where
  minRecordID : Nat := 0
  minTimestamp : Nat := 0
  maxRecordID : Nat := 0
  maxTimestamp : Nat := 0
  limit : Nat := 0
  latest : Bool := false
deriving DecidableEq, Repr

/-- The `MinRecordID`/`MinTimestamp` cutoff scan of `FindSegments`
(`segments.go`): `-1` until a segment's key reaches the bound; the index on an
exact hit, one less on overshoot. -/
def cutoffIdx (key : Segment → Nat) (target : Nat) : List Segment → Nat → Int
  | [], _ => -1
  | s :: rest, i =>
    if key s = target then (i : Int)
    else if key s > target then (i : Int) - 1
    else cutoffIdx key target rest (i + 1)

/-- `if cutoff > 0 { segs = segs[cutoff:] }`. -/
def applyCutoff (c : Int) (segs : List Segment) : List Segment :=
  if c > 0 then segs.drop c.toNat else segs

/-- `Journal.FindSegments` (`segments.go`): keep directory segments not past
the max bounds, sort by `compareSegments`, then cut away segments strictly
before the one that may contain the min bound. -/
def findSegments (f : Filter) (listing : List Segment) : List Segment :=
  let segs := listing.filter (fun s =>
    !((f.maxRecordID != 0) && decide (s.recnum > f.maxRecordID)) &&
    !((f.maxTimestamp != 0) && decide (s.ts > f.maxTimestamp)))
  let segs := segs.mergeSort (fun a b => decide (compareSegments a b ≤ 0))
  let segs := if f.minRecordID ≠ 0 then
    applyCutoff (cutoffIdx Segment.recnum f.minRecordID segs 0) segs else segs
  if f.minTimestamp ≠ 0 then
    applyCutoff (cutoffIdx Segment.ts f.minTimestamp segs 0) segs else segs

/-- The four record-bound guards of `Cursor.next` (`reader.go` lines 144-155):
a decoded record is surfaced unless one of the `continue` guards fires. -/
def passes (f : Filter) (r : Record) : Bool :=
  !((f.minRecordID != 0) && decide (r.id < f.minRecordID)) &&
  (!((f.maxRecordID != 0) && decide (r.id > f.maxRecordID)) &&
   (!((f.minTimestamp != 0) && decide (r.timestamp < f.minTimestamp)) &&
    !((f.maxTimestamp != 0) && decide (r.timestamp > f.maxTimestamp))))

/-- Errors a cursor run can surface through `Err()`. -/
inductive CursorErr where
  | openFailed
  | header (e : HeaderErr)
  | corrupted
deriving DecidableEq, Repr

/-- The record-producing loop of `Cursor.next` (`reader.go` lines 116-157) run
to exhaustion: segments are opened in order (`openf` stands for
`openSegment`); per-segment `EOF` moves on to the next segment; corruption or
an open error ends the run with that error; every surfaced record is kept iff
it passes the filter guards. -/
def cursorLoop (hash : List Nat → Nat) (j : JConfig) (f : Filter)
    (openf : Segment → Option (List Nat)) :
    List Segment → List Record × Option CursorErr
  | [] => ([], none)
  | seg :: rest =>
    match openf seg with
    | none => ([], some .openFailed)
    | some file =>
      match newSegmentReader hash j seg file with
      | .error e => ([], some (.header e))
      | .ok sr =>
        match readRecords hash sr with
        | (recs, .eof, _) =>
          let out := cursorLoop hash j f openf rest
          (recs.filter (passes f) ++ out.1, out.2)
        | (recs, _, _) => (recs.filter (passes f), some .corrupted)

/-- Opening a segment of the modelled directory by its identity. -/
def dirOpen (dir : List (Segment × List Nat)) (s : Segment) : Option (List Nat) :=
  (dir.find? (fun e => decide (e.1 = s))).map Prod.snd

/-- Modelled from the spec: the two `Journal.Summary()` outputs `Cursor.next`
consumes (`sum.LastCommitted.ID` and `sum.FirstRecord().ID`) are taken as
parameters, since `Journal.Summary` itself is not among the sources; the spec
defines them as the id of the last committed record and the id of the first
record on disk.  This function is the `Limit`/`Latest` filter adjustment of
`Cursor.next` (`reader.go` lines 86-107). -/
def adjustFilter (f : Filter) (lastCommitted firstRecord : Nat) : Filter :=
  if f.limit > 0 then
    if f.latest then
      if lastCommitted ≥ f.limit then
        { f with minRecordID := max f.minRecordID (lastCommitted - f.limit + 1) }
      else f
    else
      { f with minRecordID := firstRecord,
               maxRecordID := (firstRecord + f.limit - 1) % w64 }
  else f

/-- A whole `Read(filter)` cursor drained by `Next()` (`reader.go` lines
86-158): adjust the filter using the summary, select segments with
`FindSegments` over the directory listing, then run the read loop. -/
def cursorRun (hash : List Nat → Nat) (j : JConfig) (f : Filter)
    (dir : List (Segment × List Nat)) (lastCommitted firstRecord : Nat) :
    List Record × Option CursorErr :=
  let f := adjustFilter f lastCommitted firstRecord
  cursorLoop hash j f (dirOpen dir) (findSegments f (dir.map Prod.fst))

theorem cutoffIdx_spec (key : Segment → Nat) (target : Nat) :
    ∀ (l : List Segment) (i : Nat),
    (cutoffIdx key target l i = -1 ∧ ∀ x ∈ l, key x < target) ∨
    (∃ p : Nat, (∀ x ∈ l.take p, key x < target) ∧ ∃ hp : p < l.length,
      ((cutoffIdx key target l i = (i : Int) + p ∧ key (l.get ⟨p, hp⟩) = target) ∨
       (cutoffIdx key target l i = (i : Int) + p - 1 ∧ key (l.get ⟨p, hp⟩) > target))) := by
  intro l
  induction l with
  | nil => intro i; exact Or.inl ⟨rfl, by simp⟩
  | cons s t ih =>
    intro i
    by_cases he : key s = target
    · refine Or.inr ⟨0, by simp, by simp, Or.inl ⟨?_, he⟩⟩
      simp [cutoffIdx, he]
    · by_cases hg : key s > target
      · refine Or.inr ⟨0, by simp, by simp, Or.inr ⟨?_, hg⟩⟩
        simp [cutoffIdx, he, hg]
      · have hlt : key s < target := by omega
        have hc : cutoffIdx key target (s :: t) i = cutoffIdx key target t (i + 1) := by
          simp [cutoffIdx, he, hg]
        rcases ih (i + 1) with ⟨h1, h2⟩ | ⟨p, htake, hp, hcase⟩
        · refine Or.inl ⟨by rw [hc]; exact h1, ?_⟩
          intro x hx
          rcases List.mem_cons.mp hx with rfl | hx
          · exact hlt
          · exact h2 x hx
        · refine Or.inr ⟨p + 1, ?_, by simpa using Nat.succ_lt_succ hp, ?_⟩
          · intro x hx
            rw [List.take_succ_cons] at hx
            rcases List.mem_cons.mp hx with rfl | hx
            · exact hlt
            · exact htake x hx
          · rcases hcase with ⟨hcv, hkey⟩ | ⟨hcv, hkey⟩
            · refine Or.inl ⟨?_, by simpa using hkey⟩
              rw [hc, hcv]
              push_cast
              ring
            · refine Or.inr ⟨?_, by simpa using hkey⟩
              rw [hc, hcv]
              push_cast
              ring

/-- `applyCutoff (cutoffIdx …) l` drops a prefix of segments strictly below
the bound; if anything is dropped, the first kept segment's key is still at
most the bound. -/
theorem findCut_split (key : Segment → Nat) (target : Nat) (l : List Segment) :
    ∃ pre suf, l = pre ++ suf ∧
      applyCutoff (cutoffIdx key target l 0) l = suf ∧
      (∀ x ∈ pre, key x < target) ∧
      (pre = [] ∨ ∃ s0 suf', suf = s0 :: suf' ∧ key s0 ≤ target) := by
  rcases cutoffIdx_spec key target l 0 with ⟨h1, _⟩ | ⟨p, htake, hp, hcase⟩
  · refine ⟨[], l, by simp, ?_, by simp, Or.inl rfl⟩
    simp [applyCutoff, h1]
  · rcases hcase with ⟨hcv, hkey⟩ | ⟨hcv, hkey⟩
    · rcases Nat.eq_zero_or_pos p with rfl | hpos
      · refine ⟨[], l, by simp, ?_, by simp, Or.inl rfl⟩
        simp only [applyCutoff, hcv]
        norm_num
      · refine ⟨l.take p, l.drop p, (List.take_append_drop p l).symm, ?_, htake, Or.inr ?_⟩
        · simp only [applyCutoff, hcv]
          rw [if_pos (by push_cast; omega)]
          congr 1
          simp
        · refine ⟨l.get ⟨p, hp⟩, l.drop (p + 1), ?_, le_of_eq hkey⟩
          rw [List.drop_eq_getElem_cons hp]
          simp
    · rcases Nat.lt_or_ge p 2 with hp2 | hp2
      · refine ⟨[], l, by simp, ?_, by simp, Or.inl rfl⟩
        simp only [applyCutoff, hcv]
        rw [if_neg (by push_cast; omega)]
      · have hp1 : p - 1 < l.length := by omega
        refine ⟨l.take (p - 1), l.drop (p - 1), (List.take_append_drop _ l).symm, ?_,
          ?_, Or.inr ?_⟩
        · simp only [applyCutoff, hcv]
          rw [if_pos (by push_cast; omega)]
          congr 1
          push_cast
          omega
        · intro x hx
          apply htake
          have : l.take (p - 1) = (l.take p).take (p - 1) := by
            rw [List.take_take]
            congr 1
            omega
          rw [this] at hx
          exact List.mem_of_mem_take hx
        · refine ⟨l.get ⟨p - 1, hp1⟩, l.drop p, ?_, ?_⟩
          · rw [List.drop_eq_getElem_cons hp1]
            have hpp : p - 1 + 1 = p := by omega
            rw [hpp]
            rfl
          · have := htake (l.get ⟨p - 1, hp1⟩) (by
              rw [List.mem_take_iff_getElem]
              exact ⟨p - 1, by simp; omega, rfl⟩)
            omega

theorem flatten_map_sublist_eq {α β : Type} (g : α → List β) :
    ∀ {l' l : List α}, List.Sublist l' l → l.Nodup → (∀ x ∈ l, x ∉ l' → g x = []) →
    (l.map g).flatten = (l'.map g).flatten := by
  intro l' l hsub
  induction hsub with
  | slnil => intro _ _; rfl
  | cons a hsub ih =>
    rename_i u t
    intro hnd hv
    have ha : g a = [] := by
      apply hv a (by simp)
      intro hmem
      have : a ∈ t := hsub.subset hmem
      exact (List.nodup_cons.mp hnd).1 this
    simp only [List.map_cons, List.flatten_cons, ha, List.nil_append]
    exact ih (List.nodup_cons.mp hnd).2 (fun x hx hnx => hv x (by simp [hx]) hnx)
  | cons₂ a hsub ih =>
    rename_i u t
    intro hnd hv
    simp only [List.map_cons, List.flatten_cons]
    rw [ih (List.nodup_cons.mp hnd).2 (fun x hx hnx => ?_)]
    apply hv x (by simp [hx])
    intro hmem
    rcases List.mem_cons.mp hmem with rfl | h
    · exact (List.nodup_cons.mp hnd).1 hx
    · exact hnx h

theorem filter_flatten_comm {α : Type} (p : α → Bool) :
    ∀ (l : List (List α)), (l.map (List.filter p)).flatten = l.flatten.filter p := by
  intro l
  induction l with
  | nil => rfl
  | cons x rest ih =>
    simp only [List.map_cons, List.flatten_cons, List.filter_append]
    rw [ih]

theorem find?_at {α : Type} (p : α → Bool) :
    ∀ (l : List α) (i : Nat) (hi : i < l.length),
    (∀ k (hk : k < i), p (l.get ⟨k, lt_trans hk hi⟩) = false) →
    p (l.get ⟨i, hi⟩) = true → l.find? p = some (l.get ⟨i, hi⟩) := by
  intro l
  induction l with
  | nil => intro i hi; exact absurd hi (by simp)
  | cons a t ih =>
    intro i hi hbefore hhit
    cases i with
    | zero =>
      have hhit' : p a = true := hhit
      rw [List.find?_cons_of_pos _ hhit']
      rfl
    | succ n =>
      have h0 : p a = false := by
        have := hbefore 0 (Nat.succ_pos n)
        simpa using this
      rw [List.find?_cons_of_neg _ (by simp [h0])]
      simp only [List.get_cons_succ] at hhit ⊢
      refine ih n (by simpa using hi) (fun k hk => ?_) hhit
      have := hbefore (k + 1) (by omega)
      simpa using this

theorem recsOf_writes_ids :
    ∀ (sl : List (Nat × List Nat)) (c r : Nat),
    (recsOf (writesToOps sl) c r).map Record.id = List.range' r sl.length := by
  intro sl
  induction sl with
  | nil => intro c r; rfl
  | cons p rest ih =>
    intro c r
    simp only [writesToOps, List.map_cons, recsOf, List.length_cons, List.range'_succ]
    rw [show List.map (fun p => SegOp.write p.1 p.2) rest = writesToOps rest from rfl, ih]

theorem recsOf_writes_data :
    ∀ (sl : List (Nat × List Nat)) (c r : Nat),
    (recsOf (writesToOps sl) c r).map Record.data = sl.map Prod.snd := by
  intro sl
  induction sl with
  | nil => intro c r; rfl
  | cons p rest ih =>
    intro c r
    simp only [writesToOps, List.map_cons, recsOf]
    rw [show List.map (fun p => SegOp.write p.1 p.2) rest = writesToOps rest from rfl, ih]

theorem recsOf_id_bounds (sl : List (Nat × List Nat)) (c r : Nat) :
    ∀ x ∈ recsOf (writesToOps sl) c r, r ≤ x.id ∧ x.id < r + sl.length := by
  intro x hx
  have : x.id ∈ List.range' r sl.length := by
    rw [← recsOf_writes_ids sl c r]
    exact List.mem_map.mpr ⟨x, hx, rfl⟩
  have := List.mem_range'_1.mp this
  omega

theorem recsOf_writes_length (sl : List (Nat × List Nat)) (c r : Nat) :
    (recsOf (writesToOps sl) c r).length = sl.length := by
  have := congrArg List.length (recsOf_writes_ids sl c r)
  simpa using this

theorem chainFrom_get :
    ∀ (l : List SegRun) (s r : Nat), chainFrom s r l →
    ∀ (i : Nat) (hi : i < l.length),
    (l.get ⟨i, hi⟩).segnum = s + i ∧
    (l.get ⟨i, hi⟩).rec0 = r + (((l.take i).map SegRun.ws).flatten).length := by
  intro l
  induction l with
  | nil => intro s r _ i hi; cases (by simpa using hi : False)
  | cons y t ih =>
    intro s r hc i hi
    obtain ⟨hseg, hrec, hrest⟩ := hc
    cases i with
    | zero => simpa using ⟨hseg, hrec⟩
    | succ n =>
      have := ih (s + 1) (r + y.ws.length) hrest n (by simpa using hi)
      simp only [List.get_cons_succ] at this ⊢
      refine ⟨by omega, ?_⟩
      rw [this.2]
      simp only [List.take_succ_cons, List.map_cons, List.flatten_cons, List.length_append]
      omega

theorem passes_false_of_min (f : Filter) (r : Record)
    (h0 : f.minRecordID ≠ 0) (h : r.id < f.minRecordID) : passes f r = false := by
  have h1 : (f.minRecordID != 0) = true := by simpa using h0
  have h2 : decide (r.id < f.minRecordID) = true := decide_eq_true h
  simp [passes, h1, h2]

theorem passes_false_of_max (f : Filter) (r : Record)
    (h0 : f.maxRecordID ≠ 0) (h : f.maxRecordID < r.id) : passes f r = false := by
  have h1 : (f.maxRecordID != 0) = true := by simpa using h0
  have h2 : decide (r.id > f.maxRecordID) = true := decide_eq_true h
  simp [passes, h1, h2]

theorem compare_le_of_lt (a b : Segment) (h : a.segnum < b.segnum) :
    compareSegments a b ≤ 0 := by
  unfold compareSegments
  rw [if_pos (by omega)]
  omega

set_option maxHeartbeats 1600000 in
/-- `FindSegments` + the `Cursor.next` loop read back exactly the filtered
records of a well-formed directory, when the filter has no timestamp bounds:
the segments `FindSegments` discards can only contain records that the
per-record guards would drop anyway. -/
theorem cursor_correct (hash : List Nat → Nat) (j : JConfig) (f : Filter)
    (dir : List (Segment × List Nat)) (recsD : List (List Record))
    (hlen : recsD.length = dir.length)
    (hopen : ∀ (i : Nat) (hi : i < dir.length) (hi2 : i < recsD.length),
      ∃ sr0 srf,
        newSegmentReader hash j (dir.get ⟨i, hi⟩).1 (dir.get ⟨i, hi⟩).2 = .ok sr0 ∧
        readRecords hash sr0 = (recsD.get ⟨i, hi2⟩, ReadRes.eof, srf))
    (hseg : ∀ (i : Nat) (hi : i < dir.length), (dir.get ⟨i, hi⟩).1.segnum = 1 + i)
    (hlb : ∀ (i : Nat) (hi : i < dir.length) (hi2 : i < recsD.length),
      ∀ x ∈ recsD.get ⟨i, hi2⟩, (dir.get ⟨i, hi⟩).1.recnum ≤ x.id)
    (hub : ∀ (i : Nat) (hi : i + 1 < dir.length) (hi2 : i < recsD.length),
      ∀ x ∈ recsD.get ⟨i, hi2⟩, x.id < (dir.get ⟨i + 1, hi⟩).1.recnum)
    (hmono : ∀ (i k : Nat) (hi : i < dir.length) (hk : k < dir.length), i ≤ k →
      (dir.get ⟨i, hi⟩).1.recnum ≤ (dir.get ⟨k, hk⟩).1.recnum)
    (hts1 : f.minTimestamp = 0) (hts2 : f.maxTimestamp = 0) :
    cursorLoop hash j f (dirOpen dir) (findSegments f (dir.map Prod.fst)) =
      (recsD.flatten.filter (passes f), none) := by
  set listing := dir.map Prod.fst with hlst
  have hlenl : listing.length = dir.length := by simp [hlst]
  set g : Segment → List Record := fun s => recsD.getD (s.segnum - 1) [] with hgdef
  have hlget : ∀ (i : Nat) (hi : i < listing.length),
      listing.get ⟨i, hi⟩ = (dir.get ⟨i, by omega⟩).1 := by
    intro i hi
    simp [hlst, List.get_map]
  have hsegl : ∀ (i : Nat) (hi : i < listing.length),
      (listing.get ⟨i, hi⟩).segnum = 1 + i := by
    intro i hi
    rw [hlget i hi]
    exact hseg i _
  have hgval : ∀ (i : Nat) (hi : i < listing.length) (hi2 : i < recsD.length),
      g (listing.get ⟨i, hi⟩) = recsD.get ⟨i, hi2⟩ := by
    intro i hi hi2
    show recsD.getD ((listing.get ⟨i, hi⟩).segnum - 1) [] = _
    rw [hsegl i hi, show 1 + i - 1 = i from by omega, List.getD_eq_getElem recsD [] hi2]
    rfl
  have hpw : List.Pairwise (fun a b => a.segnum < b.segnum) listing := by
    rw [List.pairwise_iff_get]
    intro u v huv
    rw [hsegl u.1 u.2, hsegl v.1 v.2]
    omega
  have hnodup : listing.Nodup := by
    refine hpw.imp ?_
    intro a b h he
    rw [he] at h
    omega
  set A := listing.filter (fun s =>
    !((f.maxRecordID != 0) && decide (s.recnum > f.maxRecordID)) &&
    !((f.maxTimestamp != 0) && decide (s.ts > f.maxTimestamp))) with hAdef
  have hApw : List.Pairwise (fun a b => a.segnum < b.segnum) A :=
    hpw.sublist (List.filter_sublist listing)
  have hsorted : List.Pairwise
      (fun a b => (decide (compareSegments a b ≤ 0)) = true) A := by
    refine hApw.imp ?_
    intro a b h
    exact decide_eq_true (compare_le_of_lt a b h)
  have hms : A.mergeSort (fun a b => decide (compareSegments a b ≤ 0)) = A :=
    List.mergeSort_of_sorted hsorted
  have hfd : findSegments f listing =
      (if f.minRecordID ≠ 0 then
        applyCutoff (cutoffIdx Segment.recnum f.minRecordID A 0) A else A) := by
    show (let segs := A
      let segs := segs.mergeSort (fun a b => decide (compareSegments a b ≤ 0))
      let segs := if f.minRecordID ≠ 0 then
        applyCutoff (cutoffIdx Segment.recnum f.minRecordID segs 0) segs else segs
      if f.minTimestamp ≠ 0 then
        applyCutoff (cutoffIdx Segment.ts f.minTimestamp segs 0) segs else segs) = _
    simp only [hms]
    rw [if_neg (by simp [hts1])]
  obtain ⟨pre, suf, hAps, happ, hpre_lt, hminne, hpre_head⟩ :
      ∃ pre suf, A = pre ++ suf ∧ findSegments f listing = suf ∧
        (∀ x ∈ pre, x.recnum < f.minRecordID) ∧
        (pre ≠ [] → f.minRecordID ≠ 0) ∧
        (pre = [] ∨ ∃ s0 suf2, suf = s0 :: suf2 ∧ s0.recnum ≤ f.minRecordID) := by
    by_cases hmin : f.minRecordID ≠ 0
    · obtain ⟨pre, suf, h1, h2, h3, h4⟩ := findCut_split Segment.recnum f.minRecordID A
      exact ⟨pre, suf, h1, by rw [hfd, if_pos hmin, h2], h3, fun _ => hmin, h4⟩
    · exact ⟨[], A, by simp, by rw [hfd, if_neg hmin], by simp, by simp, Or.inl rfl⟩
  have hsufA : List.Sublist suf A := by
    rw [hAps]
    exact List.sublist_append_right pre suf
  have hLsub : List.Sublist (findSegments f listing) listing := by
    rw [happ]
    exact hsufA.trans (List.filter_sublist listing)
  have hvanish : ∀ x ∈ listing, x ∉ suf → ((g x).filter (passes f)) = [] := by
    intro x hx hnx
    obtain ⟨⟨i, hi⟩, hig⟩ := List.mem_iff_get.mp hx
    have hidir : i < dir.length := by omega
    have hi2 : i < recsD.length := by omega
    have hgx : g x = recsD.get ⟨i, hi2⟩ := by rw [← hig]; exact hgval i hi hi2
    by_cases hxA : x ∈ A
    · have hxpre : x ∈ pre := by
        rcases List.mem_append.mp (hAps ▸ hxA) with h | h
        · exact h
        · exact absurd h hnx
      have hne : pre ≠ [] := List.ne_nil_of_mem hxpre
      rcases hpre_head with h0 | ⟨s0, suf2, hs, hs0⟩
      · exact absurd h0 hne
      have hs0A : s0 ∈ A := by
        rw [hAps]
        exact List.mem_append.mpr (Or.inr (hs ▸ List.mem_cons_self s0 suf2))
      have hs0l : s0 ∈ listing := (List.filter_sublist listing).subset hs0A
      obtain ⟨⟨m, hm⟩, hmg⟩ := List.mem_iff_get.mp hs0l
      have hmdir : m < dir.length := by omega
      have hlt : x.segnum < s0.segnum := by
        have hpwA : List.Pairwise (fun a b => a.segnum < b.segnum) (pre ++ suf) :=
          hAps ▸ hApw
        exact (List.pairwise_append.mp hpwA).2.2 x hxpre s0
          (hs ▸ List.mem_cons_self s0 suf2)
      have him : i < m := by
        have h1 : x.segnum = 1 + i := by rw [← hig]; exact hsegl i hi
        have h2 : s0.segnum = 1 + m := by rw [← hmg]; exact hsegl m hm
        omega
      rw [hgx]
      apply List.filter_eq_nil_iff.mpr
      intro r hr
      have h1 : r.id < (dir.get ⟨i + 1, by omega⟩).1.recnum :=
        hub i (by omega) hi2 r hr
      have h2 : (dir.get ⟨i + 1, by omega⟩).1.recnum ≤
          (dir.get ⟨m, hmdir⟩).1.recnum := hmono (i + 1) m _ hmdir (by omega)
      have h3 : (dir.get ⟨m, hmdir⟩).1 = s0 := by
        rw [← hmg, hlget m hm]
      rw [passes_false_of_min f r (hminne hne) (by rw [h3] at h2; omega)]
      simp
    · have hxk : ¬ (!((f.maxRecordID != 0) && decide (x.recnum > f.maxRecordID)) &&
          !((f.maxTimestamp != 0) && decide (x.ts > f.maxTimestamp))) = true := by
        intro hk
        exact hxA (List.mem_filter.mpr ⟨hx, hk⟩)
      have hts2' : ((f.maxTimestamp != 0) && decide (x.ts > f.maxTimestamp)) = false := by
        rw [hts2]
        simp
      rw [hts2'] at hxk
      simp only [Bool.not_false, Bool.and_true, Bool.not_eq_true'] at hxk
      rw [Bool.not_eq_false, Bool.and_eq_true] at hxk
      have hmax0 : f.maxRecordID ≠ 0 := by simpa using hxk.1
      have hmaxlt : f.maxRecordID < x.recnum := by simpa using hxk.2
      rw [hgx]
      apply List.filter_eq_nil_iff.mpr
      intro r hr
      have h1 : (dir.get ⟨i, hidir⟩).1.recnum ≤ r.id := hlb i hidir hi2 r hr
      have h2 : (dir.get ⟨i, hidir⟩).1 = x := by rw [← hig, hlget i hi]
      rw [passes_false_of_max f r hmax0 (by rw [h2] at h1; omega)]
      simp
  have hloop : ∀ (L : List Segment), L ⊆ listing →
      cursorLoop hash j f (dirOpen dir) L =
        ((L.map (fun s => (g s).filter (passes f))).flatten, none) := by
    intro L
    induction L with
    | nil => intro _; rfl
    | cons s rest ih =>
      intro hsub
      have hs : s ∈ listing := hsub (List.mem_cons_self s rest)
      obtain ⟨⟨i, hi⟩, hig⟩ := List.mem_iff_get.mp hs
      have hidir : i < dir.length := by omega
      have hi2 : i < recsD.length := by omega
      have hsd : (dir.get ⟨i, hidir⟩).1 = s := by rw [← hig, hlget i hi]
      have hdo : dirOpen dir s = some ((dir.get ⟨i, hidir⟩).2) := by
        unfold dirOpen
        have hprev : ∀ (k : Nat) (hk : k < i),
            (fun (e : Segment × List Nat) => decide (e.1 = s))
              (dir.get ⟨k, lt_trans hk hidir⟩) = false := by
          intro k hk
          apply decide_eq_false
          intro he
          have h1 : (dir.get ⟨k, by omega⟩).1.segnum = 1 + k := hseg k _
          have h2 : s.segnum = 1 + i := by rw [← hig]; exact hsegl i hi
          rw [he] at h1
          omega
        rw [find?_at (fun e => decide (e.1 = s)) dir i hidir hprev (decide_eq_true hsd)]
        rfl
      obtain ⟨sr0, srf, hnew, hread⟩ := hopen i hidir hi2
      rw [hsd] at hnew
      have hgs : g s = recsD.get ⟨i, hi2⟩ := by rw [← hig]; exact hgval i hi hi2
      show (match dirOpen dir s with
        | none => ([], some CursorErr.openFailed)
        | some file =>
          match newSegmentReader hash j s file with
          | .error e => ([], some (CursorErr.header e))
          | .ok sr =>
            match readRecords hash sr with
            | (recs, .eof, _) =>
              let out := cursorLoop hash j f (dirOpen dir) rest
              (recs.filter (passes f) ++ out.1, out.2)
            | (recs, _, _) => (recs.filter (passes f), some CursorErr.corrupted)) = _
      rw [hdo]
      simp only [hnew, hread]
      rw [ih (fun y hy => hsub (List.mem_cons_of_mem s hy))]
      simp only [List.map_cons, List.flatten_cons, hgs]
  rw [hloop (findSegments f listing) hLsub.subset]
  rw [← flatten_map_sublist_eq (fun s => (g s).filter (passes f)) hLsub hnodup
    (by rw [happ]; exact hvanish)]
  have hmapeq : listing.map (fun s => (g s).filter (passes f)) =
      recsD.map (List.filter (passes f)) := by
    apply List.ext_get (by simp [hlenl, hlen])
    intro n h1 h2
    simp only [List.get_map]
    rw [hgval n (by simpa using h1) (by simpa using h2)]
  rw [hmapeq, filter_flatten_comm]

/-- The records a journal run produces, slice by slice: each segment's records
start at the slice's first raw timestamp and continue the global record
numbering; within a slice timestamps are clamped to the running maximum. -/
def journalRecs : List (List (Nat × List Nat)) → Nat → List Record
  | [], _ => []
  | sl :: rest, rec0 =>
    recsOf (writesToOps sl) ((sl.headD (0, [])).1) rec0 ++
      journalRecs rest (rec0 + sl.length)

theorem flatten_take_len_le {α : Type} :
    ∀ (L : List (List α)) (i : Nat),
    ((L.take i).flatten).length ≤ (L.flatten).length := by
  intro L
  induction L with
  | nil => intro i; simp
  | cons x rest ih =>
    intro i
    cases i with
    | zero => simp
    | succ n =>
      simp only [List.take_succ_cons, List.flatten_cons, List.length_append]
      have := ih n
      omega

theorem runs_flatten_recs (hash : List Nat → Nat) :
    ∀ (runs : List SegRun) (s r : Nat), chainFrom s r runs →
    (∀ x ∈ runs, tsOK x) →
    (runs.map (fun x => recsOf (writesToOps x.ws) x.ts0 x.rec0)).flatten =
      journalRecs (runs.map SegRun.ws) r := by
  intro runs
  induction runs with
  | nil => intro s r _ _; rfl
  | cons y t ih =>
    intro s r hc hts
    obtain ⟨hseg, hrec, hrest⟩ := hc
    simp only [List.map_cons, List.flatten_cons, journalRecs]
    rw [ih (s + 1) (r + y.ws.length) hrest (fun x hx => hts x (by simp [hx]))]
    have h1 : y.ts0 = (y.ws.headD (0, [])).1 := hts y (by simp)
    rw [← h1, hrec]

/-- The decomposition of a write sequence into per-segment slices, as the
journal writer's rotation decisions produce it. -/
def jslices (hash : List Nat → Nat) (mfs : Nat) (p : Nat × List Nat)
    (rest : List (Nat × List Nat)) : List (List (Nat × List Nat)) :=
  ((runSlices hash mfs rest ⟨1, p.1, 1, [p]⟩).1 ++
    [(runSlices hash mfs rest ⟨1, p.1, 1, [p]⟩).2]).map SegRun.ws

set_option maxHeartbeats 1600000 in
/-- Reading a full journal run through the cursor machinery, with any filter
that has no timestamp bounds: the result is the filtered list of all written
records, slice by slice, with no error. -/
theorem journal_read (hash : List Nat → Nat) (j : JConfig)
    (hJ : j.journalInvariant.length = 32) (hS : j.segmentInvariant.length = 32)
    (p : Nat × List Nat) (rest : List (Nat × List Nat))
    (hb : ∀ q ∈ p :: rest, q.2 ≠ [] ∧ 2 * q.2.length < w64 ∧ q.1 < w64)
    (hN : (p :: rest).length + 2 < w64) (f : Filter)
    (hts1 : f.minTimestamp = 0) (hts2 : f.maxTimestamp = 0) :
    (jslices hash j.maxFileSize p rest).flatten = p :: rest ∧
    (∀ sl ∈ jslices hash j.maxFileSize p rest, sl ≠ []) ∧
    cursorLoop hash j f (dirOpen (jwDir hash j (jrun hash j (p :: rest))))
        (findSegments f ((jwDir hash j (jrun hash j (p :: rest))).map Prod.fst)) =
      ((journalRecs (jslices hash j.maxFileSize p rest) 1).filter (passes f), none) := by
  obtain ⟨hflat, hmem, hchain, hdir, hfa⟩ := jrun_dir hash j hJ hS p rest hb hN
  set cs := (runSlices hash j.maxFileSize rest ⟨1, p.1, 1, [p]⟩).1 with hcsdef
  set cur := (runSlices hash j.maxFileSize rest ⟨1, p.1, 1, [p]⟩).2 with hcurdef
  have hjs : jslices hash j.maxFileSize p rest = (cs ++ [cur]).map SegRun.ws := rfl
  rw [hjs]
  refine ⟨hflat, ?_, ?_⟩
  · intro sl hsl
    obtain ⟨r, hr, rfl⟩ := List.mem_map.mp hsl
    exact (hmem r hr).1
  set runs := cs ++ [cur] with hruns
  set dir := jwDir hash j (jrun hash j (p :: rest)) with hdirdef
  set recsD := runs.map (fun x => recsOf (writesToOps x.ws) x.ts0 x.rec0) with hrD
  obtain ⟨hflen, hfget⟩ := List.forall₂_iff_get.mp hfa
  have hlenD : recsD.length = dir.length := by simp [hrD, ← hflen]
  have hgetD : ∀ (i : Nat) (hi2 : i < recsD.length) (hir : i < runs.length),
      recsD.get ⟨i, hi2⟩ =
        recsOf (writesToOps (runs.get ⟨i, hir⟩).ws) (runs.get ⟨i, hir⟩).ts0
          (runs.get ⟨i, hir⟩).rec0 := by
    intro i hi2 hir
    simp [hrD, List.get_map]
  have hchg := chainFrom_get runs 1 1 hchain
  have hrlen : ∀ (i : Nat), i < dir.length → i < runs.length := by
    intro i hi
    omega
  have hrec0 : ∀ (i : Nat) (hir : i < runs.length),
      (runs.get ⟨i, hir⟩).rec0 =
        1 + (((runs.take i).map SegRun.ws).flatten).length :=
    fun i hir => (hchg i hir).2
  have hext : ∀ (i : Nat) (hi : i < dir.length) (hir : i < runs.length),
      (dir.get ⟨i, hi⟩).1.ts = (runs.get ⟨i, hir⟩).ts0 ∧
      (dir.get ⟨i, hi⟩).1.recnum = (runs.get ⟨i, hir⟩).rec0 ∧
      (dir.get ⟨i, hi⟩).1.segnum = (runs.get ⟨i, hir⟩).segnum := by
    intro i hi hir
    obtain ⟨h1, h2, h3, _⟩ := hfget i hir hi
    exact ⟨h1, h2, h3⟩
  have hread := cursor_correct hash j f dir recsD hlenD
    (by
      intro i hi hi2
      have hir := hrlen i hi
      obtain ⟨_, _, _, sr0, srf, hnew, hrd⟩ := hfget i hir hi
      exact ⟨sr0, srf, hnew, by rw [hgetD i hi2 hir]; exact hrd⟩)
    (by
      intro i hi
      have hir := hrlen i hi
      rw [(hext i hi hir).2.2, (hchg i hir).1])
    (by
      intro i hi hi2
      have hir := hrlen i hi
      intro x hx
      rw [(hext i hi hir).2.1]
      rw [hgetD i hi2 hir] at hx
      exact (recsOf_id_bounds _ _ _ x hx).1)
    (by
      intro i hi hi2
      have hir := hrlen i (by omega)
      have hir1 : i + 1 < runs.length := by omega
      intro x hx
      rw [(hext (i + 1) hi hir1).2.1]
      rw [hgetD i hi2 hir] at hx
      have hxb := (recsOf_id_bounds _ _ _ x hx).2
      rw [hrec0 i hir] at hxb
      rw [hrec0 (i + 1) hir1]
      have hts : ((runs.take (i + 1)).map SegRun.ws).flatten.length =
          ((runs.take i).map SegRun.ws).flatten.length +
            (runs.get ⟨i, hir⟩).ws.length := by
        rw [List.take_succ]
        have : runs[i]? = some (runs.get ⟨i, hir⟩) := by
          rw [List.getElem?_eq_getElem hir]
          rfl
        rw [this]
        simp only [List.map_append, List.flatten_append, List.length_append,
          Option.toList_some, List.map_cons, List.map_nil, List.flatten_cons,
          List.flatten_nil, List.append_nil]
      omega)
    (by
      intro i k hi hk hik
      have hiru := hrlen i hi
      have hirk := hrlen k hk
      rw [(hext i hi hiru).2.1, (hext k hk hirk).2.1, hrec0 i hiru, hrec0 k hirk]
      have h1 : (runs.take i).map SegRun.ws = ((runs.take k).map SegRun.ws).take i := by
        rw [List.map_take, List.map_take, List.take_take, Nat.min_eq_left hik]
      rw [h1]
      have := flatten_take_len_le ((runs.take k).map SegRun.ws) i
      omega)
    hts1 hts2
  rw [hread]
  rw [show recsD.flatten = journalRecs (runs.map SegRun.ws) 1 from
    runs_flatten_recs hash runs 1 1 hchain (fun x hx => (hmem x hx).2)]

theorem journalRecs_ids :
    ∀ (slices : List (List (Nat × List Nat))) (r : Nat),
    (journalRecs slices r).map Record.id = List.range' r slices.flatten.length := by
  intro slices
  induction slices with
  | nil => intro r; rfl
  | cons sl rest ih =>
    intro r
    simp only [journalRecs, List.map_append, List.flatten_cons, List.length_append]
    rw [recsOf_writes_ids, ih, List.range'_append_1]
    congr 1
    omega

theorem journalRecs_data :
    ∀ (slices : List (List (Nat × List Nat))) (r : Nat),
    (journalRecs slices r).map Record.data = slices.flatten.map Prod.snd := by
  intro slices
  induction slices with
  | nil => intro r; rfl
  | cons sl rest ih =>
    intro r
    simp only [journalRecs, List.map_append, List.flatten_cons]
    rw [recsOf_writes_data, ih]

theorem passes_default (r : Record) : passes {} r = true := by
  simp [passes]

theorem filter_passes_default (l : List Record) : l.filter (passes {}) = l :=
  List.filter_eq_self.mpr (fun r _ => passes_default r)

theorem adjustFilter_default (lc fr : Nat) : adjustFilter {} lc fr = {} := by
  simp [adjustFilter]

/-- Test fixtures for concrete runs: a constant hash function and a journal
configuration with a 130-byte rotation threshold. -/
def hashZero : List Nat → Nat := fun _ => 0

def invZeros : List Nat := List.replicate 32 0

def jTest : JConfig := ⟨130, invZeros, invZeros⟩

/-- C1: for any sequence of `WriteRecord(ts_i, data_i)` calls with non-empty
data, followed by `Commit` and a reopen, `Read(Filter{})` returns exactly N
records: ids 1..N without gaps regardless of rotations, data equal to the
written data in order, and timestamps produced slice by slice — within each
segment a timestamp below the running maximum is clamped up to it, but the
clamp resets at every rotation (`journalRecs`), so timestamps are
non-decreasing within each segment yet not necessarily across segments. -/
theorem claim_C1 (hash : List Nat → Nat) (j : JConfig)
    (hJ : j.journalInvariant.length = 32) (hS : j.segmentInvariant.length = 32)
    (p : Nat × List Nat) (rest : List (Nat × List Nat))
    (hb : ∀ q ∈ p :: rest, q.2 ≠ [] ∧ 2 * q.2.length < w64 ∧ q.1 < w64)
    (hN : (p :: rest).length + 2 < w64) (lc fr : Nat) :
    cursorRun hash j {} (jwDir hash j (jrun hash j (p :: rest))) lc fr =
      (journalRecs (jslices hash j.maxFileSize p rest) 1, none) ∧
    (jslices hash j.maxFileSize p rest).flatten = p :: rest ∧
    (journalRecs (jslices hash j.maxFileSize p rest) 1).map Record.id =
      List.range' 1 (p :: rest).length ∧
    (journalRecs (jslices hash j.maxFileSize p rest) 1).map Record.data =
      (p :: rest).map Prod.snd := by
  obtain ⟨hflat, hnn, hloop⟩ :=
    journal_read hash j hJ hS p rest hb hN {} rfl rfl
  refine ⟨?_, hflat, ?_, ?_⟩
  · show cursorLoop hash j (adjustFilter {} lc fr)
        (dirOpen (jwDir hash j (jrun hash j (p :: rest))))
        (findSegments (adjustFilter {} lc fr)
          ((jwDir hash j (jrun hash j (p :: rest))).map Prod.fst)) = _
    rw [adjustFilter_default, hloop, filter_passes_default]
  · rw [journalRecs_ids, hflat]
  · rw [journalRecs_data, hflat]

/-- Witness for C1 at a concrete two-record run. -/
theorem claim_C1_witness :
    (jTest.journalInvariant.length = 32) ∧
    (∀ q ∈ [((10 : Nat), [(1 : Nat)]), (5, [2])],
      q.2 ≠ [] ∧ 2 * q.2.length < w64 ∧ q.1 < w64) ∧
    (cursorRun hashZero jTest {}
        (jwDir hashZero jTest (jrun hashZero jTest [(10, [1]), (5, [2])])) 0 0 =
      (journalRecs (jslices hashZero jTest.maxFileSize (10, [1]) [(5, [2])]) 1, none) ∧
    (jslices hashZero jTest.maxFileSize (10, [1]) [(5, [2])]).flatten =
      [(10, [1]), (5, [2])] ∧
    (journalRecs (jslices hashZero jTest.maxFileSize (10, [1]) [(5, [2])]) 1).map
      Record.id = List.range' 1 [((10 : Nat), [(1 : Nat)]), (5, [2])].length ∧
    (journalRecs (jslices hashZero jTest.maxFileSize (10, [1]) [(5, [2])]) 1).map
      Record.data = [((10 : Nat), [(1 : Nat)]), (5, [2])].map Prod.snd) :=
  ⟨by decide, by decide,
    claim_C1 hashZero jTest (by decide) (by decide) (10, [1]) [(5, [2])]
      (by decide) (by decide) 0 0⟩

set_option maxRecDepth 10000 in
/-- Counterexample to the original C1 wording: after a rotation the timestamp
clamp resets (the new segment starts from the record's raw timestamp), so a
two-record run whose second timestamp is lower comes back with decreasing
timestamps `[10, 5]`. -/
theorem claim_C1_counterexample :
    cursorRun hashZero jTest {}
        (jwDir hashZero jTest (jrun hashZero jTest [(10, [1]), (5, [2])])) 0 0 =
      ([⟨1, 10, [1]⟩, ⟨2, 5, [2]⟩], none) ∧
    ¬ List.Pairwise (fun a b => a.timestamp ≤ b.timestamp)
        [(⟨1, 10, [1]⟩ : Record), ⟨2, 5, [2]⟩] := by
  constructor
  · obtain ⟨hflat, _, hloop⟩ := journal_read hashZero jTest (by decide) (by decide)
      (10, [1]) [(5, [2])] (by decide) (by decide) {} rfl rfl
    have hcr : cursorRun hashZero jTest {}
        (jwDir hashZero jTest (jrun hashZero jTest [(10, [1]), (5, [2])])) 0 0 =
        ((journalRecs (jslices hashZero jTest.maxFileSize (10, [1]) [(5, [2])]) 1).filter
          (passes {}), none) := by
      show cursorLoop hashZero jTest (adjustFilter {} 0 0)
          (dirOpen (jwDir hashZero jTest (jrun hashZero jTest [(10, [1]), (5, [2])])))
          (findSegments (adjustFilter {} 0 0)
            ((jwDir hashZero jTest (jrun hashZero jTest [(10, [1]), (5, [2])])).map
              Prod.fst)) = _
      rw [adjustFilter_default]
      exact hloop
    rw [hcr, filter_passes_default]
    have hjr : journalRecs (jslices hashZero jTest.maxFileSize (10, [1]) [(5, [2])]) 1 =
        [⟨1, 10, [1]⟩, ⟨2, 5, [2]⟩] := by
      simp [jslices, runSlices, runWriter, writesToOps, swApply, swWriteRecord, swStart,
        swShouldRotate, appendRecordHeader, appendUvarint, w64, jTest, hashZero,
        journalRecs, recsOf, segmentHeaderSize]
    rw [hjr]
  · intro h
    have := (List.pairwise_cons.mp h).1 _ (List.mem_cons_self _ _)
    simp at this

theorem map_filter_comp {α β : Type} (f : α → β) (p : α → Bool) (q : β → Bool)
    (h : ∀ x, p x = q (f x)) (l : List α) :
    (l.filter p).map f = (l.map f).filter q := by
  rw [List.filter_map]
  congr 1
  apply List.filter_congr
  intro x _
  rw [h x]
  rfl

theorem passes_minmax (a b lim : Nat) (lat : Bool) (ha : a ≠ 0) (hb : b ≠ 0)
    (r : Record) :
    passes ⟨a, 0, b, 0, lim, lat⟩ r = (decide (a ≤ r.id) && decide (r.id ≤ b)) := by
  have h1 : (a != 0) = true := by simpa using ha
  have h2 : (b != 0) = true := by simpa using hb
  have e1 : (!decide (r.id < a)) = decide (a ≤ r.id) := by
    by_cases h : r.id < a
    · simp [h, show ¬ a ≤ r.id from by omega]
    · simp [h, show a ≤ r.id from by omega]
  have e2 : (!decide (b < r.id)) = decide (r.id ≤ b) := by
    by_cases h : b < r.id
    · simp [h, show ¬ r.id ≤ b from by omega]
    · simp [h, show r.id ≤ b from by omega]
  simp [passes, h1, h2, e1, e2]

theorem passes_min_only (m lim : Nat) (lat : Bool) (hm : m ≠ 0) (r : Record) :
    passes ⟨m, 0, 0, 0, lim, lat⟩ r = decide (m ≤ r.id) := by
  have h1 : (m != 0) = true := by simpa using hm
  have e1 : (!decide (r.id < m)) = decide (m ≤ r.id) := by
    by_cases h : r.id < m
    · simp [h, show ¬ m ≤ r.id from by omega]
    · simp [h, show m ≤ r.id from by omega]
  simp [passes, h1, e1]

set_option maxHeartbeats 1000000 in
/-- C7: over a committed journal run, `Read(Filter{min_recid = a, max_recid =
b})` yields exactly the records with `a ≤ id ≤ b` in id order; when `limit > 0`
with `latest` set, the filter's `min_recid` is raised to
`last_committed.id − limit + 1`; consequently over a 100-record run
`Filter{limit: 5, latest: true}` returns precisely ids 96..100 in order. -/
theorem claim_C7 (hash : List Nat → Nat) (j : JConfig)
    (hJ : j.journalInvariant.length = 32) (hS : j.segmentInvariant.length = 32)
    (p : Nat × List Nat) (rest : List (Nat × List Nat))
    (hb : ∀ q ∈ p :: rest, q.2 ≠ [] ∧ 2 * q.2.length < w64 ∧ q.1 < w64)
    (hN : (p :: rest).length + 2 < w64)
    (a b : Nat) (ha : a ≠ 0) (hbb : b ≠ 0) (lc fr fr2 : Nat) :
    ((cursorRun hash j ⟨a, 0, b, 0, 0, false⟩
        (jwDir hash j (jrun hash j (p :: rest))) lc fr).1).map Record.id =
      (List.range' 1 (p :: rest).length).filter
        (fun i => decide (a ≤ i) && decide (i ≤ b)) ∧
    (cursorRun hash j ⟨a, 0, b, 0, 0, false⟩
        (jwDir hash j (jrun hash j (p :: rest))) lc fr).2 = none ∧
    (∀ (f : Filter) (lC fR : Nat), 0 < f.limit → f.latest = true → f.limit ≤ lC →
      adjustFilter f lC fR = { f with minRecordID := max f.minRecordID (lC - f.limit + 1) }) ∧
    ((p :: rest).length = 100 →
      ((cursorRun hash j ⟨0, 0, 0, 0, 5, true⟩
          (jwDir hash j (jrun hash j (p :: rest))) 100 fr2).1).map Record.id =
        [96, 97, 98, 99, 100]) := by
  obtain ⟨hflat, hnn, hloop⟩ :=
    journal_read hash j hJ hS p rest hb hN ⟨a, 0, b, 0, 0, false⟩ rfl rfl
  have hadj : adjustFilter ⟨a, 0, b, 0, 0, false⟩ lc fr = ⟨a, 0, b, 0, 0, false⟩ := by
    simp [adjustFilter]
  have hcr : cursorRun hash j ⟨a, 0, b, 0, 0, false⟩
      (jwDir hash j (jrun hash j (p :: rest))) lc fr =
      ((journalRecs (jslices hash j.maxFileSize p rest) 1).filter
        (passes ⟨a, 0, b, 0, 0, false⟩), none) := by
    show cursorLoop hash j (adjustFilter ⟨a, 0, b, 0, 0, false⟩ lc fr)
        (dirOpen (jwDir hash j (jrun hash j (p :: rest))))
        (findSegments (adjustFilter ⟨a, 0, b, 0, 0, false⟩ lc fr)
          ((jwDir hash j (jrun hash j (p :: rest))).map Prod.fst)) = _
    rw [hadj]
    exact hloop
  refine ⟨?_, ?_, ?_, ?_⟩
  · rw [hcr]
    show ((journalRecs (jslices hash j.maxFileSize p rest) 1).filter
        (passes ⟨a, 0, b, 0, 0, false⟩)).map Record.id = _
    rw [map_filter_comp Record.id (passes ⟨a, 0, b, 0, 0, false⟩)
      (fun i => decide (a ≤ i) && decide (i ≤ b))
      (fun r => passes_minmax a b 0 false ha hbb r) _]
    rw [journalRecs_ids, hflat]
  · rw [hcr]
  · intro f lC fR h1 h2 h3
    simp [adjustFilter, h1, h2, h3]
  · intro h100
    obtain ⟨hflat2, hnn2, hloop2⟩ :=
      journal_read hash j hJ hS p rest hb hN ⟨96, 0, 0, 0, 5, true⟩ rfl rfl
    have hadj2 : adjustFilter ⟨0, 0, 0, 0, 5, true⟩ 100 fr2 = ⟨96, 0, 0, 0, 5, true⟩ := by
      show (if 5 > 0 then _ else _) = _
      norm_num [adjustFilter]
    have hcr2 : cursorRun hash j ⟨0, 0, 0, 0, 5, true⟩
        (jwDir hash j (jrun hash j (p :: rest))) 100 fr2 =
        ((journalRecs (jslices hash j.maxFileSize p rest) 1).filter
          (passes ⟨96, 0, 0, 0, 5, true⟩), none) := by
      show cursorLoop hash j (adjustFilter ⟨0, 0, 0, 0, 5, true⟩ 100 fr2)
          (dirOpen (jwDir hash j (jrun hash j (p :: rest))))
          (findSegments (adjustFilter ⟨0, 0, 0, 0, 5, true⟩ 100 fr2)
            ((jwDir hash j (jrun hash j (p :: rest))).map Prod.fst)) = _
      rw [hadj2]
      exact hloop2
    rw [hcr2]
    show ((journalRecs (jslices hash j.maxFileSize p rest) 1).filter
        (passes ⟨96, 0, 0, 0, 5, true⟩)).map Record.id = _
    rw [map_filter_comp Record.id (passes ⟨96, 0, 0, 0, 5, true⟩)
      (fun i => decide (96 ≤ i))
      (fun r => passes_min_only 96 5 true (by omega) r) _]
    rw [journalRecs_ids, hflat, h100]
    decide

/-- Witness for C7 at a concrete two-record run with bounds `1 ≤ id ≤ 2`. -/
theorem claim_C7_witness :
    ((1 : Nat) ≠ 0) ∧ ((2 : Nat) ≠ 0) ∧
    (((cursorRun hashZero jTest ⟨1, 0, 2, 0, 0, false⟩
        (jwDir hashZero jTest (jrun hashZero jTest [(10, [1]), (5, [2])])) 0 0).1).map
          Record.id =
      (List.range' 1 [((10 : Nat), [(1 : Nat)]), (5, [2])].length).filter
        (fun i => decide (1 ≤ i) && decide (i ≤ 2)) ∧
    (cursorRun hashZero jTest ⟨1, 0, 2, 0, 0, false⟩
        (jwDir hashZero jTest (jrun hashZero jTest [(10, [1]), (5, [2])])) 0 0).2 = none ∧
    (∀ (f : Filter) (lC fR : Nat), 0 < f.limit → f.latest = true → f.limit ≤ lC →
      adjustFilter f lC fR =
        { f with minRecordID := max f.minRecordID (lC - f.limit + 1) }) ∧
    ([((10 : Nat), [(1 : Nat)]), (5, [2])].length = 100 →
      ((cursorRun hashZero jTest ⟨0, 0, 0, 0, 5, true⟩
          (jwDir hashZero jTest (jrun hashZero jTest [(10, [1]), (5, [2])])) 100 7).1).map
            Record.id = [96, 97, 98, 99, 100])) :=
  ⟨by decide, by decide,
    claim_C7 hashZero jTest (by decide) (by decide) (10, [1]) [(5, [2])]
      (by decide) (by decide) 1 2 (by decide) (by decide) 0 0 7⟩

/-! ## Segment size bounds (C5) -/

/-- The largest record payload in a write sequence. -/
def maxPayload (l : List (Nat × List Nat)) : Nat :=
  l.foldr (fun q m => max q.2.length m) 0

theorem maxPayload_mem (l : List (Nat × List Nat)) (q : Nat × List Nat) (h : q ∈ l) :
    q.2.length ≤ maxPayload l := by
  induction l with
  | nil => cases h
  | cons x rest ih =>
    rcases List.mem_cons.mp h with rfl | h
    · simp [maxPayload]
    · have := ih h
      simp only [maxPayload, List.foldr_cons] at this ⊢
      omega

theorem maxPayload_le (l : List (Nat × List Nat)) (B : Nat)
    (h : ∀ q ∈ l, q.2.length ≤ B) : maxPayload l ≤ B := by
  induction l with
  | nil => simp [maxPayload]
  | cons x rest ih =>
    have h1 := h x (by simp)
    have h2 := ih (fun q hq => h q (by simp [hq]))
    simp only [maxPayload, List.foldr_cons] at h2 ⊢
    omega

theorem appendRecordHeader_length_le (n δ : Nat) :
    (appendRecordHeader n δ).length ≤ maxRecHeaderLen := by
  have h1 : (appendUvarint (n * 2 % w64)).length ≤ 10 :=
    appendUvarint_length_le _ (Nat.mod_lt _ w64_pos)
  have h2 : (appendUvarint (δ % w64)).length ≤ 10 :=
    appendUvarint_length_le _ (Nat.mod_lt _ w64_pos)
  simp only [appendRecordHeader, List.length_append, maxRecHeaderLen]
  omega

theorem swApply_writes_size_mono (hash : List Nat → Nat) :
    ∀ (l : List (Nat × List Nat)) (sw : SegWriter),
    sw.size ≤ (swApply hash (writesToOps l) sw).size := by
  intro l
  induction l with
  | nil => intro sw; exact le_rfl
  | cons q rest ih =>
    intro sw
    show sw.size ≤ (swApply hash (writesToOps rest) (swWriteRecord q.1 q.2 sw)).size
    have := ih (swWriteRecord q.1 q.2 sw)
    have h2 : sw.size ≤ (swWriteRecord q.1 q.2 sw).size := by
      simp [swWriteRecord]
    omega

theorem swApply_writes_size_lb (hash : List Nat → Nat) :
    ∀ (l : List (Nat × List Nat)) (sw : SegWriter) (q : Nat × List Nat), q ∈ l →
    sw.size + q.2.length ≤ (swApply hash (writesToOps l) sw).size := by
  intro l
  induction l with
  | nil => intro sw q h; cases h
  | cons x rest ih =>
    intro sw q h
    show sw.size + q.2.length ≤
      (swApply hash (writesToOps rest) (swWriteRecord x.1 x.2 sw)).size
    rcases List.mem_cons.mp h with rfl | h
    · have h1 := swApply_writes_size_mono hash rest (swWriteRecord q.1 q.2 sw)
      have h2 : sw.size + q.2.length ≤ (swWriteRecord q.1 q.2 sw).size := by
        simp [swWriteRecord]
      omega
    · have h1 := ih (swWriteRecord x.1 x.2 sw) q h
      have h2 : sw.size ≤ (swWriteRecord x.1 x.2 sw).size := by
        simp [swWriteRecord]
      omega

theorem runWriter_size_lb (hash : List Nat → Nat) (r : SegRun) (q : Nat × List Nat)
    (h : q ∈ r.ws) : segmentHeaderSize + q.2.length ≤ (runWriter hash r).size :=
  swApply_writes_size_lb hash r.ws (swStart r.segnum r.ts0 r.rec0) q h

theorem swWriteRecord_size_le (ts : Nat) (d : List Nat) (sw : SegWriter) :
    (swWriteRecord ts d sw).size ≤ sw.size + maxRecHeaderLen + d.length := by
  simp only [swWriteRecord]
  have := appendRecordHeader_length_le d.length
    (if ts > sw.ts then ts - sw.ts else 0)
  omega

theorem runSlices_size (hash : List Nat → Nat) (mfs : Nat) :
    ∀ (ws : List (Nat × List Nat)) (run : SegRun),
    (runWriter hash run).size ≤
      max mfs segmentHeaderSize + maxRecHeaderLen + maxPayload run.ws →
    (∀ q ∈ run.ws, mfs < q.2.length → run.ws = [q]) →
    ∀ r ∈ (runSlices hash mfs ws run).1 ++ [(runSlices hash mfs ws run).2],
      (runWriter hash r).size ≤
        max mfs segmentHeaderSize + maxRecHeaderLen + maxPayload r.ws ∧
      (∀ q ∈ r.ws, mfs < q.2.length → r.ws = [q]) := by
  intro ws
  induction ws with
  | nil =>
    intro run hsz hbig r hr
    simp only [runSlices, List.nil_append] at hr
    rcases List.mem_singleton.mp hr with rfl
    exact ⟨hsz, hbig⟩
  | cons x rest ih =>
    intro run hsz hbig r hr
    obtain ⟨ts, d⟩ := x
    by_cases hrot : swShouldRotate mfs (runWriter hash run) d.length
    · rw [show runSlices hash mfs ((ts, d) :: rest) run =
          ((run :: (runSlices hash mfs rest
            ⟨run.segnum + 1, ts, (runWriter hash run).nextRec, [(ts, d)]⟩).1),
           (runSlices hash mfs rest
            ⟨run.segnum + 1, ts, (runWriter hash run).nextRec, [(ts, d)]⟩).2)
        from by simp [runSlices, hrot]] at hr
      rcases List.mem_cons.mp hr with rfl | hr2
      · exact ⟨hsz, hbig⟩
      · refine ih ⟨run.segnum + 1, ts, (runWriter hash run).nextRec, [(ts, d)]⟩ ?_ ?_ r hr2
        · show (swWriteRecord ts d
            (swStart (run.segnum + 1) ts (runWriter hash run).nextRec)).size ≤ _
          have hh := swWriteRecord_size_le ts d
            (swStart (run.segnum + 1) ts (runWriter hash run).nextRec)
          have hs : (swStart (run.segnum + 1) ts (runWriter hash run).nextRec).size =
              segmentHeaderSize := rfl
          have hmp : maxPayload [(ts, d)] = d.length := by simp [maxPayload]
          rw [hs] at hh
          show _ ≤ max mfs segmentHeaderSize + maxRecHeaderLen + maxPayload [(ts, d)]
          rw [hmp]
          have : segmentHeaderSize ≤ max mfs segmentHeaderSize := le_max_right _ _
          omega
        · intro q hq hqb
          rcases List.mem_singleton.mp hq with rfl
          rfl
    · rw [show runSlices hash mfs ((ts, d) :: rest) run =
          runSlices hash mfs rest { run with ws := run.ws ++ [(ts, d)] }
        from by simp [runSlices, hrot]] at hr
      have hsz' : (runWriter hash run).size + d.length ≤ mfs := by
        have : ¬ ((runWriter hash run).size + d.length > mfs) := by
          simpa [swShouldRotate] using hrot
        omega
      refine ih { run with ws := run.ws ++ [(ts, d)] } ?_ ?_ r hr
      · rw [runWriter_snoc]
        have hh := swWriteRecord_size_le (ts, d).1 (ts, d).2 (runWriter hash run)
        have hfg : ((ts, d).2).length = d.length := rfl
        show _ ≤ max mfs segmentHeaderSize + maxRecHeaderLen +
          maxPayload (run.ws ++ [(ts, d)])
        have : mfs ≤ max mfs segmentHeaderSize := le_max_left _ _
        omega
      · intro q hq hqb
        have hnobig : ∀ z ∈ run.ws, ¬ mfs < z.2.length := by
          intro z hz hzb
          have hsingle := hbig z hz hzb
          have hlb := runWriter_size_lb hash run z hz
          simp only [segmentHeaderSize] at hlb
          omega
        rcases List.mem_append.mp hq with hq1 | hq2
        · exact absurd hqb (hnobig q hq1)
        · rcases List.mem_singleton.mp hq2 with rfl
          refine absurd hqb ?_
          show ¬ mfs < d.length
          omega

theorem swApply_size_out (hash : List Nat → Nat) :
    ∀ (ops : List SegOp) (sw : SegWriter),
    sw.size = segmentHeaderSize + sw.out.length →
    (swApply hash ops sw).size = segmentHeaderSize + (swApply hash ops sw).out.length := by
  intro ops
  induction ops with
  | nil => intro sw h; exact h
  | cons op rest ih =>
    intro sw h
    cases op with
    | write ts data =>
      refine ih _ ?_
      simp [swWriteRecord, h]
      omega
    | commitOp =>
      refine ih _ ?_
      by_cases hc : sw.uncommitted
      · simp [swCommit, hc, h, le64_length]
        omega
      · simp [swCommit, hc, h]

theorem runWriterC_size_out (hash : List Nat → Nat) (r : SegRun) :
    (swCommit hash (runWriter hash r)).size =
      segmentHeaderSize + (swCommit hash (runWriter hash r)).out.length := by
  rw [runWriterC_eq]
  exact swApply_size_out hash _ _ (by simp [swStart])

theorem swCommit_size_le (hash : List Nat → Nat) (sw : SegWriter) :
    (swCommit hash sw).size ≤ sw.size + 8 := by
  by_cases hc : sw.uncommitted <;> simp [swCommit, hc]

set_option maxHeartbeats 1000000 in
/-- C5 (amended): `shouldRotate(size)` is true exactly when
`current_size + size > max_file_size`; the writer rotates before a record that
would cross the threshold, so every segment file stays within
`max(max_file_size, header_size) + max_record_header_len + commit_size (8)`
plus its largest record payload — the payload alone is not the right slack,
because the on-disk segment additionally carries the 128-byte header, up to 20
bytes of per-record framing, and the 8-byte commit; and a record larger than
`max_file_size` still lands whole, alone in its own segment. -/
theorem claim_C5 (hash : List Nat → Nat) (j : JConfig)
    (hJ : j.journalInvariant.length = 32) (hS : j.segmentInvariant.length = 32)
    (p : Nat × List Nat) (rest : List (Nat × List Nat))
    (hb : ∀ q ∈ p :: rest, q.2 ≠ [] ∧ 2 * q.2.length < w64 ∧ q.1 < w64)
    (hN : (p :: rest).length + 2 < w64) :
    (∀ (sw : SegWriter) (n : Nat),
      swShouldRotate j.maxFileSize sw n = true ↔ j.maxFileSize < sw.size + n) ∧
    (∀ e ∈ jwDir hash j (jrun hash j (p :: rest)),
      e.2.length ≤ max j.maxFileSize segmentHeaderSize + maxRecHeaderLen + 8 +
        maxPayload (p :: rest)) ∧
    (∀ sl ∈ jslices hash j.maxFileSize p rest, ∀ q ∈ sl,
      j.maxFileSize < q.2.length → sl = [q]) := by
  obtain ⟨hflat, hmem, hchain, hdir, hfa⟩ := jrun_dir hash j hJ hS p rest hb hN
  have hrun0sz : (runWriter hash ⟨1, p.1, 1, [p]⟩).size ≤
      max j.maxFileSize segmentHeaderSize + maxRecHeaderLen + maxPayload [p] := by
    show (swWriteRecord p.1 p.2 (swStart 1 p.1 1)).size ≤ _
    have hh := swWriteRecord_size_le p.1 p.2 (swStart 1 p.1 1)
    have hs : (swStart 1 p.1 1).size = segmentHeaderSize := rfl
    have hmp : maxPayload [p] = p.2.length := by simp [maxPayload]
    have : segmentHeaderSize ≤ max j.maxFileSize segmentHeaderSize := le_max_right _ _
    omega
  have hinv := runSlices_size hash j.maxFileSize rest ⟨1, p.1, 1, [p]⟩ hrun0sz
    (by
      intro q hq _
      rcases List.mem_singleton.mp hq with rfl
      rfl)
  have hpay : ∀ r ∈ (runSlices hash j.maxFileSize rest ⟨1, p.1, 1, [p]⟩).1 ++
      [(runSlices hash j.maxFileSize rest ⟨1, p.1, 1, [p]⟩).2],
      maxPayload r.ws ≤ maxPayload (p :: rest) := by
    intro r hr
    apply maxPayload_le
    intro q hq
    apply maxPayload_mem
    rw [← hflat]
    exact List.mem_flatten.mpr ⟨r.ws, List.mem_map.mpr ⟨r, hr, rfl⟩, hq⟩
  refine ⟨?_, ?_, ?_⟩
  · intro sw n
    simp [swShouldRotate]
  · intro e he
    rw [hdir] at he
    have hlen : ∀ (r : SegRun),
        r ∈ (runSlices hash j.maxFileSize rest ⟨1, p.1, 1, [p]⟩).1 ++
          [(runSlices hash j.maxFileSize rest ⟨1, p.1, 1, [p]⟩).2] →
        (swCommit hash (runWriter hash r)).out.length ≤
          max j.maxFileSize segmentHeaderSize + maxRecHeaderLen + 8 +
            maxPayload (p :: rest) - segmentHeaderSize := by
      intro r hr
      have h1 := runWriterC_size_out hash r
      have h2 := swCommit_size_le hash (runWriter hash r)
      have h3 := (hinv r hr).1
      have h4 := hpay r hr
      have h5 : segmentHeaderSize ≤ max j.maxFileSize segmentHeaderSize :=
        le_max_right _ _
      omega
    rcases List.mem_append.mp he with h | h
    · obtain ⟨r, hr, rfl⟩ := List.mem_map.mp h
      have hr' : r ∈ _ ++ [(runSlices hash j.maxFileSize rest ⟨1, p.1, 1, [p]⟩).2] :=
        List.mem_append.mpr (Or.inl hr)
      have h2 : (closeFinalize hash j (runWriter hash r)).2 =
          fillSegmentHeader hash j magicV1Finalized (runWriter hash r).seg.segnum
            (runWriter hash r).seg.ts (runWriter hash r).seg.recnum
            (swCommit hash (runWriter hash r)).ts
            ((swCommit hash (runWriter hash r)).nextRec - 1) ++
            (swCommit hash (runWriter hash r)).out := rfl
      rw [h2]
      rw [List.length_append, fillSegmentHeader_length hash j _ _ _ _ _ _ hJ hS]
      have := hlen r hr'
      have h5 : segmentHeaderSize ≤ max j.maxFileSize segmentHeaderSize :=
        le_max_right _ _
      simp only [segmentHeaderSize] at *
      omega
    · rcases List.mem_singleton.mp h with rfl
      show (fillSegmentHeader hash j magicV1Draft
          (runSlices hash j.maxFileSize rest ⟨1, p.1, 1, [p]⟩).2.segnum
          (runSlices hash j.maxFileSize rest ⟨1, p.1, 1, [p]⟩).2.ts0
          (runSlices hash j.maxFileSize rest ⟨1, p.1, 1, [p]⟩).2.rec0 0 0 ++
        (swCommit hash (runWriter hash
          (runSlices hash j.maxFileSize rest ⟨1, p.1, 1, [p]⟩).2)).out).length ≤ _
      rw [List.length_append, fillSegmentHeader_length hash j _ _ _ _ _ _ hJ hS]
      have := hlen (runSlices hash j.maxFileSize rest ⟨1, p.1, 1, [p]⟩).2
        (List.mem_append.mpr (Or.inr (by simp)))
      have h5 : segmentHeaderSize ≤ max j.maxFileSize segmentHeaderSize :=
        le_max_right _ _
      simp only [segmentHeaderSize] at *
      omega
  · intro sl hsl q hq hbig
    obtain ⟨r, hr, rfl⟩ := List.mem_map.mp hsl
    exact (hinv r hr).2 q hq hbig

/-- Witness for C5 at a concrete two-record run. -/
theorem claim_C5_witness :
    (jTest.journalInvariant.length = 32) ∧
    ((∀ (sw : SegWriter) (n : Nat),
      swShouldRotate jTest.maxFileSize sw n = true ↔ jTest.maxFileSize < sw.size + n) ∧
    (∀ e ∈ jwDir hashZero jTest (jrun hashZero jTest [(10, [1]), (5, [2])]),
      e.2.length ≤ max jTest.maxFileSize segmentHeaderSize + maxRecHeaderLen + 8 +
        maxPayload [(10, [1]), (5, [2])]) ∧
    (∀ sl ∈ jslices hashZero jTest.maxFileSize (10, [1]) [(5, [2])], ∀ q ∈ sl,
      jTest.maxFileSize < q.2.length → sl = [q])) :=
  ⟨by decide,
    claim_C5 hashZero jTest (by decide) (by decide) (10, [1]) [(5, [2])]
      (by decide) (by decide)⟩

/-- Counterexample to the original C5 bound: with `max_file_size = 130`, a
single 1-byte record yields a 139-byte segment file (128-byte header + 2 bytes
framing + 1 byte payload + 8-byte commit), exceeding
`max_file_size + max_record_size = 131`. -/
theorem claim_C5_counterexample :
    (jwDir hashZero jTest (jrun hashZero jTest [(1, [7])])).map
        (fun e => e.2.length) = [139] ∧
    maxPayload [((1 : Nat), [(7 : Nat)])] = 1 ∧
    ¬ (139 ≤ jTest.maxFileSize + maxPayload [((1 : Nat), [(7 : Nat)])]) := by
  refine ⟨?_, by decide, by decide⟩
  have h2 : jwDir hashZero jTest (jrun hashZero jTest [(1, [7])]) =
      [(⟨1, 1, 1, .draft⟩,
        fillSegmentHeader hashZero jTest magicV1Draft 1 1 1 0 0 ++
          (swCommit hashZero (swWriteRecord 1 [7] (swStart 1 1 1))).out)] := rfl
  rw [h2]
  have hout : (swCommit hashZero (swWriteRecord 1 [7] (swStart 1 1 1))).out.length = 11 := by
    simp [swCommit, swWriteRecord, swStart, appendRecordHeader, appendUvarint, w64,
      le64, sum64, hashZero]
  simp only [List.map_cons, List.map_nil, List.length_append, hout,
    fillSegmentHeader_length hashZero jTest magicV1Draft 1 1 1 0 0 (by decide) (by decide)]

/-! ## Commit-item semantics (C2, C3, C10) -/

theorem srNext_commit_norecord (hash : List Nat → Nat) (sr : SegReader)
    (rest : List Nat) (hu : sr.seg.status.isSealed = false)
    (hrec : sr.recordsInSeg = 0)
    (hin : sr.input = le64 (sum64 hash sr.hashed ||| recordFlagCommit) ++ rest) :
    srNext hash sr = (.corrupt, { sr with
      input := rest
      hashed := sr.hashed ++ le64 (sum64 hash sr.hashed ||| recordFlagCommit)
      size := sr.size + 8 }) := by
  have hvlt : (sum64 hash sr.hashed ||| recordFlagCommit) < w64 :=
    lor_one_lt_w64 _ (sum64_lt hash sr.hashed)
  have hne : sr.input ≠ [] := by
    rw [hin]
    intro hc
    have := congrArg List.length hc
    simp [le64_length] at this
  have hlen : ¬sr.input.length < 8 := by
    rw [hin]
    simp [le64_length]
  have hvodd : (sum64 hash sr.hashed ||| recordFlagCommit) % 2 = 1 :=
    lor_one_mod_two _
  have hhead : sr.input.headD 0 % 2 = 1 := by
    rw [hin]
    show (sum64 hash sr.hashed ||| recordFlagCommit) % 256 % 2 = 1
    omega
  have htake : sr.input.take 8 = le64 (sum64 hash sr.hashed ||| recordFlagCommit) := by
    rw [hin, ← le64_length (sum64 hash sr.hashed ||| recordFlagCommit), List.take_left]
  have hdrop : sr.input.drop 8 = rest := by
    rw [hin]
    exact drop_after_le64 _ _
  have heq : leDec (sr.input.take 8) = (sum64 hash sr.hashed ||| recordFlagCommit) := by
    rw [htake, ← List.append_nil (le64 (sum64 hash sr.hashed ||| recordFlagCommit))]
    exact leDec_le64 _ hvlt _
  have hstep := srStep_commit_match hash sr hne hu hhead hlen heq
  rw [if_neg (by omega)] at hstep
  rw [htake, hdrop] at hstep
  rw [srNext, hstep]

set_option maxHeartbeats 1000000 in
/-- C2: `segmentWriter.commit` appends the eight-byte little-endian value
`xxhash64(running state) | 1` and only afterwards feeds those bytes into the
rolling hash, so later commits chain over earlier commit markers; the reader
accepts a commit item exactly when the stored value equals its own running
hash with the low bit set — continuing the loop with the committed position
advanced — and reports `CorruptedFile` on a mismatch. -/
theorem claim_C2 (hash : List Nat → Nat) (sw : SegWriter) (sr₁ sr₂ : SegReader)
    (rest : List Nat)
    (hsw : sw.uncommitted = true)
    (h1u : sr₁.seg.status.isSealed = false) (h1r : sr₁.recordsInSeg > 0)
    (h1in : sr₁.input = le64 (sum64 hash sr₁.hashed ||| recordFlagCommit) ++ rest)
    (h2u : sr₂.seg.status.isSealed = false) (h2odd : sr₂.input.headD 0 % 2 = 1)
    (h2len : ¬sr₂.input.length < 8)
    (h2mm : leDec (sr₂.input.take 8) ≠ (sum64 hash sr₂.hashed ||| recordFlagCommit)) :
    swCommit hash sw = { sw with
      uncommitted := false
      size := sw.size + 8
      hashed := sw.hashed ++ le64 (sum64 hash sw.hashed ||| recordFlagCommit)
      out := sw.out ++ le64 (sum64 hash sw.hashed ||| recordFlagCommit) } ∧
    srNext hash sr₁ = srNext hash { sr₁ with
      input := rest
      hashed := sr₁.hashed ++ le64 (sum64 hash sr₁.hashed ||| recordFlagCommit)
      size := sr₁.size + 8
      committedRec := sr₁.recn
      committedTS := sr₁.ts
      committedSize := sr₁.size + 8 } ∧
    srNext hash sr₂ = (.corrupt, { sr₂ with
      input := sr₂.input.drop 8
      hashed := sr₂.hashed ++ sr₂.input.take 8 }) := by
  refine ⟨?_, ?_, ?_⟩
  · simp [swCommit, hsw]
  · exact srNext_commit hash sr₁ rest h1u h1r h1in
  · have hne : sr₂.input ≠ [] := by
      intro hc
      rw [hc] at h2len
      simp at h2len
    rw [srNext, srStep_commit_mismatch hash sr₂ hne h2u h2odd h2len h2mm]

/-- Concrete reader states for the C2 witness: one facing a matching commit
item, one facing a mismatching one. -/
def srC2ok : SegReader :=
  { seg := ⟨1, 1, 1, .draft⟩, input := [1, 0, 0, 0, 0, 0, 0, 0], hashed := [],
    recn := 1, ts := 1, size := 131, recordsInSeg := 1, committedRec := 0,
    committedTS := 0, committedSize := 128, data := [] }

def srC2adv : SegReader :=
  { seg := ⟨1, 1, 1, .draft⟩, input := [],
    hashed := [] ++ le64 (sum64 hashZero [] ||| recordFlagCommit), recn := 1,
    ts := 1, size := 131 + 8, recordsInSeg := 1, committedRec := 1,
    committedTS := 1, committedSize := 131 + 8, data := [] }

def srC2bad : SegReader :=
  { seg := ⟨1, 1, 1, .draft⟩, input := [3, 0, 0, 0, 0, 0, 0, 0], hashed := [],
    recn := 1, ts := 1, size := 131, recordsInSeg := 1, committedRec := 0,
    committedTS := 0, committedSize := 128, data := [] }

def srC2badDone : SegReader :=
  { seg := ⟨1, 1, 1, .draft⟩, input := [(3 : Nat), 0, 0, 0, 0, 0, 0, 0].drop 8,
    hashed := [] ++ [(3 : Nat), 0, 0, 0, 0, 0, 0, 0].take 8, recn := 1, ts := 1,
    size := 131, recordsInSeg := 1, committedRec := 0, committedTS := 0,
    committedSize := 128, data := [] }

def swC2 : SegWriter := swWriteRecord 1 [7] (swStart 1 1 1)

/-- Witness for C2 on concrete writer and reader states. -/
theorem claim_C2_witness :
    (swC2.uncommitted = true ∧
     srC2ok.input = le64 (sum64 hashZero srC2ok.hashed ||| recordFlagCommit) ++ [] ∧
     leDec (srC2bad.input.take 8) ≠ (sum64 hashZero srC2bad.hashed ||| recordFlagCommit)) ∧
    (swCommit hashZero swC2 = { swC2 with
        uncommitted := false,
        size := swC2.size + 8,
        hashed := swC2.hashed ++ le64 (sum64 hashZero swC2.hashed ||| recordFlagCommit),
        out := swC2.out ++ le64 (sum64 hashZero swC2.hashed ||| recordFlagCommit) } ∧
     srNext hashZero srC2ok = srNext hashZero { srC2ok with
        input := [],
        hashed := srC2ok.hashed ++
          le64 (sum64 hashZero srC2ok.hashed ||| recordFlagCommit),
        size := srC2ok.size + 8,
        committedRec := srC2ok.recn,
        committedTS := srC2ok.ts,
        committedSize := srC2ok.size + 8 } ∧
     srNext hashZero srC2bad = (.corrupt, { srC2bad with
        input := srC2bad.input.drop 8,
        hashed := srC2bad.hashed ++ srC2bad.input.take 8 })) :=
  ⟨⟨by decide, by decide, by decide⟩,
    claim_C2 hashZero swC2 srC2ok srC2bad [] (by rfl) (by rfl) (by decide)
      (by decide) (by rfl) (by decide) (by decide) (by decide)⟩

set_option maxHeartbeats 1000000 in
/-- C3: on an unsealed segment, reaching end of file yields a clean EOF
exactly when the bytes consumed equal the size covered by the last valid
commit marker; an uncommitted tail is `CorruptedFile`, and a file ending
mid-item (a truncated commit or truncated record data) is `CorruptedFile`
as well. -/
theorem claim_C3 (hash : List Nat → Nat) (sr₁ sr₂ sr₃ : SegReader)
    (ds td n : Nat)
    (h1u : sr₁.seg.status.isSealed = false) (h1in : sr₁.input = [])
    (h2u : sr₂.seg.status.isSealed = false) (h2ne : sr₂.input ≠ [])
    (h2odd : sr₂.input.headD 0 % 2 = 1) (h2len : sr₂.input.length < 8)
    (h3ne : sr₃.input ≠ [])
    (h3nc : ¬((!sr₃.seg.status.isSealed) = true ∧ sr₃.input.headD 0 % 2 = 1))
    (h3p : parseRecHeader (!sr₃.seg.status.isSealed) (sr₃.input.take maxRecHeaderLen) =
      some (ds, td, n))
    (h3short : (sr₃.input.drop n).length < ds) :
    srNext hash sr₁ =
      ((if sr₁.size = sr₁.committedSize then ReadRes.eof else ReadRes.corrupt), sr₁) ∧
    srNext hash sr₂ = (.corrupt, sr₂) ∧
    srNext hash sr₃ = (.corrupt, { sr₃ with
      hashed := if !sr₃.seg.status.isSealed then
          sr₃.hashed ++ (sr₃.input.take maxRecHeaderLen).take n
        else sr₃.hashed
      input := [] }) := by
  refine ⟨?_, ?_, ?_⟩
  · by_cases h : sr₁.size = sr₁.committedSize
    · rw [if_pos h]
      exact srNext_nil_eof hash sr₁ h1in h
    · rw [if_neg h]
      exact srNext_nil_corrupt hash sr₁ h1in h1u h
  · rw [srNext, srStep_commit_short hash sr₂ h2ne h2u h2odd h2len]
  · rw [srNext, srStep_rec_short hash sr₃ ds td n h3ne h3nc h3p h3short]

/-- Concrete reader states for the C3 witness. -/
def srC3eof : SegReader :=
  { seg := ⟨1, 1, 1, .draft⟩, input := [], hashed := [], recn := 1, ts := 1,
    size := 139, recordsInSeg := 1, committedRec := 1, committedTS := 1,
    committedSize := 139, data := [] }

def srC3shortCommit : SegReader :=
  { seg := ⟨1, 1, 1, .draft⟩, input := [1, 0, 0], hashed := [], recn := 1, ts := 1,
    size := 131, recordsInSeg := 1, committedRec := 0, committedTS := 0,
    committedSize := 128, data := [] }

def srC3shortRec : SegReader :=
  { seg := ⟨1, 1, 1, .draft⟩, input := [8, 0], hashed := [], recn := 0, ts := 1,
    size := 128, recordsInSeg := 0, committedRec := 0, committedTS := 0,
    committedSize := 128, data := [] }

/-- Witness for C3: a clean EOF, a truncated commit, and truncated record
data (`[8, 0]` frames a 4-byte record with no data following). -/
theorem claim_C3_witness :
    (srC3eof.input = [] ∧ srC3shortCommit.input.length < 8 ∧
     parseRecHeader (!srC3shortRec.seg.status.isSealed)
       (srC3shortRec.input.take maxRecHeaderLen) = some (4, 0, 2) ∧
     (srC3shortRec.input.drop 2).length < 4) ∧
    (srNext hashZero srC3eof =
      ((if srC3eof.size = srC3eof.committedSize then ReadRes.eof else ReadRes.corrupt),
        srC3eof) ∧
     srNext hashZero srC3shortCommit = (.corrupt, srC3shortCommit) ∧
     srNext hashZero srC3shortRec = (.corrupt, { srC3shortRec with
       hashed := if !srC3shortRec.seg.status.isSealed then
           srC3shortRec.hashed ++ (srC3shortRec.input.take maxRecHeaderLen).take 2
         else srC3shortRec.hashed
       input := [] })) :=
  ⟨⟨by decide, by decide, by decide, by decide⟩,
    claim_C3 hashZero srC3eof srC3shortCommit srC3shortRec 4 0 2 (by rfl) (by rfl)
      (by rfl) (by decide) (by decide) (by decide) (by decide) (by decide)
      (by decide) (by decide)⟩

set_option maxHeartbeats 1000000 in
/-- C10: in an unsealed segment, a commit marker whose checksum is correct but
which no record precedes (`recordsInSeg = 0`) makes the reader return
`CorruptedFile` without advancing the committed position; with at least one
prior record the same marker advances `committedRec`/`committedTS`/
`committedSize` and reading continues. -/
theorem claim_C10 (hash : List Nat → Nat) (sr₁ sr₂ : SegReader) (rest₁ rest₂ : List Nat)
    (h1u : sr₁.seg.status.isSealed = false) (h1r : sr₁.recordsInSeg = 0)
    (h1in : sr₁.input = le64 (sum64 hash sr₁.hashed ||| recordFlagCommit) ++ rest₁)
    (h2u : sr₂.seg.status.isSealed = false) (h2r : sr₂.recordsInSeg > 0)
    (h2in : sr₂.input = le64 (sum64 hash sr₂.hashed ||| recordFlagCommit) ++ rest₂) :
    srNext hash sr₁ = (.corrupt, { sr₁ with
      input := rest₁
      hashed := sr₁.hashed ++ le64 (sum64 hash sr₁.hashed ||| recordFlagCommit)
      size := sr₁.size + 8 }) ∧
    srNext hash sr₂ = srNext hash { sr₂ with
      input := rest₂
      hashed := sr₂.hashed ++ le64 (sum64 hash sr₂.hashed ||| recordFlagCommit)
      size := sr₂.size + 8
      committedRec := sr₂.recn
      committedTS := sr₂.ts
      committedSize := sr₂.size + 8 } :=
  ⟨srNext_commit_norecord hash sr₁ rest₁ h1u h1r h1in,
   srNext_commit hash sr₂ rest₂ h2u h2r h2in⟩

/-- A reader that has decoded no record yet and faces a checksum-correct
commit marker as the very first item after the header. -/
def srC10 : SegReader :=
  { seg := ⟨1, 1, 1, .draft⟩, input := [1, 0, 0, 0, 0, 0, 0, 0], hashed := [],
    recn := 0, ts := 1, size := 128, recordsInSeg := 0, committedRec := 0,
    committedTS := 0, committedSize := 128, data := [] }

/-- Witness for C10: commit-first is corrupt; after one record it commits. -/
theorem claim_C10_witness :
    (srC10.recordsInSeg = 0 ∧
     srC10.input = le64 (sum64 hashZero srC10.hashed ||| recordFlagCommit) ++ [] ∧
     srC2ok.recordsInSeg > 0) ∧
    (srNext hashZero srC10 = (.corrupt, { srC10 with
       input := [],
       hashed := srC10.hashed ++ le64 (sum64 hashZero srC10.hashed ||| recordFlagCommit),
       size := srC10.size + 8 }) ∧
     srNext hashZero srC2ok = srNext hashZero { srC2ok with
       input := [],
       hashed := srC2ok.hashed ++ le64 (sum64 hashZero srC2ok.hashed ||| recordFlagCommit),
       size := srC2ok.size + 8,
       committedRec := srC2ok.recn,
       committedTS := srC2ok.ts,
       committedSize := srC2ok.size + 8 }) :=
  ⟨⟨by decide, by decide, by decide⟩,
    claim_C10 hashZero srC10 srC2ok [] [] (by rfl) (by rfl) (by decide) (by rfl)
      (by decide) (by decide)⟩

set_option maxHeartbeats 1000000 in
/-- A Finalized-status file whose header still carries the Draft magic is
rejected as corrupted by `readSegmentHeader`, even with a valid checksum. -/
theorem readSegmentHeader_finalized_draftMagic (hash : List Nat → Nat) (j : JConfig)
    (segnum ts rn lt lr : Nat) (rest : List Nat)
    (hJ : j.journalInvariant.length = 32) (hS : j.segmentInvariant.length = 32)
    (hsg : segnum < w64) (hts : ts < w64) (hrn : rn < w64)
    (hlt : lt < w64) (hlr : lr < w64) :
    readSegmentHeader hash j
      (fillSegmentHeader hash j magicV1Draft segnum ts rn lt lr ++ rest)
      ⟨ts, rn, segnum, .finalized⟩ = .error .corrupted := by
  have hblen := encodeHeaderBody_length j magicV1Draft segnum ts rn lt lr hJ hS
  have hmlt : magicV1Draft < w64 := by decide
  have hbuf : fillSegmentHeader hash j magicV1Draft segnum ts rn lt lr ++ rest =
      encodeHeaderBody j magicV1Draft segnum ts rn lt lr ++
        (le64 (sum64 hash (encodeHeaderBody j magicV1Draft segnum ts rn lt lr)) ++ rest) := by
    simp [fillSegmentHeader, List.append_assoc]
  have hdec : decodeHeader (fillSegmentHeader hash j magicV1Draft segnum ts rn lt lr ++ rest) =
      ⟨magicV1Draft, segnum, ts, rn, lt, lr, j.journalInvariant, j.segmentInvariant, 0,
        sum64 hash (encodeHeaderBody j magicV1Draft segnum ts rn lt lr)⟩ := by
    rw [hbuf]
    exact decodeHeader_fill j magicV1Draft segnum ts rn lt lr _ rest hJ hS hmlt hsg hts hrn
      hlt hlr (sum64_lt hash _)
  unfold readSegmentHeader
  rw [hdec]
  rw [if_neg (by
    rw [hbuf]
    simp only [List.length_append, hblen, le64_length, segmentHeaderSize]
    omega)]
  rw [if_neg (by simp)]
  rw [if_neg (by
    rintro ⟨ha, _⟩
    exact Bool.noConfusion ha)]
  rw [if_neg (by
    rintro ⟨_, hb, _⟩
    exact Bool.noConfusion hb)]
  rw [if_pos (⟨fun h => Bool.noConfusion h, fun h => Bool.noConfusion h, rfl,
      by decide⟩ :
    ¬(Segment.mk ts rn segnum .finalized).status.isSealed = true ∧
    ¬(Segment.mk ts rn segnum .finalized).status.isDraft = true ∧
    (Segment.mk ts rn segnum .finalized).status = .finalized ∧
    magicV1Draft ≠ magicV1Finalized)]

set_option maxHeartbeats 1000000 in
/-- C6 (amended): recovery leniency is one-directional.  A Draft-status file
(`W` name) whose header carries the Finalized magic is accepted, because a
crash may happen between rewriting the header and renaming the file; but a
Finalized-status file (`F` name) whose header still carries the Draft magic is
rejected with `errCorruptedFile`. -/
theorem claim_C6 (hash : List Nat → Nat) (j : JConfig)
    (segnum ts rn lt lr : Nat) (rest : List Nat)
    (hJ : j.journalInvariant.length = 32) (hS : j.segmentInvariant.length = 32)
    (hsg : segnum < w64) (hts : ts < w64) (hrn : rn < w64)
    (hlt : lt < w64) (hlr : lr < w64) :
    readSegmentHeader hash j
      (fillSegmentHeader hash j magicV1Finalized segnum ts rn lt lr ++ rest)
      ⟨ts, rn, segnum, .draft⟩ =
      .ok ⟨magicV1Finalized, segnum, ts, rn, lt, lr, j.journalInvariant,
        j.segmentInvariant, 0,
        sum64 hash (encodeHeaderBody j magicV1Finalized segnum ts rn lt lr)⟩ ∧
    readSegmentHeader hash j
      (fillSegmentHeader hash j magicV1Draft segnum ts rn lt lr ++ rest)
      ⟨ts, rn, segnum, .finalized⟩ = .error .corrupted :=
  ⟨readSegmentHeader_fill hash j ⟨ts, rn, segnum, .draft⟩ magicV1Finalized segnum ts rn
      lt lr rest hJ hS (Or.inr (Or.inl rfl)) hsg hts hrn hlt hlr rfl rfl rfl
      (fun h => Bool.noConfusion h) (fun _ => Or.inr rfl)
      (fun h => Status.noConfusion h),
   readSegmentHeader_finalized_draftMagic hash j segnum ts rn lt lr rest hJ hS
     hsg hts hrn hlt hlr⟩

/-- Witness for C6 at concrete header fields. -/
theorem claim_C6_witness :
    (jTest.journalInvariant.length = 32 ∧ (1 : Nat) < w64) ∧
    (readSegmentHeader hashZero jTest
      (fillSegmentHeader hashZero jTest magicV1Finalized 1 1 1 0 0 ++ [])
      ⟨1, 1, 1, .draft⟩ =
      .ok ⟨magicV1Finalized, 1, 1, 1, 0, 0, jTest.journalInvariant,
        jTest.segmentInvariant, 0,
        sum64 hashZero (encodeHeaderBody jTest magicV1Finalized 1 1 1 0 0)⟩ ∧
    readSegmentHeader hashZero jTest
      (fillSegmentHeader hashZero jTest magicV1Draft 1 1 1 0 0 ++ [])
      ⟨1, 1, 1, .finalized⟩ = .error .corrupted) :=
  ⟨⟨by decide, by decide⟩,
    claim_C6 hashZero jTest 1 1 1 0 0 [] (by decide) (by decide) (by decide)
      (by decide) (by decide) (by decide) (by decide)⟩

/-- Counterexample to the original C6 wording: the very header that would be
accepted under Draft status (valid checksum, Draft magic) is rejected as
corrupted when the file already has Finalized status — the leniency does not
hold in the `Finalized-name, Draft-magic` direction. -/
theorem claim_C6_counterexample :
    readSegmentHeader hashZero jTest
      (fillSegmentHeader hashZero jTest magicV1Draft 2 3 4 0 0 ++ [])
      ⟨3, 4, 2, .draft⟩ =
      .ok ⟨magicV1Draft, 2, 3, 4, 0, 0, jTest.journalInvariant,
        jTest.segmentInvariant, 0,
        sum64 hashZero (encodeHeaderBody jTest magicV1Draft 2 3 4 0 0)⟩ ∧
    readSegmentHeader hashZero jTest
      (fillSegmentHeader hashZero jTest magicV1Draft 2 3 4 0 0 ++ [])
      ⟨3, 4, 2, .finalized⟩ = .error .corrupted :=
  ⟨readSegmentHeader_fill hashZero jTest ⟨3, 4, 2, .draft⟩ magicV1Draft 2 3 4 0 0 []
      (by decide) (by decide) (Or.inl rfl) (by decide) (by decide) (by decide)
      (by decide) (by decide) rfl rfl rfl
      (fun h => Bool.noConfusion h) (fun _ => Or.inl rfl)
      (fun h => Status.noConfusion h),
   readSegmentHeader_finalized_draftMagic hashZero jTest 2 3 4 0 0 []
     (by decide) (by decide) (by decide) (by decide) (by decide) (by decide)
     (by decide)⟩

/-! ## `journalWriter.WriteRecord` error propagation (C8) -/

/-- The error-propagation skeleton of `journalWriter.WriteRecord`
(`journalwriter.go` lines 150-196): empty data returns `nil`; then
`ensurePreparedToWrite_locked` runs, and — exactly as in the source —
`if err != nil { return nil }`: a preparation failure is swallowed and the
call reports success without writing anything.  Only with successful
preparation does the write path run and its result (`writeRes`) propagate. -/
def jwWriteRecordErrFlow (dataEmpty : Bool) (prep writeRes : Option HeaderErr) :
    Option HeaderErr :=
  if dataEmpty then none
  else
    match prep with
    | some _ => none
    | none => writeRes

/-- C8: contrary to the spec — which requires every public operation to
surface failures as errors — `WriteRecord` returns success (`nil`) when
`ensurePreparedToWrite` fails, for every preparation error and regardless of
the write path's result; the record is not written, yet the caller sees no
error.  The spec-required behavior would be to return the preparation
error. -/
theorem claim_C8 (e : HeaderErr) (writeRes : Option HeaderErr) :
    jwWriteRecordErrFlow false (some e) writeRes = none ∧
    jwWriteRecordErrFlow false (some e) writeRes ≠ some e := by
  refine ⟨rfl, ?_⟩
  intro h
  cases h

/-- Witness for C8 at a concrete preparation error. -/
theorem claim_C8_witness :
    jwWriteRecordErrFlow false (some .corrupted) (some .incompatible) = none ∧
    jwWriteRecordErrFlow false (some .corrupted) (some .incompatible) ≠
      some HeaderErr.corrupted :=
  claim_C8 .corrupted (some .incompatible)

/-! ## Seal/trim catalog (`part_002`, `part_007`) — C9 -/

/-- The in-memory segment catalog (`journalState`): unsealed and sealed
segments, each kept in ascending order by the code. -/
structure JState where
  unsealed : List Segment
  sealed : List Segment
deriving DecidableEq, Repr

/-- `journalState.lastSealed`. -/
def lastSealed (js : JState) : Segment := (js.sealed.getLast?).getD segZero

/-- `journalState.nextToSeal` (`part_007` lines 218-226): the first unsealed
segment beyond the last sealed one. -/
def nextToSeal (js : JState) : Segment :=
  (js.unsealed.find? (fun seg =>
    (lastSealed js).isZero || decide ((lastSealed js).segnum < seg.segnum))).getD segZero

/-- `journalState.nextToTrim` (`part_007` lines 228-237): the first unsealed
segment, if it is already covered by a sealed one. -/
def nextToTrim (js : JState) : Segment :=
  match js.unsealed with
  | [] => segZero
  | seg :: _ =>
    if !(lastSealed js).isZero && decide (seg.segnum ≤ (lastSealed js).segnum) then seg
    else segZero

/-- `journalState.addSegment` (`part_007` lines 286-307), appending to the
matching list (the source's panic on out-of-order insertion is not modelled;
the uses below always append in order). -/
def addSegment (seg : Segment) (js : JState) : JState :=
  if seg.status.isSealed then { js with sealed := js.sealed ++ [seg] }
  else { js with unsealed := js.unsealed ++ [seg] }

/-- `journalState.removeSegment` (`part_007` lines 309-321):
`slices.Index` + `slices.Delete` is removal of the first occurrence. -/
def removeSegment (seg : Segment) (js : JState) : JState :=
  if seg.status.isSealed then { js with sealed := js.sealed.erase seg }
  else { js with unsealed := js.unsealed.erase seg }

/-- One `Journal.Seal` call (`part_002` lines 66-200) at the catalog level
(sealing enabled, lock uncontended, I/O succeeding): nothing to do unless
`nextToSeal` yields a sealable (Finalized) segment; otherwise its sealed twin
is produced and added — the Finalized file itself remains until trimmed. -/
def sealStep (js : JState) : Segment × JState :=
  let next := nextToSeal js
  if next.isZero || !next.status.canSeal then (segZero, js)
  else
    let finalseg : Segment := { next with status := .sealed }
    (finalseg, addSegment finalseg js)

/-- One `Journal.Trim` call (`part_002` lines 202-236) at the catalog level:
nothing to do unless `nextToTrim` yields a sealable (Finalized) segment;
otherwise that file is deleted. -/
def trimStep (js : JState) : Segment × JState :=
  let next := nextToTrim js
  if next.isZero || !next.status.canSeal then (segZero, js)
  else (next, removeSegment next js)

theorem countP_lt {α : Type} (p q : α → Bool) :
    ∀ (l : List α), (∀ s ∈ l, q s = true → p s = true) →
    ∀ x ∈ l, p x = true → q x = false → l.countP q < l.countP p := by
  intro l
  induction l with
  | nil => intro _ x hx; cases hx
  | cons a t ih =>
    intro himp x hx hp hq
    rcases List.mem_cons.mp hx with rfl | hxt
    · rw [List.countP_cons, List.countP_cons, hp, hq]
      simp only [if_pos, if_neg, Bool.false_eq_true, if_false]
      have := List.countP_mono_left (l := t)
        (p := q) (q := p) (fun s hs => himp s (by simp [hs]))
      omega
    · have hstrict := ih (fun s hs => himp s (by simp [hs])) x hxt hp hq
      rw [List.countP_cons, List.countP_cons]
      by_cases ha : q a = true
      · rw [ha, himp a (by simp) ha]
        simp only [if_pos]
        omega
      · rw [Bool.not_eq_true] at ha
        rw [ha]
        simp only [Bool.false_eq_true, if_false]
        omega

/-- Sealing progress measure: unsealed segments still beyond the last sealed. -/
def sealMeasure (js : JState) : Nat :=
  js.unsealed.countP (fun s =>
    (lastSealed js).isZero || decide ((lastSealed js).segnum < s.segnum))

theorem sealStep_fires (js : JState) (h : ((sealStep js).1).isZero = false) :
    (nextToSeal js).isZero = false ∧ (nextToSeal js).status.canSeal = true ∧
    (sealStep js).2 = addSegment { nextToSeal js with status := .sealed } js := by
  by_cases hg : ((nextToSeal js).isZero || !(nextToSeal js).status.canSeal) = true
  · exfalso
    unfold sealStep at h
    rw [if_pos hg] at h
    cases h
  · simp only [Bool.or_eq_true, Bool.not_eq_true'] at hg
    push_neg at hg
    refine ⟨by simpa using hg.1, by simpa using hg.2, ?_⟩
    unfold sealStep
    rw [if_neg (by
      simp only [Bool.or_eq_true, Bool.not_eq_true']
      push_neg
      exact hg)]

theorem sealStep_measure (js : JState) (h : ((sealStep js).1).isZero = false) :
    sealMeasure (sealStep js).2 < sealMeasure js := by
  obtain ⟨hnz, hcs, heq⟩ := sealStep_fires js h
  have hfind : js.unsealed.find? (fun seg =>
      (lastSealed js).isZero || decide ((lastSealed js).segnum < seg.segnum)) =
      some (nextToSeal js) := by
    unfold nextToSeal
    rcases hf : js.unsealed.find? (fun seg =>
      (lastSealed js).isZero || decide ((lastSealed js).segnum < seg.segnum)) with _ | x
    · exfalso
      unfold nextToSeal at hnz
      rw [hf] at hnz
      cases hnz
    · rw [hf]
      rfl
  have hmem : nextToSeal js ∈ js.unsealed := List.mem_of_find?_eq_some hfind
  have hpred0 := List.find?_some hfind
  have hpred : ((lastSealed js).isZero ||
      decide ((lastSealed js).segnum < (nextToSeal js).segnum)) = true := by
    simpa using hpred0
  have hsealed : ({ nextToSeal js with status := Status.sealed } : Segment).status.isSealed
      = true := rfl
  have hunch : ((sealStep js).2).unsealed = js.unsealed := by
    rw [heq]
    unfold addSegment
    rw [if_pos hsealed]
  have hlast : lastSealed (sealStep js).2 = { nextToSeal js with status := .sealed } := by
    rw [heq]
    unfold addSegment
    rw [if_pos hsealed]
    unfold lastSealed
    simp [List.getLast?_concat]
  unfold sealMeasure
  rw [hunch, hlast]
  have hfz : ({ nextToSeal js with status := Status.sealed } : Segment).isZero = false := by
    unfold Segment.isZero at hnz ⊢
    simpa using hnz
  apply countP_lt _ _ js.unsealed
  · intro s _ hq
    rw [hfz] at hq
    simp only [Bool.false_or, decide_eq_true_eq] at hq
    rcases Bool.or_eq_true _ _ |>.mp hpred with h1 | h1
    · rw [h1]
      rfl
    · simp only [decide_eq_true_eq] at h1
      have : (lastSealed js).segnum < s.segnum := by
        show (lastSealed js).segnum < s.segnum
        calc (lastSealed js).segnum < (nextToSeal js).segnum := h1
        _ < s.segnum := hq
      simp [this]
  · exact hmem
  · exact hpred
  · rw [hfz]
    simp

def sealLoop (js : JState) : JState :=
  if h : ((sealStep js).1).isZero = true then js else sealLoop (sealStep js).2
termination_by sealMeasure js
decreasing_by exact sealStep_measure js (by simpa using h)

theorem trimStep_fires (js : JState) (h : ((trimStep js).1).isZero = false) :
    (nextToTrim js).isZero = false ∧ (nextToTrim js).status.canSeal = true ∧
    (trimStep js).2 = removeSegment (nextToTrim js) js := by
  by_cases hg : ((nextToTrim js).isZero || !(nextToTrim js).status.canSeal) = true
  · exfalso
    unfold trimStep at h
    rw [if_pos hg] at h
    cases h
  · simp only [Bool.or_eq_true, Bool.not_eq_true'] at hg
    push_neg at hg
    refine ⟨by simpa using hg.1, by simpa using hg.2, ?_⟩
    unfold trimStep
    rw [if_neg (by
      simp only [Bool.or_eq_true, Bool.not_eq_true']
      push_neg
      exact hg)]

theorem nextToTrim_shape (js : JState) (h : (nextToTrim js).isZero = false) :
    ∃ rest, js.unsealed = nextToTrim js :: rest ∧
      (lastSealed js).isZero = false ∧
      (nextToTrim js).segnum ≤ (lastSealed js).segnum := by
  rcases hu : js.unsealed with _ | ⟨seg, rest⟩
  · have hn : nextToTrim js = segZero := by
      unfold nextToTrim
      rw [hu]
    rw [hn] at h
    cases h
  · have hn : nextToTrim js = (if (!(lastSealed js).isZero &&
        decide (seg.segnum ≤ (lastSealed js).segnum)) = true then seg else segZero) := by
      unfold nextToTrim
      rw [hu]
    by_cases hc : (!(lastSealed js).isZero &&
        decide (seg.segnum ≤ (lastSealed js).segnum)) = true
    · rw [if_pos hc] at hn
      simp only [Bool.and_eq_true, Bool.not_eq_true', decide_eq_true_eq] at hc
      refine ⟨rest, by rw [hn], hc.1, ?_⟩
      rw [hn]
      exact hc.2
    · rw [if_neg hc] at hn
      rw [hn] at h
      cases h

theorem trimStep_measure (js : JState) (h : ((trimStep js).1).isZero = false) :
    ((trimStep js).2).unsealed.length < js.unsealed.length := by
  obtain ⟨hnz, hcs, heq⟩ := trimStep_fires js h
  obtain ⟨rest, hu, _, _⟩ := nextToTrim_shape js hnz
  have hns : (nextToTrim js).status.isSealed = false := by
    rcases hst : (nextToTrim js).status with _ | _ | _ | _ | _ <;>
      rw [hst] at hcs <;> first | rfl | cases hcs
  rw [heq]
  unfold removeSegment
  rw [if_neg (by rw [hns]; simp)]
  show (js.unsealed.erase (nextToTrim js)).length < js.unsealed.length
  rw [hu, List.erase_cons_head]
  simp

def trimLoop (js : JState) : JState :=
  if h : ((trimStep js).1).isZero = true then js else trimLoop (trimStep js).2
termination_by js.unsealed.length
decreasing_by exact trimStep_measure js (by simpa using h)

/-- `Journal.SealAndTrimAll` (`part_002` lines 41-64) at the catalog level:
`Seal` until nothing to seal, then `Trim` until nothing to trim. -/
def sealAndTrimAll (js : JState) : JState := trimLoop (sealLoop js)

theorem trimLoop_of_fix (js : JState) (h : ((trimStep js).1).isZero = true) :
    trimLoop js = js := by
  rw [trimLoop, dif_pos h]

theorem sealLoop_of_fix (js : JState) (h : ((sealStep js).1).isZero = true) :
    sealLoop js = js := by
  rw [sealLoop, dif_pos h]

theorem trimLoop_fix :
    ∀ (n : Nat) (js : JState), js.unsealed.length ≤ n →
    ((trimStep (trimLoop js)).1).isZero = true := by
  intro n
  induction n with
  | zero =>
    intro js hlen
    by_cases hz : ((trimStep js).1).isZero = true
    · rw [trimLoop_of_fix js hz]
      exact hz
    · exfalso
      have := trimStep_measure js (by simpa using hz)
      omega
  | succ n ih =>
    intro js hlen
    by_cases hz : ((trimStep js).1).isZero = true
    · rw [trimLoop_of_fix js hz]
      exact hz
    · rw [trimLoop, dif_neg hz]
      have := trimStep_measure js (by simpa using hz)
      exact ih _ (by omega)

theorem sealLoop_fix :
    ∀ (n : Nat) (js : JState), sealMeasure js ≤ n →
    ((sealStep (sealLoop js)).1).isZero = true := by
  intro n
  induction n with
  | zero =>
    intro js hlen
    by_cases hz : ((sealStep js).1).isZero = true
    · rw [sealLoop_of_fix js hz]
      exact hz
    · exfalso
      have := sealStep_measure js (by simpa using hz)
      omega
  | succ n ih =>
    intro js hlen
    by_cases hz : ((sealStep js).1).isZero = true
    · rw [sealLoop_of_fix js hz]
      exact hz
    · rw [sealLoop, dif_neg hz]
      have := sealStep_measure js (by simpa using hz)
      exact ih _ (by omega)

theorem canSeal_not_sealed (s : Status) (h : s.canSeal = true) : s.isSealed = false := by
  cases s <;> first | rfl | cases h

theorem trimStep_state (js : JState) :
    ((trimStep js).2).sealed = js.sealed ∧
    (((trimStep js).1).isZero = false → nextToSeal (trimStep js).2 = nextToSeal js) := by
  by_cases hz : ((trimStep js).1).isZero = false
  · obtain ⟨hnz, hcs, heq⟩ := trimStep_fires js hz
    obtain ⟨rest, hu, hlz, hle⟩ := nextToTrim_shape js hnz
    have hns : (nextToTrim js).status.isSealed = false := canSeal_not_sealed _ hcs
    have hrm : (trimStep js).2 = { js with unsealed := js.unsealed.erase (nextToTrim js) } := by
      rw [heq]
      unfold removeSegment
      rw [if_neg (by rw [hns]; simp)]
    have hun : ((trimStep js).2).unsealed = rest := by
      rw [hrm]
      show js.unsealed.erase (nextToTrim js) = rest
      rw [hu, List.erase_cons_head]
    have hse : ((trimStep js).2).sealed = js.sealed := by rw [hrm]
    refine ⟨hse, fun _ => ?_⟩
    have hlast : lastSealed (trimStep js).2 = lastSealed js := by
      unfold lastSealed
      rw [hse]
    unfold nextToSeal
    rw [hlast, hun, hu]
    rw [List.find?_cons_of_neg _ (by
      rw [hlz]
      simp only [Bool.false_or, decide_eq_true_eq]
      omega)]
  · rw [Bool.not_eq_false] at hz
    have heq : (trimStep js).2 = js := by
      unfold trimStep at hz ⊢
      by_cases hg : ((nextToTrim js).isZero || !(nextToTrim js).status.canSeal) = true
      · rw [if_pos hg]
      · rw [if_neg hg] at hz ⊢
        exfalso
        have hfz : (nextToTrim js).isZero = true := hz
        rw [hfz] at hg
        simp at hg
    rw [heq]
    exact ⟨rfl, fun _ => rfl⟩

theorem trimLoop_nextToSeal :
    ∀ (n : Nat) (js : JState), js.unsealed.length ≤ n →
    nextToSeal (trimLoop js) = nextToSeal js := by
  intro n
  induction n with
  | zero =>
    intro js hlen
    by_cases hz : ((trimStep js).1).isZero = true
    · rw [trimLoop_of_fix js hz]
    · exfalso
      have := trimStep_measure js (by simpa using hz)
      omega
  | succ n ih =>
    intro js hlen
    by_cases hz : ((trimStep js).1).isZero = true
    · rw [trimLoop_of_fix js hz]
    · rw [trimLoop, dif_neg hz]
      have hm := trimStep_measure js (by simpa using hz)
      rw [ih _ (by omega)]
      exact (trimStep_state js).2 (by simpa using hz)

theorem sealStep_fst_isZero (js : JState) :
    ((sealStep js).1).isZero =
      ((nextToSeal js).isZero || !(nextToSeal js).status.canSeal) := by
  by_cases hg : ((nextToSeal js).isZero || !(nextToSeal js).status.canSeal) = true
  · unfold sealStep
    rw [if_pos hg, hg]
    rfl
  · unfold sealStep
    rw [if_neg hg]
    rw [Bool.not_eq_true] at hg
    rw [hg]
    have h1 : (nextToSeal js).isZero = false := by
      cases hiz : (nextToSeal js).isZero
      · rfl
      · rw [hiz] at hg
        simp at hg
    have hfz : ({ nextToSeal js with status := Status.sealed } : Segment).isZero = false := by
      unfold Segment.isZero at h1 ⊢
      simpa using h1
    exact hfz

set_option maxHeartbeats 1000000 in
/-- C9: `SealAndTrimAll` is idempotent at the catalog level: a second full
pass finds nothing to seal (`Seal` acts only on a Finalized segment whose
number exceeds the largest sealed one, and sealing was run to exhaustion;
trimming only removes already-covered unsealed segments, which cannot make a
new segment sealable) and nothing to trim, so the directory state is
unchanged. -/
theorem claim_C9 (js : JState) :
    sealAndTrimAll (sealAndTrimAll js) = sealAndTrimAll js ∧
    ((sealStep (sealAndTrimAll js)).1).isZero = true ∧
    ((trimStep (sealAndTrimAll js)).1).isZero = true := by
  have h1 : ((sealStep (sealLoop js)).1).isZero = true :=
    sealLoop_fix (sealMeasure js) js le_rfl
  have h2 : nextToSeal (trimLoop (sealLoop js)) = nextToSeal (sealLoop js) :=
    trimLoop_nextToSeal ((sealLoop js).unsealed.length) (sealLoop js) le_rfl
  have h3 : ((sealStep (trimLoop (sealLoop js))).1).isZero = true := by
    rw [sealStep_fst_isZero, h2, ← sealStep_fst_isZero]
    exact h1
  have h4 : ((trimStep (trimLoop (sealLoop js))).1).isZero = true :=
    trimLoop_fix ((sealLoop js).unsealed.length) (sealLoop js) le_rfl
  refine ⟨?_, h3, h4⟩
  show trimLoop (sealLoop (trimLoop (sealLoop js))) = trimLoop (sealLoop js)
  rw [sealLoop_of_fix _ h3, trimLoop_of_fix _ h4]

/-! ## Resuming a Draft segment (`continueSegment`, `segmentwriter.go` 67-128) -/

attribute [ext] SegReader

theorem runVerify_ok (hash : List Nat → Nat) (sr sr' : SegReader)
    (h : srNext hash sr = (.ok, sr')) : runVerify hash sr = runVerify hash sr' := by
  rw [runVerify, h]

theorem runVerify_eof (hash : List Nat → Nat) (sr sr' : SegReader)
    (h : srNext hash sr = (.eof, sr')) : runVerify hash sr = (.eof, sr') := by
  rw [runVerify, h]

theorem runVerify_corrupt (hash : List Nat → Nat) (sr sr' : SegReader)
    (h : srNext hash sr = (.corrupt, sr')) : runVerify hash sr = (.corrupt, sr') := by
  rw [runVerify, h]

theorem srNext_of_yield (hash : List Nat → Nat) (sr sr' : SegReader) (r : ReadRes)
    (h : srStep hash sr = .yield r sr') : srNext hash sr = (r, sr') := by
  rw [srNext, h]

theorem srNext_of_again (hash : List Nat → Nat) (sr sr' : SegReader)
    (h : srStep hash sr = .again sr') : srNext hash sr = srNext hash sr' := by
  rw [srNext, h]

theorem runVerify_congr (hash : List Nat → Nat) (sr₁ sr₂ : SegReader)
    (h : srNext hash sr₁ = srNext hash sr₂) :
    runVerify hash sr₁ = runVerify hash sr₂ := by
  rw [runVerify]
  conv_rhs => rw [runVerify]
  rw [h]

theorem headD_take (l : List Nat) (k d : Nat) (hk : 1 ≤ k) :
    (l.take k).headD d = l.headD d := by
  cases l with
  | nil => simp
  | cons a t =>
    cases k with
    | zero => omega
    | succ k => simp

theorem parseRecHeader_agree (u : Bool) (b b' : List Nat) (ds td n : Nat)
    (h : parseRecHeader u b = some (ds, td, n)) (hpre : b.take n = b'.take n) :
    parseRecHeader u b' = some (ds, td, n) := by
  unfold parseRecHeader at h ⊢
  rcases h1 : uvarint b with _ | ⟨v1, n1⟩
  · rw [h1] at h
    simp at h
  · simp only [h1] at h
    rcases h2 : uvarint (b.drop n1) with _ | ⟨v2, n2⟩
    · rw [h2] at h
      simp at h
    · simp only [h2, Option.some.injEq, Prod.mk.injEq] at h
      obtain ⟨hds, htd, hn⟩ := h
      have hb1 := uvarint_some_bounds _ _ _ h1
      have hb2 := uvarint_some_bounds _ _ _ h2
      have h1' : uvarint b' = some (v1, n1) := by
        apply uvarint_prefix_agree b b' v1 n1 h1
        have hx := congrArg (List.take n1) hpre
        rwa [List.take_take, List.take_take, min_eq_left (by omega)] at hx
      have h2' : uvarint (b'.drop n1) = some (v2, n2) := by
        apply uvarint_prefix_agree _ _ _ _ h2
        have hx := congrArg (List.drop n1) hpre
        rw [List.drop_take, List.drop_take] at hx
        have h3 := congrArg (List.take n2) hx
        rwa [List.take_take, List.take_take, min_eq_left (by omega)] at h3
      simp only [h1', h2']
      simp [hds, htd, hn]

theorem leDec_take (l : List Nat) (k : Nat) (hk : 8 ≤ k) :
    leDec (l.take k) = leDec l := by
  obtain ⟨m, rfl⟩ : ∃ m, k = m + 8 := ⟨k - 8, by omega⟩
  rcases l with _ | ⟨b0, _ | ⟨b1, _ | ⟨b2, _ | ⟨b3, _ | ⟨b4, _ | ⟨b5, _ | ⟨b6, _ |
    ⟨b7, rest⟩⟩⟩⟩⟩⟩⟩⟩ <;> rfl

theorem decodeHeader_take (buf : List Nat) (k : Nat) (hk : segmentHeaderSize ≤ k) :
    decodeHeader (buf.take k) = decodeHeader buf := by
  have hk' : 128 ≤ k := hk
  have hfield : ∀ m, m ≤ 120 → leDec ((buf.take k).drop m) = leDec (buf.drop m) := by
    intro m hm
    rw [List.drop_take]
    exact leDec_take _ _ (by omega)
  have hinv : ∀ m, m + 32 ≤ 128 → ((buf.take k).drop m).take 32 = (buf.drop m).take 32 := by
    intro m hm
    rw [List.drop_take, List.take_take]
    congr 1
    omega
  unfold decodeHeader
  simp only [SegmentHeader.mk.injEq]
  refine ⟨leDec_take _ _ (by omega), hfield 8 (by omega), hfield 16 (by omega),
    hfield 24 (by omega), hfield 32 (by omega), hfield 40 (by omega),
    hinv 48 (by omega), hinv 80 (by omega), hfield 112 (by omega), hfield 120 (by omega)⟩

theorem readSegmentHeader_take (hash : List Nat → Nat) (j : JConfig) (buf : List Nat)
    (seg : Segment) (k : Nat) (hk : segmentHeaderSize ≤ k) (h : SegmentHeader)
    (hok : readSegmentHeader hash j buf seg = .ok h) :
    readSegmentHeader hash j (buf.take k) seg = .ok h := by
  have hlen : ¬buf.length < segmentHeaderSize := by
    intro hc
    unfold readSegmentHeader at hok
    rw [if_pos hc] at hok
    cases hok
  have hk2 : 128 ≤ k := hk
  have hlen2 : 128 ≤ buf.length := by
    have := Nat.le_of_not_lt hlen
    simpa [segmentHeaderSize] using this
  have hlen' : ¬(buf.take k).length < segmentHeaderSize := by
    simp only [List.length_take, segmentHeaderSize]
    omega
  have hd : decodeHeader (buf.take k) = decodeHeader buf := decodeHeader_take buf k hk
  have ht : (buf.take k).take (segmentHeaderSize - 8) = buf.take (segmentHeaderSize - 8) := by
    rw [List.take_take]
    congr 1
    show min (segmentHeaderSize - 8) k = segmentHeaderSize - 8
    simp only [segmentHeaderSize] at hk ⊢
    omega
  unfold readSegmentHeader at hok ⊢
  rw [if_neg hlen']
  rw [hd, ht]
  rw [if_neg hlen] at hok
  exact hok

set_option maxHeartbeats 1000000 in
theorem runVerify_cs (hash : List Nat → Nat) :
    ∀ (N : Nat) (sr : SegReader), sr.input.length ≤ N →
    sr.seg.status.isSealed = false →
    sr.size < (runVerify hash sr).2.committedSize ∨
      ((runVerify hash sr).2.committedSize = sr.committedSize ∧
       (runVerify hash sr).2.committedRec = sr.committedRec) := by
  intro N
  induction N with
  | zero =>
    intro sr hlen hu
    have hin : sr.input = [] := List.eq_nil_of_length_eq_zero (by omega)
    by_cases hsz : sr.size = sr.committedSize
    · rw [runVerify_eof hash sr sr (srNext_nil_eof hash sr hin hsz)]
      exact Or.inr ⟨rfl, rfl⟩
    · rw [runVerify_corrupt hash sr sr (srNext_nil_corrupt hash sr hin hu hsz)]
      exact Or.inr ⟨rfl, rfl⟩
  | succ N ih =>
    intro sr hlen hu
    by_cases hin : sr.input = []
    · by_cases hsz : sr.size = sr.committedSize
      · rw [runVerify_eof hash sr sr (srNext_nil_eof hash sr hin hsz)]
        exact Or.inr ⟨rfl, rfl⟩
      · rw [runVerify_corrupt hash sr sr (srNext_nil_corrupt hash sr hin hu hsz)]
        exact Or.inr ⟨rfl, rfl⟩
    · have hpos : 1 ≤ sr.input.length := List.length_pos.mpr hin
      by_cases hodd : sr.input.headD 0 % 2 = 1
      · by_cases h8 : sr.input.length < 8
        · rw [runVerify_corrupt hash sr sr
            (srNext_of_yield hash sr sr .corrupt (srStep_commit_short hash sr hin hu hodd h8))]
          exact Or.inr ⟨rfl, rfl⟩
        · by_cases hmm : leDec (sr.input.take 8) = (sum64 hash sr.hashed ||| recordFlagCommit)
          · have hstep := srStep_commit_match hash sr hin hu hodd h8 hmm
            by_cases hrec : sr.recordsInSeg > 0
            · rw [if_pos hrec] at hstep
              generalize hE : ({ sr with
                  input := sr.input.drop 8
                  hashed := sr.hashed ++ sr.input.take 8
                  size := sr.size + 8
                  committedRec := sr.recn
                  committedTS := sr.ts
                  committedSize := sr.size + 8 } : SegReader) = sr' at hstep
              have hs1 : sr'.size = sr.size + 8 := by rw [← hE]
              have hs2 : sr'.committedSize = sr.size + 8 := by rw [← hE]
              have hs3 : sr'.input = sr.input.drop 8 := by rw [← hE]
              have hs4 : sr'.seg = sr.seg := by rw [← hE]
              rw [runVerify_congr hash sr sr' (srNext_of_again hash sr sr' hstep)]
              rcases ih sr' (by rw [hs3]; simp only [List.length_drop]; omega)
                  (by rw [hs4]; exact hu) with h | h
              · left
                omega
              · obtain ⟨hc1, hc2⟩ := h
                left
                omega
            · rw [if_neg hrec] at hstep
              generalize hE : ({ sr with
                  input := sr.input.drop 8
                  hashed := sr.hashed ++ sr.input.take 8
                  size := sr.size + 8 } : SegReader) = sr' at hstep
              rw [runVerify_corrupt hash sr sr' (srNext_of_yield hash sr sr' .corrupt hstep)]
              right
              exact ⟨by rw [← hE], by rw [← hE]⟩
          · have hstep := srStep_commit_mismatch hash sr hin hu hodd h8 hmm
            generalize hE : ({ sr with
                input := sr.input.drop 8
                hashed := sr.hashed ++ sr.input.take 8 } : SegReader) = sr' at hstep
            rw [runVerify_corrupt hash sr sr' (srNext_of_yield hash sr sr' .corrupt hstep)]
            right
            exact ⟨by rw [← hE], by rw [← hE]⟩
      · have hnc : ¬((!sr.seg.status.isSealed) = true ∧ sr.input.headD 0 % 2 = 1) :=
          fun hc => hodd hc.2
        rcases hp : parseRecHeader (!sr.seg.status.isSealed) (sr.input.take maxRecHeaderLen)
          with _ | ⟨ds, td, nn⟩
        · rw [runVerify_corrupt hash sr sr
            (srNext_of_yield hash sr sr .corrupt (srStep_rec_parsefail hash sr hin hnc hp))]
          exact Or.inr ⟨rfl, rfl⟩
        · by_cases hshort : (sr.input.drop nn).length < ds
          · have hstep := srStep_rec_short hash sr ds td nn hin hnc hp hshort
            generalize hE : ({ sr with
                hashed := if !sr.seg.status.isSealed then
                    sr.hashed ++ (sr.input.take maxRecHeaderLen).take nn
                  else sr.hashed
                input := ([] : List Nat) } : SegReader) = sr' at hstep
            rw [runVerify_corrupt hash sr sr' (srNext_of_yield hash sr sr' .corrupt hstep)]
            right
            exact ⟨by rw [← hE], by rw [← hE]⟩
          · have hstep := srStep_rec_ok_unsealed hash sr ds td nn hin hu hnc hp hshort
            have hb := parseRecHeader_some_bounds _ _ _ _ _ hp
            generalize hE : ({ sr with
                input := (sr.input.drop nn).drop ds
                hashed := sr.hashed ++ (sr.input.take maxRecHeaderLen).take nn ++
                  (sr.input.drop nn).take ds
                recordsInSeg := sr.recordsInSeg + 1
                recn := sr.recn + 1
                ts := sr.ts + td
                size := sr.size + (nn + ds)
                data := (sr.input.drop nn).take ds } : SegReader) = sr' at hstep
            have hs1 : sr'.size = sr.size + (nn + ds) := by rw [← hE]
            have hs2 : sr'.committedSize = sr.committedSize := by rw [← hE]
            have hs2r : sr'.committedRec = sr.committedRec := by rw [← hE]
            have hs3 : sr'.input = (sr.input.drop nn).drop ds := by rw [← hE]
            have hs4 : sr'.seg = sr.seg := by rw [← hE]
            rw [runVerify_ok hash sr sr' (srNext_of_yield hash sr sr' .ok hstep)]
            have hlen' : sr'.input.length ≤ N := by
              rw [hs3]
              simp only [List.drop_drop, List.length_drop]
              omega
            rcases ih sr' hlen' (by rw [hs4]; exact hu) with h | h
            · left
              omega
            · obtain ⟨hc1, hc2⟩ := h
              right
              exact ⟨by omega, by rw [hc2, hs2r]⟩

theorem srStep_commit_trunc (hash : List Nat → Nat) (sr : SegReader) (k : Nat)
    (hu : sr.seg.status.isSealed = false) (hodd : sr.input.headD 0 % 2 = 1)
    (h8 : 8 ≤ sr.input.length) (hk : 8 ≤ k)
    (heq : leDec (sr.input.take 8) = (sum64 hash sr.hashed ||| recordFlagCommit))
    (hrec : sr.recordsInSeg > 0) :
    srStep hash { sr with input := sr.input.take k } = .again { sr with
      input := (sr.input.drop 8).take (k - 8)
      hashed := sr.hashed ++ sr.input.take 8
      size := sr.size + 8
      committedRec := sr.recn
      committedTS := sr.ts
      committedSize := sr.size + 8 } := by
  have htake8 : (sr.input.take k).take 8 = sr.input.take 8 := by
    rw [List.take_take]
    congr 1
    omega
  have hne : ({ sr with input := sr.input.take k } : SegReader).input ≠ [] := by
    show sr.input.take k ≠ []
    intro hc
    have := congrArg List.length hc
    simp only [List.length_take, List.length_nil] at this
    omega
  have hodd' : ({ sr with input := sr.input.take k } : SegReader).input.headD 0 % 2 = 1 := by
    show (sr.input.take k).headD 0 % 2 = 1
    rw [headD_take _ _ _ (by omega)]
    exact hodd
  have hl8 : ¬({ sr with input := sr.input.take k } : SegReader).input.length < 8 := by
    show ¬(sr.input.take k).length < 8
    simp only [List.length_take]
    omega
  have heq' : leDec (({ sr with input := sr.input.take k } : SegReader).input.take 8) =
      (sum64 hash ({ sr with input := sr.input.take k } : SegReader).hashed |||
        recordFlagCommit) := by
    show leDec ((sr.input.take k).take 8) = (sum64 hash sr.hashed ||| recordFlagCommit)
    rw [htake8]
    exact heq
  have hstep := srStep_commit_match hash { sr with input := sr.input.take k } hne hu hodd' hl8 heq'
  rw [if_pos (show ({ sr with input := sr.input.take k } : SegReader).recordsInSeg > 0
    from hrec)] at hstep
  rw [hstep]
  simp only [StepOut.again.injEq]
  have hdrop : (sr.input.take k).drop 8 = (sr.input.drop 8).take (k - 8) := by
    rw [List.drop_take]
  apply SegReader.ext <;> simp [hdrop, htake8]

theorem srStep_rec_trunc (hash : List Nat → Nat) (sr : SegReader) (ds td nn k : Nat)
    (hu : sr.seg.status.isSealed = false)
    (hnc : ¬((!sr.seg.status.isSealed) = true ∧ sr.input.headD 0 % 2 = 1))
    (hp : parseRecHeader (!sr.seg.status.isSealed) (sr.input.take maxRecHeaderLen) =
      some (ds, td, nn))
    (hlong : ¬(sr.input.drop nn).length < ds)
    (hne : sr.input ≠ []) (hk : nn + ds ≤ k) :
    srStep hash { sr with input := sr.input.take k } = .yield .ok { sr with
      input := ((sr.input.drop nn).drop ds).take (k - (nn + ds))
      hashed := sr.hashed ++ (sr.input.take maxRecHeaderLen).take nn ++
        (sr.input.drop nn).take ds
      recordsInSeg := sr.recordsInSeg + 1
      recn := sr.recn + 1
      ts := sr.ts + td
      size := sr.size + (nn + ds)
      data := (sr.input.drop nn).take ds } := by
  have hb := parseRecHeader_some_bounds _ _ _ _ _ hp
  have hb20 : nn ≤ 20 := by
    have h2 := hb.2
    simp only [List.length_take, maxRecHeaderLen] at h2
    omega
  have hnnpos : 1 ≤ nn := hb.1
  have hlenpos : 1 ≤ sr.input.length := List.length_pos.mpr hne
  have hne' : ({ sr with input := sr.input.take k } : SegReader).input ≠ [] := by
    show sr.input.take k ≠ []
    intro hc
    have := congrArg List.length hc
    simp only [List.length_take, List.length_nil] at this
    omega
  have hnc' : ¬((!({ sr with input := sr.input.take k } : SegReader).seg.status.isSealed) = true ∧
      ({ sr with input := sr.input.take k } : SegReader).input.headD 0 % 2 = 1) := by
    intro hc
    apply hnc
    refine ⟨hc.1, ?_⟩
    have h := hc.2
    rw [show ({ sr with input := sr.input.take k } : SegReader).input = sr.input.take k from rfl,
      headD_take _ _ _ (by omega)] at h
    exact h
  have hpre : (sr.input.take maxRecHeaderLen).take nn =
      ((sr.input.take k).take maxRecHeaderLen).take nn := by
    rw [List.take_take, List.take_take, List.take_take]
    congr 1
    simp only [maxRecHeaderLen]
    omega
  have hp' : parseRecHeader
      (!({ sr with input := sr.input.take k } : SegReader).seg.status.isSealed)
      (({ sr with input := sr.input.take k } : SegReader).input.take maxRecHeaderLen) =
      some (ds, td, nn) := by
    show parseRecHeader (!sr.seg.status.isSealed) ((sr.input.take k).take maxRecHeaderLen) = _
    exact parseRecHeader_agree _ _ _ _ _ _ hp hpre
  have hlong' : ¬(({ sr with input := sr.input.take k } : SegReader).input.drop nn).length < ds := by
    show ¬((sr.input.take k).drop nn).length < ds
    intro hcon
    rw [List.drop_take] at hcon
    rw [List.length_take] at hcon
    rw [List.length_drop] at hcon
    rw [List.length_drop] at hlong
    omega
  have hstep := srStep_rec_ok_unsealed hash { sr with input := sr.input.take k } ds td nn
    hne' hu hnc' hp' hlong'
  rw [hstep]
  simp only [StepOut.yield.injEq, true_and]
  have e1 : ((sr.input.take k).drop nn).drop ds =
      ((sr.input.drop nn).drop ds).take (k - (nn + ds)) := by
    rw [List.drop_take, List.drop_take]
    congr 1
    omega
  have e3 : ((sr.input.take k).drop nn).take ds = (sr.input.drop nn).take ds := by
    rw [List.drop_take, List.take_take]
    congr 1
    omega
  apply SegReader.ext <;> simp [e1, e3, hpre.symm]

set_option maxHeartbeats 1600000 in
/-- Determinism of recovery: if verifying an unsealed stream ends with
`committedSize` beyond the current position, then re-running the verifier on
the input truncated at `committedSize` reaches a clean EOF exactly at a state
whose `size` and `committedSize` both equal that `committedSize`.  This is
why `continueSegment`'s post-truncation re-verification can never disagree. -/
theorem runVerify_trunc (hash : List Nat → Nat) :
    ∀ (N : Nat) (sr : SegReader), sr.input.length ≤ N →
    sr.seg.status.isSealed = false →
    sr.committedSize ≤ sr.size →
    sr.size < (runVerify hash sr).2.committedSize →
    ∃ sr₂ : SegReader,
      runVerify hash { sr with
        input := sr.input.take ((runVerify hash sr).2.committedSize - sr.size) } =
        (.eof, sr₂) ∧
      sr₂.size = (runVerify hash sr).2.committedSize ∧
      sr₂.committedSize = (runVerify hash sr).2.committedSize := by
  intro N
  induction N with
  | zero =>
    intro sr hlen hu hcsle hlt
    have hin : sr.input = [] := List.eq_nil_of_length_eq_zero (by omega)
    by_cases hsz : sr.size = sr.committedSize
    · rw [runVerify_eof hash sr sr (srNext_nil_eof hash sr hin hsz)] at hlt
      have hlt' : sr.size < sr.committedSize := hlt
      omega
    · rw [runVerify_corrupt hash sr sr (srNext_nil_corrupt hash sr hin hu hsz)] at hlt
      have hlt' : sr.size < sr.committedSize := hlt
      omega
  | succ N ih =>
    intro sr hlen hu hcsle hlt
    by_cases hin : sr.input = []
    · by_cases hsz : sr.size = sr.committedSize
      · rw [runVerify_eof hash sr sr (srNext_nil_eof hash sr hin hsz)] at hlt
        have hlt' : sr.size < sr.committedSize := hlt
        omega
      · rw [runVerify_corrupt hash sr sr (srNext_nil_corrupt hash sr hin hu hsz)] at hlt
        have hlt' : sr.size < sr.committedSize := hlt
        omega
    · have hpos : 1 ≤ sr.input.length := List.length_pos.mpr hin
      by_cases hodd : sr.input.headD 0 % 2 = 1
      · by_cases h8 : sr.input.length < 8
        · rw [runVerify_corrupt hash sr sr
            (srNext_of_yield hash sr sr .corrupt
              (srStep_commit_short hash sr hin hu hodd h8))] at hlt
          have hlt' : sr.size < sr.committedSize := hlt
          omega
        · by_cases hmm : leDec (sr.input.take 8) = (sum64 hash sr.hashed ||| recordFlagCommit)
          · have hstep := srStep_commit_match hash sr hin hu hodd h8 hmm
            by_cases hrec : sr.recordsInSeg > 0
            · rw [if_pos hrec] at hstep
              rw [runVerify_congr hash sr _ (srNext_of_again hash sr _ hstep)] at hlt ⊢
              set sr' : SegReader := { sr with
                  input := sr.input.drop 8
                  hashed := sr.hashed ++ sr.input.take 8
                  size := sr.size + 8
                  committedRec := sr.recn
                  committedTS := sr.ts
                  committedSize := sr.size + 8 } with hE
              have hs1 : sr'.size = sr.size + 8 := by rw [hE]
              have hs3 : sr'.input = sr.input.drop 8 := by rw [hE]
              have hs4 : sr'.seg = sr.seg := by rw [hE]
              have hcsle' : sr'.committedSize ≤ sr'.size := by
                rw [hE]
              have hu' : sr'.seg.status.isSealed = false := by
                rw [hs4]
                exact hu
              have hlen' : sr'.input.length ≤ N := by
                rw [hs3]
                simp only [List.length_drop]
                omega
              set cs : Nat := (runVerify hash sr').2.committedSize with hC
              have hA := runVerify_cs hash sr'.input.length sr' le_rfl hu'
              rw [← hC] at hA
              rcases hA with hA | hA
              · have hIH := ih sr' hlen' hu' hcsle' hA
                rw [← hC] at hIH
                obtain ⟨sr₂, hrun2, hsz2, hcs2⟩ := hIH
                refine ⟨sr₂, ?_, hsz2, hcs2⟩
                have hgt : sr.size + 8 < cs := by
                  rw [← hs1]
                  exact hA
                have htr := srStep_commit_trunc hash sr (cs - sr.size) hu hodd (by omega)
                  (by omega) hmm hrec
                rw [runVerify_congr hash _ _ (srNext_of_again hash _ _ htr)]
                have harith : cs - sr.size - 8 = cs - (sr.size + 8) := by omega
                have hrw : ({ sr' with input := sr'.input.take (cs - sr'.size) } : SegReader) =
                    { sr with
                      input := (sr.input.drop 8).take (cs - sr.size - 8)
                      hashed := sr.hashed ++ sr.input.take 8
                      size := sr.size + 8
                      committedRec := sr.recn
                      committedTS := sr.ts
                      committedSize := sr.size + 8 } := by
                  rw [hE]
                  apply SegReader.ext <;> simp [harith]
                rw [← hrw]
                exact hrun2
              · obtain ⟨hA1, _⟩ := hA
                have hcs8 : cs = sr.size + 8 := by
                  rw [hA1, hE]
                have hk8 : cs - sr.size = 8 := by omega
                rw [hk8]
                have htr := srStep_commit_trunc hash sr 8 hu hodd (by omega) le_rfl hmm hrec
                rw [runVerify_congr hash _ _ (srNext_of_again hash _ _ htr)]
                exact ⟨_, runVerify_eof hash _ _ (srNext_nil_eof hash _ rfl rfl),
                  by show sr.size + 8 = cs; omega, by show sr.size + 8 = cs; omega⟩
            · rw [if_neg hrec] at hstep
              rw [runVerify_corrupt hash sr _
                (srNext_of_yield hash sr _ .corrupt hstep)] at hlt
              have hlt' : sr.size < sr.committedSize := hlt
              omega
          · have hstep := srStep_commit_mismatch hash sr hin hu hodd h8 hmm
            rw [runVerify_corrupt hash sr _
              (srNext_of_yield hash sr _ .corrupt hstep)] at hlt
            have hlt' : sr.size < sr.committedSize := hlt
            omega
      · have hnc : ¬((!sr.seg.status.isSealed) = true ∧ sr.input.headD 0 % 2 = 1) :=
          fun hc => hodd hc.2
        rcases hp : parseRecHeader (!sr.seg.status.isSealed) (sr.input.take maxRecHeaderLen)
          with _ | ⟨ds, td, nn⟩
        · rw [runVerify_corrupt hash sr sr
            (srNext_of_yield hash sr sr .corrupt
              (srStep_rec_parsefail hash sr hin hnc hp))] at hlt
          have hlt' : sr.size < sr.committedSize := hlt
          omega
        · by_cases hshort : (sr.input.drop nn).length < ds
          · have hstep := srStep_rec_short hash sr ds td nn hin hnc hp hshort
            rw [runVerify_corrupt hash sr _
              (srNext_of_yield hash sr _ .corrupt hstep)] at hlt
            have hlt' : sr.size < sr.committedSize := hlt
            omega
          · have hstep := srStep_rec_ok_unsealed hash sr ds td nn hin hu hnc hp hshort
            have hb := parseRecHeader_some_bounds _ _ _ _ _ hp
            rw [runVerify_ok hash sr _ (srNext_of_yield hash sr _ .ok hstep)] at hlt ⊢
            set sr' : SegReader := { sr with
                input := (sr.input.drop nn).drop ds
                hashed := sr.hashed ++ (sr.input.take maxRecHeaderLen).take nn ++
                  (sr.input.drop nn).take ds
                recordsInSeg := sr.recordsInSeg + 1
                recn := sr.recn + 1
                ts := sr.ts + td
                size := sr.size + (nn + ds)
                data := (sr.input.drop nn).take ds } with hE
            have hs1 : sr'.size = sr.size + (nn + ds) := by rw [hE]
            have hs3 : sr'.input = (sr.input.drop nn).drop ds := by rw [hE]
            have hs4 : sr'.seg = sr.seg := by rw [hE]
            have hcs' : sr'.committedSize = sr.committedSize := by rw [hE]
            have hcsle' : sr'.committedSize ≤ sr'.size := by
              rw [hcs', hs1]
              omega
            have hu' : sr'.seg.status.isSealed = false := by
              rw [hs4]
              exact hu
            have hlen' : sr'.input.length ≤ N := by
              rw [hs3]
              simp only [List.length_drop]
              omega
            set cs : Nat := (runVerify hash sr').2.committedSize with hC
            have hA := runVerify_cs hash sr'.input.length sr' le_rfl hu'
            rw [← hC] at hA
            rcases hA with hA | hA
            · have hIH := ih sr' hlen' hu' hcsle' hA
              rw [← hC] at hIH
              obtain ⟨sr₂, hrun2, hsz2, hcs2⟩ := hIH
              refine ⟨sr₂, ?_, hsz2, hcs2⟩
              have hgt : sr.size + (nn + ds) < cs := by
                rw [← hs1]
                exact hA
              have htr := srStep_rec_trunc hash sr ds td nn (cs - sr.size) hu hnc hp hshort
                hin (by omega)
              rw [runVerify_ok hash _ _ (srNext_of_yield hash _ _ .ok htr)]
              have harith : cs - sr.size - (nn + ds) = cs - (sr.size + (nn + ds)) := by omega
              have hrw : ({ sr' with input := sr'.input.take (cs - sr'.size) } : SegReader) =
                  { sr with
                    input := ((sr.input.drop nn).drop ds).take (cs - sr.size - (nn + ds))
                    hashed := sr.hashed ++ (sr.input.take maxRecHeaderLen).take nn ++
                      (sr.input.drop nn).take ds
                    recordsInSeg := sr.recordsInSeg + 1
                    recn := sr.recn + 1
                    ts := sr.ts + td
                    size := sr.size + (nn + ds)
                    data := (sr.input.drop nn).take ds } := by
                rw [hE]
                apply SegReader.ext <;> simp [harith]
              rw [← hrw]
              exact hrun2
            · obtain ⟨hA1, _⟩ := hA
              exfalso
              rw [hcs'] at hA1
              have hlt' : sr.size < cs := hlt
              omega

theorem newSegmentReader_ok (hash : List Nat → Nat) (j : JConfig) (seg : Segment)
    (file : List Nat) (sr : SegReader)
    (h : newSegmentReader hash j seg file = .ok sr) :
    ∃ h0 : SegmentHeader, readSegmentHeader hash j file seg = .ok h0 ∧
      sr = { seg := seg
             input := file.drop segmentHeaderSize
             hashed := []
             recn := seg.recnum - 1
             ts := seg.ts
             size := segmentHeaderSize
             recordsInSeg := 0
             committedRec := 0
             committedTS := 0
             committedSize := segmentHeaderSize
             data := [] } := by
  unfold newSegmentReader at h
  rcases hh : readSegmentHeader hash j file seg with e | h0
  · rw [hh] at h
    cases h
  · rw [hh] at h
    refine ⟨h0, rfl, ?_⟩
    cases h
    rfl

/-- Outcomes of `continueSegment` (`segmentwriter.go` 67-128), with the
I/O-level failures (open/remove/truncate/seek errors) outside the model:
`fileGone` is `errFileGone` after removing an unrecoverable file, `headerErr`
re-surfaces a non-corruption error from the post-truncation re-verification,
`recoverFailed` is the `failured to recover corrupted file` error, `panicked`
is `panic("journal: unreachable")` on a size mismatch after the re-read, and
`resumed` carries the reconstructed `segmentWriter`. -/
inductive ContinueRes where
  | fileGone
  | headerErr (e : HeaderErr)
  | recoverFailed
  | panicked
  | resumed (sw : SegWriter)
deriving DecidableEq, Repr

/-- `continueSegment` (`segmentwriter.go` 67-128).  The Go code checks only
`err == errCorruptedFile` after the first verification: a header-level
corruption leaves the fresh reader with `committedRec == 0` and the file is
deleted, while other header errors fall through and resume from the pristine
reader (whose `committedSize` is still 0 and `rec` is `seg.recnum - 1`).
The `out`/`uncommitted` bookkeeping fields of the `SegWriter` model start
empty/false. -/
def continueSegment (hash : List Nat → Nat) (j : JConfig) (seg : Segment)
    (file : List Nat) : ContinueRes :=
  match verifySegment hash j seg file with
  | .error .corrupted => .fileGone
  | .error _ =>
    .resumed { seg := seg, ts := seg.ts, nextRec := seg.recnum - 1 + 1, size := 0,
               hashed := [], out := [], uncommitted := false }
  | .ok (.corrupt, sr) =>
    if sr.committedRec = 0 then .fileGone
    else
      match verifySegment hash j seg (file.take sr.committedSize) with
      | .error .corrupted => .recoverFailed
      | .error e => .headerErr e
      | .ok (.corrupt, _) => .recoverFailed
      | .ok (_, sr₂) =>
        if sr₂.size ≠ sr₂.committedSize then .panicked
        else .resumed { seg := sr₂.seg, ts := sr₂.ts, nextRec := sr₂.recn + 1,
                        size := sr₂.committedSize, hashed := sr₂.hashed,
                        out := [], uncommitted := false }
  | .ok (_, sr) =>
    .resumed { seg := sr.seg, ts := sr.ts, nextRec := sr.recn + 1,
               size := sr.committedSize, hashed := sr.hashed,
               out := [], uncommitted := false }


set_option maxHeartbeats 1600000 in
/-- C4: resuming a Draft segment.  When verification reports corruption and no
committed record exists (`committedRec = 0`) the file is removed and
`FileGone` is signalled so the caller retries with the new last segment.
When `committedRec > 0` the file is truncated to `committedSize` and
re-verified from the start; the re-verification deterministically reaches a
clean EOF with `size = committedSize`, so the re-read never disagrees — the
writer always resumes from the re-read state, and neither the `panic` (size
mismatch) nor the corrupt-re-read error path is reachable.  (On a corrupt
re-read the code would return an error rather than panic, but that branch is
unreachable.) -/
theorem claim_C4 (hash : List Nat → Nat) (j : JConfig) (seg : Segment)
    (file : List Nat) (sr : SegReader)
    (hdraft : seg.status = .draft)
    (hver : verifySegment hash j seg file = .ok (.corrupt, sr)) :
    (sr.committedRec = 0 → continueSegment hash j seg file = .fileGone) ∧
    (0 < sr.committedRec →
      ∃ sr₂ : SegReader,
        verifySegment hash j seg (file.take sr.committedSize) = .ok (.eof, sr₂) ∧
        sr₂.size = sr₂.committedSize ∧
        continueSegment hash j seg file = .resumed
          { seg := sr₂.seg, ts := sr₂.ts, nextRec := sr₂.recn + 1,
            size := sr₂.committedSize, hashed := sr₂.hashed,
            out := [], uncommitted := false } ∧
        continueSegment hash j seg file ≠ .panicked ∧
        continueSegment hash j seg file ≠ .recoverFailed) := by
  constructor
  · intro h0
    unfold continueSegment
    simp only [hver]
    rw [if_pos h0]
  · intro hpos
    have hverKeep := hver
    unfold verifySegment at hver
    rcases hnew : newSegmentReader hash j seg file with e | sr₀
    · rw [hnew] at hver
      cases hver
    · rw [hnew] at hver
      have hrun : runVerify hash sr₀ = (.corrupt, sr) := by
        injection hver
      obtain ⟨hd0, hhdr, hsr0⟩ := newSegmentReader_ok hash j seg file sr₀ hnew
      have hf_seg : sr₀.seg = seg := by rw [hsr0]
      have hf_input : sr₀.input = file.drop segmentHeaderSize := by rw [hsr0]
      have hf_size : sr₀.size = segmentHeaderSize := by rw [hsr0]
      have hf_cs : sr₀.committedSize = segmentHeaderSize := by rw [hsr0]
      have hf_cr : sr₀.committedRec = 0 := by rw [hsr0]
      have hu : sr₀.seg.status.isSealed = false := by
        rw [hf_seg, hdraft]
        rfl
      have hpair : ((ReadRes.corrupt, sr) : ReadRes × SegReader).2.committedSize =
          sr.committedSize := rfl
      have hpairR : ((ReadRes.corrupt, sr) : ReadRes × SegReader).2.committedRec =
          sr.committedRec := rfl
      have hA := runVerify_cs hash sr₀.input.length sr₀ le_rfl hu
      rw [hrun, hpair, hpairR, hf_size, hf_cs, hf_cr] at hA
      rcases hA with hA | hA
      · have hgt : segmentHeaderSize < sr.committedSize := hA
        have hm := runVerify_trunc hash sr₀.input.length sr₀ le_rfl hu
          (by rw [hf_cs, hf_size])
          (by rw [hrun, hpair, hf_size]; exact hgt)
        rw [hrun, hpair] at hm
        obtain ⟨sr₂, hrun2, hsz2, hcs2⟩ := hm
        have hszeq : sr₂.size = sr₂.committedSize := by
          rw [hsz2, hcs2]
        have hk128 : segmentHeaderSize ≤ sr.committedSize := by
          have h1 : (128 : Nat) < sr.committedSize := hgt
          show (128 : Nat) ≤ sr.committedSize
          omega
        have hhdr2 : readSegmentHeader hash j (file.take sr.committedSize) seg = .ok hd0 :=
          readSegmentHeader_take hash j file seg sr.committedSize hk128 hd0 hhdr
        have hnew2 : newSegmentReader hash j seg (file.take sr.committedSize) = .ok
            { seg := seg
              input := (file.take sr.committedSize).drop segmentHeaderSize
              hashed := []
              recn := seg.recnum - 1
              ts := seg.ts
              size := segmentHeaderSize
              recordsInSeg := 0
              committedRec := 0
              committedTS := 0
              committedSize := segmentHeaderSize
              data := [] } := by
          unfold newSegmentReader
          simp only [hhdr2]
        have hinp : (file.take sr.committedSize).drop segmentHeaderSize =
            (file.drop segmentHeaderSize).take (sr.committedSize - segmentHeaderSize) := by
          rw [List.drop_take]
        have hreq : ({ seg := seg
                       input := (file.take sr.committedSize).drop segmentHeaderSize
                       hashed := []
                       recn := seg.recnum - 1
                       ts := seg.ts
                       size := segmentHeaderSize
                       recordsInSeg := 0
                       committedRec := 0
                       committedTS := 0
                       committedSize := segmentHeaderSize
                       data := [] } : SegReader) =
            { sr₀ with input := sr₀.input.take (sr.committedSize - sr₀.size) } := by
          apply SegReader.ext <;> simp [hsr0, hinp]
        have hrun2' : runVerify hash
            { seg := seg
              input := (file.take sr.committedSize).drop segmentHeaderSize
              hashed := []
              recn := seg.recnum - 1
              ts := seg.ts
              size := segmentHeaderSize
              recordsInSeg := 0
              committedRec := 0
              committedTS := 0
              committedSize := segmentHeaderSize
              data := [] } = (.eof, sr₂) := by
          rw [hreq]
          exact hrun2
        have hver2 : verifySegment hash j seg (file.take sr.committedSize) =
            .ok (.eof, sr₂) := by
          unfold verifySegment
          simp only [hnew2]
          rw [hrun2']
        have hcont : continueSegment hash j seg file = .resumed
            { seg := sr₂.seg, ts := sr₂.ts, nextRec := sr₂.recn + 1,
              size := sr₂.committedSize, hashed := sr₂.hashed,
              out := [], uncommitted := false } := by
          unfold continueSegment
          simp only [hverKeep]
          rw [if_neg (by omega : ¬sr.committedRec = 0)]
          simp only [hver2]
          rw [if_neg (by simp [hszeq] : ¬sr₂.size ≠ sr₂.committedSize)]
        refine ⟨sr₂, hver2, hszeq, hcont, ?_, ?_⟩
        · rw [hcont]
          intro hc
          cases hc
        · rw [hcont]
          intro hc
          cases hc
      · exfalso
        omega

/-- A Draft segment fixture for recovery: one record `[42]` at `ts = 5`, a
valid commit, then a truncated ninth byte that makes the tail corrupt. -/
def segC4 : Segment := ⟨5, 1, 1, .draft⟩

def tailC4 : List Nat := [2, 0, 42, 1, 0, 0, 0, 0, 0, 0, 0, 1]

def fileC4 : List Nat := fillSegmentHeader hashZero jTest magicV1Draft 1 5 1 0 0 ++ tailC4

def sr0C4 : SegReader := ⟨segC4, tailC4, [], 0, 5, 128, 0, 0, 0, 128, []⟩

def sr1C4 : SegReader :=
  ⟨segC4, [1, 0, 0, 0, 0, 0, 0, 0, 1], [2, 0, 42], 1, 5, 131, 1, 0, 0, 128, [42]⟩

def sr2C4 : SegReader :=
  ⟨segC4, [1], [2, 0, 42, 1, 0, 0, 0, 0, 0, 0, 0], 1, 5, 139, 1, 1, 5, 139, [42]⟩

theorem newSeg_C4 : newSegmentReader hashZero jTest segC4 fileC4 = .ok sr0C4 := by
  have hh := readSegmentHeader_fill hashZero jTest segC4 magicV1Draft 1 5 1 0 0 tailC4
    rfl rfl (Or.inl rfl) (by decide) (by decide) (by decide) (by decide) (by decide)
    rfl rfl rfl (by decide) (by decide) (by decide)
  unfold newSegmentReader
  rw [show fileC4 = fillSegmentHeader hashZero jTest magicV1Draft 1 5 1 0 0 ++ tailC4 from rfl]
  simp only [hh]
  have hdrop : (fillSegmentHeader hashZero jTest magicV1Draft 1 5 1 0 0 ++ tailC4).drop
      segmentHeaderSize = tailC4 := by
    rw [show segmentHeaderSize = (fillSegmentHeader hashZero jTest magicV1Draft 1 5 1 0 0).length
      from (fillSegmentHeader_length hashZero jTest magicV1Draft 1 5 1 0 0 rfl rfl).symm]
    exact List.drop_left _ _
  rw [hdrop]
  rfl

theorem srNext_C4_1 : srNext hashZero sr0C4 = (.ok, sr1C4) := by
  have hstep := srStep_rec_ok_unsealed hashZero sr0C4 1 0 2
    (by decide) rfl (by decide) (by decide) (by decide)
  rw [srNext, hstep]
  decide

theorem srNext_C4_2 : srNext hashZero sr1C4 = srNext hashZero sr2C4 := by
  have hstep := srStep_commit_match hashZero sr1C4 (by decide) rfl (by decide) (by decide)
    (by decide)
  rw [if_pos (by decide : sr1C4.recordsInSeg > 0)] at hstep
  have hlit : ({ sr1C4 with
      input := sr1C4.input.drop 8
      hashed := sr1C4.hashed ++ sr1C4.input.take 8
      size := sr1C4.size + 8
      committedRec := sr1C4.recn
      committedTS := sr1C4.ts
      committedSize := sr1C4.size + 8 } : SegReader) = sr2C4 := by decide
  rw [srNext, hstep, hlit]

theorem srNext_C4_3 : srNext hashZero sr2C4 = (.corrupt, sr2C4) := by
  rw [srNext, srStep_commit_short hashZero sr2C4 (by decide) rfl (by decide) (by decide)]

theorem runV_C4 : runVerify hashZero sr0C4 = (.corrupt, sr2C4) := by
  rw [runVerify_ok hashZero sr0C4 sr1C4 srNext_C4_1]
  rw [runVerify_congr hashZero sr1C4 sr2C4 srNext_C4_2]
  exact runVerify_corrupt hashZero sr2C4 sr2C4 srNext_C4_3

theorem hver_C4 : verifySegment hashZero jTest segC4 fileC4 = .ok (.corrupt, sr2C4) := by
  unfold verifySegment
  simp only [newSeg_C4]
  rw [runV_C4]

theorem claim_C4_witness :
    (segC4.status = .draft ∧
     verifySegment hashZero jTest segC4 fileC4 = .ok (.corrupt, sr2C4)) ∧
    ((sr2C4.committedRec = 0 → continueSegment hashZero jTest segC4 fileC4 = .fileGone) ∧
     (0 < sr2C4.committedRec →
       ∃ sr₂ : SegReader,
         verifySegment hashZero jTest segC4 (fileC4.take sr2C4.committedSize) =
           .ok (.eof, sr₂) ∧
         sr₂.size = sr₂.committedSize ∧
         continueSegment hashZero jTest segC4 fileC4 = .resumed
           { seg := sr₂.seg, ts := sr₂.ts, nextRec := sr₂.recn + 1,
             size := sr₂.committedSize, hashed := sr₂.hashed,
             out := [], uncommitted := false } ∧
         continueSegment hashZero jTest segC4 fileC4 ≠ .panicked ∧
         continueSegment hashZero jTest segC4 fileC4 ≠ .recoverFailed)) :=
  ⟨⟨rfl, hver_C4⟩, claim_C4 hashZero jTest segC4 fileC4 sr2C4 rfl hver_C4⟩
